import Mathlib

/-!
# radarr-share: a verification development

A shallow embedding of `main.go` (the `GET /` handler, its sort comparator and the
view-model methods `Poster`, `Date`, `Trending` of `Movie`) together with models of the
library calls they make, followed by the theorems that settle the specification claims.

Conventions of the embedding:

* a Go `string` / `[]byte` is a list of bytes (`GoString`);
* Go `int` / `int64` values are `Int`, with the 64-bit range made explicit where a
  conversion can leave it;
* a Go slice that is mutated in place is a `List` passed through the function;
* a loop is a structurally recursive function; its counter or fuel is fixed by the caller
  from the loop bounds, so every function is total.
-/

namespace RadarrShare

/-! ## Strings -/

/-- One byte of a Go string. -/
abbrev Byte := Fin 256

/-- A Go `string` (or `[]byte`): an immutable sequence of bytes. -/
abbrev GoString := List Byte

/-- The bytes of an ASCII string literal of the source. -/
def lit (s : String) : GoString := s.toList.map fun c => Fin.ofNat c.toNat

/-- Go's `<` on strings: bytewise lexicographic comparison. -/
def strLess : GoString → GoString → Bool
  | [], [] => false
  | [], _ :: _ => true
  | _ :: _, [] => false
  | x :: xs, y :: ys => if x < y then true else if y < x then false else strLess xs ys

/-! ## package cmp -/

/-- Go's `cmp.Compare` at type `int64`. -/
def cmpCompareInt (x y : Int) : Int :=
  if x < y then -1 else if x > y then 1 else 0

/-- Go's `cmp.Compare` at type `string`. -/
def cmpCompareString (x y : GoString) : Int :=
  if strLess x y then -1 else if strLess y x then 1 else 0

/-- Go's `cmp.Or`: the first argument that is not the zero value, else zero. -/
def cmpOr : List Int → Int
  | [] => 0
  | v :: vs => if v ≠ 0 then v else cmpOr vs

/-- The source's `cmpBool`. -/
def cmpBool (a b : Bool) : Int :=
  if !a && b then 1
  else if a && !b then -1
  else 0

/-! ## package time -/

/-- A Go `time.Time`, reduced to what `Unix` and `Format` read: the instant in seconds
since the Unix epoch and the zone offset (seconds east of UTC) in force at that instant. -/
structure Time where
  sec : Int
  offset : Int
  deriving DecidableEq, Repr

/-- The zero `time.Time`: January 1, year 1, 00:00:00 UTC. It is the value of a time
field that is absent from the decoded JSON. -/
def Time.zero : Time := ⟨-62135596800, 0⟩

/-- Go's `Time.Unix`. -/
def Time.Unix (t : Time) : Int := t.sec

/-- Day number (days since 1970-01-01) of the wall clock that `t` shows in its zone. -/
def Time.wallDay (t : Time) : Int := (t.sec + t.offset) / 86400

/-- Proleptic Gregorian date `(year, month, day)` of a day number counted from
1970-01-01, as `Time.Date` computes it. -/
def civilFromDays (days : Int) : Int × Int × Int :=
  let z := days + 719468
  let era := z / 146097
  let doe := z % 146097
  let yoe := (doe - doe / 1460 + doe / 36524 - doe / 146096) / 365
  let doy := doe - (365 * yoe + yoe / 4 - yoe / 100)
  let mp := (5 * doy + 2) / 153
  let d := doy - (153 * mp + 2) / 5 + 1
  let m := if mp < 10 then mp + 3 else mp - 9
  let y := yoe + era * 400
  (if m ≤ 2 then y + 1 else y, m, d)

/-- Go's `Time.Year`. -/
def Time.Year (t : Time) : Int := (civilFromDays t.wallDay).1

/-- Go's `Time.Month`, as a number from 1 to 12. -/
def Time.Month (t : Time) : Int := (civilFromDays t.wallDay).2.1

/-- Go's `Time.Day`. -/
def Time.Day (t : Time) : Int := (civilFromDays t.wallDay).2.2

/-- The byte of a decimal digit. -/
def digitByte (d : Nat) : Byte := Fin.ofNat (48 + d % 10)

/-- Decimal digits of a natural number, most significant first, with `fuel` bounding the
number of digits produced. -/
def natDigitsAux : Nat → Nat → GoString → GoString
  | 0, _, acc => acc
  | fuel + 1, n, acc =>
    if n < 10 then digitByte n :: acc
    else natDigitsAux fuel (n / 10) (digitByte n :: acc)

/-- Decimal representation of a natural number (`"0"` for zero). -/
def natDigits (n : Nat) : GoString := natDigitsAux (n + 1) n []

/-- The `appendInt` of package time: an optional minus sign, then the decimal digits of
the magnitude, zero-padded on the left to at least `width` digits. -/
def appendInt (x : Int) (width : Nat) : GoString :=
  let ds := natDigits x.natAbs
  (if x < 0 then lit "-" else []) ++ List.replicate (width - ds.length) (digitByte 0) ++ ds

/-- The first three letters of `Month.String`. -/
def monthAbbrev (m : Int) : GoString :=
  match m with
  | 1 => lit "Jan" | 2 => lit "Feb" | 3 => lit "Mar" | 4 => lit "Apr"
  | 5 => lit "May" | 6 => lit "Jun" | 7 => lit "Jul" | 8 => lit "Aug"
  | 9 => lit "Sep" | 10 => lit "Oct" | 11 => lit "Nov" | 12 => lit "Dec"
  | _ => lit "%!M"

/-- The layout element `_2`: the day of month, preceded by a space when it has one digit. -/
def stdUnderDay (day : Int) : GoString :=
  (if day < 10 then lit " " else []) ++ appendInt day 0

/-- Go's `Time.Format` at the layout `"_2 Jan 2006"`: the elements `_2`, `Jan` and `2006`
with the literal spaces between them. -/
def Time.Format_2Jan2006 (t : Time) : GoString :=
  stdUnderDay t.Day ++ lit " " ++ monthAbbrev t.Month ++ lit " " ++ appendInt t.Year 4

/-! ## package net/url -/

/-- The byte of an ASCII character literal of the source. -/
def byte (c : Char) : Byte := Fin.ofNat c.toNat

/-- The `shouldEscape` of package url in mode `encodeQueryComponent`: everything is
escaped except ASCII letters, digits and the marks `-`, `_`, `.`, `~`. -/
def shouldEscape (c : Byte) : Bool :=
  if (byte 'a' ≤ c && c ≤ byte 'z') || (byte 'A' ≤ c && c ≤ byte 'Z')
      || (byte '0' ≤ c && c ≤ byte '9') then false
  else if c = byte '-' || c = byte '_' || c = byte '.' || c = byte '~' then false
  else true

/-- The table `upperhex` of package url, indexed by a nibble. -/
def upperhex (n : Nat) : Byte :=
  (lit "0123456789ABCDEF").getD (n % 16) (byte '0')

/-- Go's `url.QueryEscape`: a space becomes `+`, every other escaped byte becomes `%XX`. -/
def QueryEscape : GoString → GoString
  | [] => []
  | c :: rest =>
    if shouldEscape c then
      if c = byte ' ' then byte '+' :: QueryEscape rest
      else byte '%' :: upperhex (c.val / 16) :: upperhex (c.val % 16) :: QueryEscape rest
    else c :: QueryEscape rest

/-- The `ishex` of package url. -/
def ishex (c : Byte) : Bool :=
  (byte '0' ≤ c && c ≤ byte '9') || (byte 'a' ≤ c && c ≤ byte 'f')
    || (byte 'A' ≤ c && c ≤ byte 'F')

/-- The `unhex` of package url. -/
def unhex (c : Byte) : Nat :=
  if byte '0' ≤ c && c ≤ byte '9' then c.val - 48
  else if byte 'a' ≤ c && c ≤ byte 'f' then c.val - 97 + 10
  else if byte 'A' ≤ c && c ≤ byte 'F' then c.val - 65 + 10
  else 0

/-- Go's `url.QueryUnescape`: `%XX` becomes the byte `XX`, `+` becomes a space; a `%` that
is not followed by two hex digits is an error (`none`). -/
def QueryUnescape : GoString → Option GoString
  | [] => some []
  | c :: rest =>
    if c = byte '%' then
      match rest with
      | h1 :: h2 :: rest2 =>
        if ishex h1 && ishex h2 then
          (QueryUnescape rest2).map fun t => Fin.ofNat (unhex h1 * 16 + unhex h2) :: t
        else none
      | _ => none
    else if c = byte '+' then (QueryUnescape rest).map fun t => byte ' ' :: t
    else (QueryUnescape rest).map fun t => c :: t

/-- Go's `url.Values` (`map[string][]string`): each key occurs once, with its values in
the order they were added. -/
abbrev Values := List (GoString × List GoString)

/-- Go's `Values.Add`: append the value to the key's list. -/
def Values.Add : Values → GoString → GoString → Values
  | [], key, value => [(key, [value])]
  | (k, vs) :: rest, key, value =>
    if k = key then (k, vs ++ [value]) :: rest
    else (k, vs) :: Values.Add rest key value

/-- Insert an entry into a list of entries sorted by key. -/
def insertByKey (e : GoString × List GoString) : Values → Values
  | [] => [e]
  | f :: rest => if strLess f.1 e.1 then f :: insertByKey e rest else e :: f :: rest

/-- The entries of a `Values` in the order of `slices.Sort` on its keys. -/
def Values.sorted (v : Values) : Values := v.foldr insertByKey []

/-- The value loop of `Values.Encode` for one key, appending to `buf`. -/
def encodeValues (keyEscaped : GoString) : List GoString → GoString → GoString
  | [], buf => buf
  | v :: vs, buf =>
    let buf1 := if buf.length > 0 then buf ++ [byte '&'] else buf
    encodeValues keyEscaped vs (buf1 ++ keyEscaped ++ [byte '='] ++ QueryEscape v)

/-- The key loop of `Values.Encode`, appending to `buf`. -/
def encodeKeys : Values → GoString → GoString
  | [], buf => buf
  | (k, vs) :: rest, buf => encodeKeys rest (encodeValues (QueryEscape k) vs buf)

/-- Go's `Values.Encode`: `key=value` pairs joined by `&`, sorted by key. -/
def Values.Encode (v : Values) : GoString := encodeKeys v.sorted []

/-- Go's `strings.Cut(s, sep)` for a one-byte separator: the text before the first `sep`
and the text after it (all of `s` and nothing when `sep` does not occur). -/
def cutByte (sep : Byte) : GoString → GoString × GoString
  | [] => ([], [])
  | c :: rest =>
    if c = sep then ([], rest)
    else let r := cutByte sep rest; (c :: r.1, r.2)

/-- One round of the loop of `parseQuery` on the piece `key` cut off before an `&`:
the updated values and whether the piece was rejected. -/
def parsePiece (m : Values) (piece : GoString) : Values × Bool :=
  if piece.contains (byte ';') then (m, true)
  else if piece = [] then (m, false)
  else
    let kv := cutByte (byte '=') piece
    match QueryUnescape kv.1 with
    | none => (m, true)
    | some key =>
      match QueryUnescape kv.2 with
      | none => (m, true)
      | some value => (m.Add key value, false)

/-- The loop of `parseQuery`; `fuel` bounds the number of pieces. -/
def parseQueryLoop : Nat → GoString → Values → Bool → Values × Bool
  | 0, _, m, err => (m, err)
  | fuel + 1, query, m, err =>
    if query = [] then (m, err)
    else
      let c := cutByte (byte '&') query
      let r := parsePiece m c.1
      parseQueryLoop fuel c.2 r.1 (err || r.2)

/-- Go's `url.ParseQuery`: the decoded parameters of a query string and whether any piece
was malformed. -/
def ParseQuery (query : GoString) : Values × Bool :=
  parseQueryLoop (query.length + 1) query [] false

/-! ## Numbers -/

/-- A finite `float64`: the value `± mant * 2 ^ exp`. Decoding JSON yields no other
values (no NaN, no infinity). -/
structure Float64 where
  neg : Bool
  mant : Nat
  exp : Int
  deriving DecidableEq, Repr

/-- The value of a finite `float64` with its fraction discarded (rounded toward zero). -/
def Float64.truncate (f : Float64) : Int :=
  let mag : Nat := if 0 ≤ f.exp then f.mant * 2 ^ f.exp.toNat else f.mant / 2 ^ (-f.exp).toNat
  if f.neg then -(mag : Int) else mag

/-- Whether an integer is a value of Go's 64-bit `int`. -/
def inInt64 (v : Int) : Bool := decide (-(2 : Int) ^ 63 ≤ v) && decide (v < (2 : Int) ^ 63)

/-- Reduce an integer to the 64-bit two's-complement `int` with the same low bits. -/
def wrapInt64 (v : Int) : Int := (v + 2 ^ 63) % 2 ^ 64 - 2 ^ 63

/-- Go's conversion `int(f)` of a `float64`: the fraction is discarded; when the result
does not fit `int` the language leaves the value to the implementation, which `overflow`
stands for. -/
def intOfFloat64 (overflow : Float64 → Int) (f : Float64) : Int :=
  if inInt64 f.truncate then f.truncate else wrapInt64 (overflow f)

/-- The `needsSep` of the number formatter of `golang.org/x/text` at the English pattern
`#,##0` (grouping size 3): whether a group separator follows the digit that has `pos`
integer digits from itself to the end, itself included. -/
def needsSep (pos : Nat) : Bool :=
  let p := pos - 1
  if p = 0 then false
  else if p = 3 then true
  else if p < 3 then false
  else (p - 3) % 3 = 0

/-- The digit loop of the formatter: each integer digit, followed by `,` where
`needsSep` asks for one. -/
def appendGrouped : GoString → GoString
  | [] => []
  | d :: rest =>
    if needsSep (rest.length + 1) then d :: byte ',' :: appendGrouped rest
    else d :: appendGrouped rest

/-- `Sprintf("%d", v)` of a `message.Printer` for `language.English`. -/
def printerSprintfD (v : Int) : GoString :=
  (if v < 0 then lit "-" else []) ++ appendGrouped (natDigits v.natAbs)

/-! ## The movie record and its view model -/

/-- An element of `Movie.Images`. -/
structure Image where
  CoverType : GoString
  Url : GoString
  RemoteUrl : GoString
  deriving DecidableEq, Repr

/-- The source's `Movie`, with the fields that the handler and the view model read, and
`Title`, `InCinemas` and `ID` standing for the remaining fields, which they only carry. -/
structure Movie where
  Title : GoString
  SortTitle : GoString
  InCinemas : Time
  DigitalRelease : Time
  Images : List Image
  HasFile : Bool
  Popularity : Float64
  ID : Int
  PhysicalRelease : Time
  deriving DecidableEq, Repr

/-- The loop of the source's `Movie.Poster` over the image list. -/
def posterLoop : List Image → GoString
  | [] => lit "https://critics.io/img/movies/poster-placeholder.png"
  | image :: rest =>
    if image.CoverType = lit "poster" then
      let q : Values := []
      let q := q.Add (lit "url") image.RemoteUrl
      let q := q.Add (lit "output") (lit "webp")
      let q := q.Add (lit "h") (lit "400")
      let q := q.Add (lit "q") (lit "100")
      lit "https://images.weserv.nl/?" ++ q.Encode
    else posterLoop rest

/-- The source's `Movie.Poster`. -/
def Movie.Poster (m : Movie) : GoString := posterLoop m.Images

/-- The source's `Movie.Date`. -/
def Movie.Date (m : Movie) : GoString :=
  if m.DigitalRelease.Unix > 0 then m.DigitalRelease.Format_2Jan2006
  else if m.PhysicalRelease.Unix > 0 then m.PhysicalRelease.Format_2Jan2006
  else lit "Unknown"

/-- The source's `Movie.Trending`; `overflow` is the platform's answer to converting an
out-of-range `float64`. -/
def Movie.Trending (overflow : Float64 → Int) (m : Movie) : GoString :=
  printerSprintfD (intOfFloat64 overflow m.Popularity)

/-! ## package slices: sorting

`slices.SortFunc` and the functions of `zsortanyfunc.go` that it runs: pattern-defeating
quicksort with insertion sort for short ranges and heapsort as the fallback. -/

section Sorting

variable {α : Type}

/-- The assignment `data[i], data[j] = data[j], data[i]`. -/
def swap (data : List α) (i j : Nat) : List α :=
  match data[i]?, data[j]? with
  | some x, some y => (data.set i y).set j x
  | _, _ => data

/-- The test `cmp(data[i], data[j]) < 0`. -/
def lessAt (cmp : α → α → Int) (data : List α) (i j : Nat) : Bool :=
  match data[i]?, data[j]? with
  | some x, some y => decide (cmp x y < 0)
  | _, _ => false

/-- The inner loop of `insertionSortCmpFunc`, entered with the loop variable at `j`:
`for ; j > a && cmp(data[j], data[j-1]) < 0; j-- { swap j, j-1 }`. -/
def insertionInner (cmp : α → α → Int) (a : Nat) : Nat → List α → List α
  | 0, data => data
  | j + 1, data =>
    if j + 1 > a && lessAt cmp data (j + 1) j then
      insertionInner cmp a j (swap data (j + 1) j)
    else data

/-- The outer loop of `insertionSortCmpFunc`, entered with the loop variable at `i`:
`for ; i < b; i++ { inner loop }`. The first argument bounds the remaining rounds. -/
def insertionOuter (cmp : α → α → Int) (a b : Nat) : Nat → Nat → List α → List α
  | 0, _, data => data
  | fuel + 1, i, data =>
    if i < b then insertionOuter cmp a b fuel (i + 1) (insertionInner cmp a i data)
    else data

/-- Go's `insertionSortCmpFunc`: sorts `data[a:b]` by insertion sort. -/
def insertionSortCmpFunc (data : List α) (a b : Nat) (cmp : α → α → Int) : List α :=
  insertionOuter cmp a b (b - a) (a + 1) data

/-- The loop of Go's `siftDownCmpFunc` with the loop variable at `root`; the first
argument bounds the remaining rounds. -/
def siftDownLoop (cmp : α → α → Int) (hi first : Nat) : Nat → Nat → List α → List α
  | 0, _, data => data
  | fuel + 1, root, data =>
    let child := 2 * root + 1
    if child ≥ hi then data
    else
      let child :=
        if child + 1 < hi && lessAt cmp data (first + child) (first + child + 1) then child + 1
        else child
      if !lessAt cmp data (first + root) (first + child) then data
      else siftDownLoop cmp hi first fuel child (swap data (first + root) (first + child))

/-- Go's `siftDownCmpFunc`: restores the heap property on `data[lo:hi]`, offset `first`. -/
def siftDownCmpFunc (data : List α) (lo hi first : Nat) (cmp : α → α → Int) : List α :=
  siftDownLoop cmp hi first hi lo data

/-- The first loop of `heapSortCmpFunc`: `for i := ...; i >= 0; i-- { siftDown(i, hi) }`. -/
def heapBuild (cmp : α → α → Int) (hi first : Nat) : Nat → List α → List α
  | 0, data => siftDownCmpFunc data 0 hi first cmp
  | i + 1, data => heapBuild cmp hi first i (siftDownCmpFunc data (i + 1) hi first cmp)

/-- The second loop of `heapSortCmpFunc`, with `n` rounds left (the loop variable is
`i = n - 1`): `swap(first, first+i); siftDown(lo, i)`. -/
def heapPop (cmp : α → α → Int) (first : Nat) : Nat → List α → List α
  | 0, data => data
  | i + 1, data =>
    heapPop cmp first i (siftDownCmpFunc (swap data first (first + i)) 0 i first cmp)

/-- Go's `heapSortCmpFunc`: sorts `data[a:b]` by heapsort. -/
def heapSortCmpFunc (data : List α) (a b : Nat) (cmp : α → α → Int) : List α :=
  let first := a
  let hi := b - a
  heapPop cmp first hi (heapBuild cmp hi first ((hi - 1) / 2) data)

/-- A loop `for i <= j && test(i) { i++ }`; the first argument bounds the remaining
rounds, the result is the final `i`. -/
def scanUp (test : Nat → Bool) (j : Nat) : Nat → Nat → Nat
  | 0, i => i
  | fuel + 1, i => if i ≤ j && test i then scanUp test j fuel (i + 1) else i

/-- A loop `for i <= j && test(j) { j-- }`; the result is the final `j`. (`i` is
positive wherever this is used, so `j` does not pass below zero.) -/
def scanDown (test : Nat → Bool) (i : Nat) : Nat → Nat
  | 0 => 0
  | j + 1 => if i ≤ j + 1 && test (j + 1) then scanDown test i j else j + 1

/-- The `for { ... }` loop of `partitionCmpFunc`, entered with `i` and `j`; the first
argument bounds the remaining rounds. The result is the final `j` and the data. -/
def partitionLoop (cmp : α → α → Int) (a : Nat) : Nat → Nat → Nat → List α → Nat × List α
  | 0, _, j, data => (j, data)
  | fuel + 1, i, j, data =>
    let i := scanUp (fun k => lessAt cmp data k a) j (j + 1 - i) i
    let j := scanDown (fun k => !lessAt cmp data k a) i j
    if i > j then (j, data)
    else partitionLoop cmp a fuel (i + 1) (j - 1) (swap data i j)

/-- Go's `partitionCmpFunc`: one quicksort partition of `data[a:b]` around `data[pivot]`.
The result is the new index of the pivot, whether the range was already partitioned,
and the data. -/
def partitionCmpFunc (data : List α) (a b pivot : Nat) (cmp : α → α → Int) :
    Nat × Bool × List α :=
  let data := swap data a pivot
  let i := a + 1
  let j := b - 1
  let i := scanUp (fun k => lessAt cmp data k a) j (j + 1 - i) i
  let j := scanDown (fun k => !lessAt cmp data k a) i j
  if i > j then (j, true, swap data j a)
  else
    let data := swap data i j
    let r := partitionLoop cmp a (b - a) (i + 1) (j - 1) data
    (r.1, false, swap r.2 r.1 a)

/-- The loop of `partitionEqualCmpFunc`, entered with `i` and `j`; the first argument
bounds the remaining rounds. The result is the final `i` and the data. -/
def partitionEqualLoop (cmp : α → α → Int) (a : Nat) :
    Nat → Nat → Nat → List α → Nat × List α
  | 0, i, _, data => (i, data)
  | fuel + 1, i, j, data =>
    let i := scanUp (fun k => !lessAt cmp data a k) j (j + 1 - i) i
    let j := scanDown (fun k => lessAt cmp data a k) i j
    if i > j then (i, data)
    else partitionEqualLoop cmp a fuel (i + 1) (j - 1) (swap data i j)

/-- Go's `partitionEqualCmpFunc`: partitions `data[a:b]` into the elements equal to
`data[pivot]` followed by those greater than it. -/
def partitionEqualCmpFunc (data : List α) (a b pivot : Nat) (cmp : α → α → Int) :
    Nat × List α :=
  let data := swap data a pivot
  partitionEqualLoop cmp a (b - a) (a + 1) (b - 1) data

/-- The loop "shift the smaller one to the left" of `partialInsertionSortCmpFunc`:
`for ; j >= 1; j-- { if !(cmp(data[j], data[j-1]) < 0) { break }; swap j, j-1 }`. -/
def shiftLeft (cmp : α → α → Int) : Nat → List α → List α
  | 0, data => data
  | j + 1, data =>
    if !lessAt cmp data (j + 1) j then data
    else shiftLeft cmp j (swap data (j + 1) j)

/-- The loop "shift the greater one to the right" of `partialInsertionSortCmpFunc`:
`for ; j < b; j++ { if !(cmp(data[j], data[j-1]) < 0) { break }; swap j, j-1 }`. -/
def shiftRight (cmp : α → α → Int) (b : Nat) : Nat → Nat → List α → List α
  | 0, _, data => data
  | fuel + 1, j, data =>
    if j < b then
      if !lessAt cmp data j (j - 1) then data
      else shiftRight cmp b fuel (j + 1) (swap data j (j - 1))
    else data

/-- The outer loop of `partialInsertionSortCmpFunc` with `steps` rounds left (of
`maxSteps = 5`), entered with `i`. -/
def partialInsertionLoop (cmp : α → α → Int) (a b : Nat) :
    Nat → Nat → List α → Bool × List α
  | 0, _, data => (false, data)
  | steps + 1, i, data =>
    let i := scanUp (fun k => !lessAt cmp data k (k - 1)) (b - 1) (b - i) i
    if i = b then (true, data)
    else if b - a < 50 then (false, data)
    else
      let data := swap data i (i - 1)
      let data := if i - a ≥ 2 then shiftLeft cmp (i - 1) data else data
      let data := if b - i ≥ 2 then shiftRight cmp b (b - i) (i + 1) data else data
      partialInsertionLoop cmp a b steps i data

/-- Go's `partialInsertionSortCmpFunc`: partially sorts `data[a:b]`; the flag tells
whether the range is sorted at the end. -/
def partialInsertionSortCmpFunc (data : List α) (a b : Nat) (cmp : α → α → Int) :
    Bool × List α :=
  partialInsertionLoop cmp a b 5 (a + 1) data

/-- Go's `bits.Len`: the number of bits needed to write `n`. -/
def bitsLen : Nat → Nat
  | 0 => 0
  | n + 1 => Nat.log2 (n + 1) + 1

/-- Go's `xorshift.Next` on a 64-bit state. -/
def xorshiftNext (r : Nat) : Nat :=
  let r := r ^^^ ((r <<< 13) % 2 ^ 64)
  let r := r ^^^ (r >>> 7)
  r ^^^ ((r <<< 17) % 2 ^ 64)

/-- Go's `nextPowerOfTwo`. -/
def nextPowerOfTwo (length : Nat) : Nat := 1 <<< bitsLen length

/-- The loop of `breakPatternsCmpFunc` with `n` rounds left (the loop variable is
`i = 3 - n`). -/
def breakPatternsLoop (a length modulus idx : Nat) : Nat → Nat → List α → List α
  | 0, _, data => data
  | n + 1, random, data =>
    let i := 3 - (n + 1)
    let random := xorshiftNext random
    let other := random &&& (modulus - 1)
    let other := if other ≥ length then other - length else other
    breakPatternsLoop a length modulus idx n random (swap data (idx + i) (a + other))

/-- Go's `breakPatternsCmpFunc`: scatters three elements around the middle of
`data[a:b]`. -/
def breakPatternsCmpFunc (data : List α) (a b : Nat) : List α :=
  let length := b - a
  if length ≥ 8 then
    breakPatternsLoop a length (nextPowerOfTwo length) (a + (length / 4) * 2 - 1) 3 length data
  else data

/-- Go's `sortedHint`. -/
inductive SortedHint where
  | unknownHint
  | increasingHint
  | decreasingHint
  deriving DecidableEq, Repr

/-- Go's `order2CmpFunc`: the two indices in the order of their elements, and the
updated swap count. -/
def order2CmpFunc (data : List α) (a b swaps : Nat) (cmp : α → α → Int) : Nat × Nat × Nat :=
  if lessAt cmp data b a then (b, a, swaps + 1) else (a, b, swaps)

/-- Go's `medianCmpFunc`: the index of the median of three elements, and the updated swap
count. -/
def medianCmpFunc (data : List α) (a b c swaps : Nat) (cmp : α → α → Int) : Nat × Nat :=
  let r1 := order2CmpFunc data a b swaps cmp
  let r2 := order2CmpFunc data r1.2.1 c r1.2.2 cmp
  let r3 := order2CmpFunc data r1.1 r2.1 r2.2.2 cmp
  (r3.2.1, r3.2.2)

/-- Go's `medianAdjacentCmpFunc`. -/
def medianAdjacentCmpFunc (data : List α) (a swaps : Nat) (cmp : α → α → Int) : Nat × Nat :=
  medianCmpFunc data (a - 1) a (a + 1) swaps cmp

/-- Go's `choosePivotCmpFunc`: a pivot index in `data[a:b]` and a hint on the order of
the range. -/
def choosePivotCmpFunc (data : List α) (a b : Nat) (cmp : α → α → Int) : Nat × SortedHint :=
  let l := b - a
  let swaps := 0
  let i := a + l / 4 * 1
  let j := a + l / 4 * 2
  let k := a + l / 4 * 3
  let r :=
    if l ≥ 8 then
      if l ≥ 50 then
        let ri := medianAdjacentCmpFunc data i swaps cmp
        let rj := medianAdjacentCmpFunc data j ri.2 cmp
        let rk := medianAdjacentCmpFunc data k rj.2 cmp
        medianCmpFunc data ri.1 rj.1 rk.1 rk.2 cmp
      else medianCmpFunc data i j k swaps cmp
    else (j, swaps)
  if r.2 = 0 then (r.1, SortedHint.increasingHint)
  else if r.2 = 4 * 3 then (r.1, SortedHint.decreasingHint)
  else (r.1, SortedHint.unknownHint)

/-- The loop of `reverseRangeCmpFunc`, entered with `i` and `j`. -/
def reverseLoop : Nat → Nat → Nat → List α → List α
  | 0, _, _, data => data
  | fuel + 1, i, j, data =>
    if i < j then reverseLoop fuel (i + 1) (j - 1) (swap data i j) else data

/-- Go's `reverseRangeCmpFunc`: reverses `data[a:b]`. -/
def reverseRangeCmpFunc (data : List α) (a b : Nat) : List α :=
  reverseLoop (b - a) a (b - 1) data

/-- Go's `pdqsortCmpFunc`: sorts `data[a:b]`; `limit` is the number of badly balanced
partitions allowed before the fallback to heapsort. The loop variables `wasBalanced` and
`wasPartitioned` are arguments (both `true` on every call of the source); the first
argument bounds the rounds of the loop and the depth of the recursion, and each of them
shortens the range. -/
def pdqsortCmpFunc (cmp : α → α → Int) :
    Nat → List α → Nat → Nat → Nat → Bool → Bool → List α
  | 0, data, _, _, _, _, _ => data
  | fuel + 1, data, a, b, limit, wasBalanced, wasPartitioned =>
    let length := b - a
    if length ≤ 12 then insertionSortCmpFunc data a b cmp
    else if limit = 0 then heapSortCmpFunc data a b cmp
    else
      let data := if !wasBalanced then breakPatternsCmpFunc data a b else data
      let limit := if !wasBalanced then limit - 1 else limit
      let ph := choosePivotCmpFunc data a b cmp
      let reversed := decide (ph.2 = SortedHint.decreasingHint)
      let data := if reversed then reverseRangeCmpFunc data a b else data
      let pivot := if reversed then (b - 1) - (ph.1 - a) else ph.1
      let hint := if reversed then SortedHint.increasingHint else ph.2
      let tryPartial := wasBalanced && wasPartitioned && decide (hint = SortedHint.increasingHint)
      let pi := if tryPartial then partialInsertionSortCmpFunc data a b cmp else (false, data)
      if pi.1 then pi.2
      else
        let data := pi.2
        if a > 0 && !lessAt cmp data (a - 1) pivot then
          let r := partitionEqualCmpFunc data a b pivot cmp
          pdqsortCmpFunc cmp fuel r.2 r.1 b limit wasBalanced wasPartitioned
        else
          let r := partitionCmpFunc data a b pivot cmp
          let mid := r.1
          let alreadyPartitioned := r.2.1
          let data := r.2.2
          let leftLen := mid - a
          let rightLen := b - mid
          let balanceThreshold := length / 8
          if leftLen < rightLen then
            let data := pdqsortCmpFunc cmp fuel data a mid limit true true
            pdqsortCmpFunc cmp fuel data (mid + 1) b limit
              (decide (leftLen ≥ balanceThreshold)) alreadyPartitioned
          else
            let data := pdqsortCmpFunc cmp fuel data (mid + 1) b limit true true
            pdqsortCmpFunc cmp fuel data a mid limit
              (decide (rightLen ≥ balanceThreshold)) alreadyPartitioned

/-- Go's `slices.SortFunc`. -/
def SortFunc (x : List α) (cmp : α → α → Int) : List α :=
  let n := x.length
  pdqsortCmpFunc cmp (n + 1) x 0 n (bitsLen n) true true

end Sorting

/-! ## Order notions used to state the sorting results -/

section Orders

variable {α : Type}

/-- The requirement `slices.SortFunc` puts on `cmp`: "less" (`cmp(a, b) < 0`) is a strict
weak ordering. -/
structure StrictWeak (cmp : α → α → Int) : Prop where
  asymm : ∀ a b, cmp a b < 0 → ¬ cmp b a < 0
  negTrans : ∀ a b c, ¬ cmp a b < 0 → ¬ cmp b c < 0 → ¬ cmp a c < 0

/-- The range `data[a:b]` is sorted: no element is less than an earlier one. -/
def RangeSorted (cmp : α → α → Int) (data : List α) (a b : Nat) : Prop :=
  ∀ p q x y, a ≤ p → p < q → q < b → data[p]? = some x → data[q]? = some y → ¬ cmp y x < 0

end Orders

/-! ## The `GET /` handler -/

/-- The comparator that `main` passes to `slices.SortFunc`. -/
def sortCmp (a b : Movie) : Int :=
  cmpOr [
    -cmpCompareInt a.DigitalRelease.Unix b.DigitalRelease.Unix,
    -cmpCompareInt a.PhysicalRelease.Unix b.PhysicalRelease.Unix,
    cmpBool a.HasFile b.HasFile,
    cmpCompareString a.SortTitle b.SortTitle]

/-- The sort stage of the handler: `slices.SortFunc(movies, ...)`. -/
def sortMovies (movies : List Movie) : List Movie := SortFunc movies sortCmp

/-- The composite key that the comparator reads: digital-release epoch, physical-release
epoch, has-file flag, sort title. -/
def Movie.sortKey (m : Movie) : Int × Int × Bool × GoString :=
  (m.DigitalRelease.Unix, m.PhysicalRelease.Unix, m.HasFile, m.SortTitle)

/-- The composite key order in the words of the specification: `a` may stand before `b`
when its digital release is later; or these are equal and its physical release is later;
or both are equal and `a` has a file while `b` has not; or all three are equal and the
sort title of `a` is lexicographically less than or equal to that of `b`. -/
def KeyOrder (a b : Movie) : Prop :=
  a.DigitalRelease.Unix > b.DigitalRelease.Unix ∨
  (a.DigitalRelease.Unix = b.DigitalRelease.Unix ∧
    a.PhysicalRelease.Unix > b.PhysicalRelease.Unix) ∨
  (a.DigitalRelease.Unix = b.DigitalRelease.Unix ∧
    a.PhysicalRelease.Unix = b.PhysicalRelease.Unix ∧
    a.HasFile = true ∧ b.HasFile = false) ∨
  (a.DigitalRelease.Unix = b.DigitalRelease.Unix ∧
    a.PhysicalRelease.Unix = b.PhysicalRelease.Unix ∧
    a.HasFile = b.HasFile ∧
    (List.Lex (fun x y : Byte => x < y) a.SortTitle b.SortTitle ∨ a.SortTitle = b.SortTitle))

/-- The source's `Data`. -/
structure Data where
  Movies : List Movie
  Shows : GoString
  deriving DecidableEq, Repr

/-- Go's `strings.Replace(s, old, new, 1)`: the first occurrence of `old` is replaced. -/
def replaceFirst (old new : GoString) : GoString → GoString
  | [] => []
  | c :: rest =>
    if old.isPrefixOf (c :: rest) then new ++ (c :: rest).drop old.length
    else c :: replaceFirst old new rest

/-- A value stored in the cache (a Go `interface{}`), with its dynamic type. -/
inductive CacheValue where
  | ofString (s : GoString)
  | ofBytes (b : GoString)
  deriving DecidableEq, Repr

/-- The entry of the cache under the only key the program uses, `cacheKey`. -/
structure CacheItem where
  value : CacheValue
  cost : Int
  expiration : Nat
  deriving DecidableEq, Repr

/-- The state of the ristretto cache as the handler can observe it: the `MaxCost` it was
configured with and the entry stored under `cacheKey`, if any. Times are in seconds. -/
structure Cache where
  MaxCost : Int
  item : Option CacheItem
  deriving DecidableEq, Repr

/-- The cost that ristretto adds to the cost of every item for storing it (the size of
its `storeItem`, 56 bytes), which it does unless the cache is configured with
`IgnoreInternalCost`. -/
def itemSize : Int := 56

/-- The cache of `main`:
`ristretto.NewCache(&ristretto.Config{NumCounters: 10, MaxCost: 10, BufferItems: 64})`,
empty. -/
def mainCache : Cache := ⟨10, none⟩

/-- The cache's `Get(cacheKey)` at time `now`: the stored value unless none is stored or
its time to live has elapsed; `none` is `found = false`. -/
def Cache.Get (c : Cache) (now : Nat) : Option CacheValue :=
  match c.item with
  | some it => if now ≤ it.expiration then some it.value else none
  | none => none

/-- The cache's `SetWithTTL(cacheKey, value, cost, ttl)` at time `now`. The item is
stored when it got through the set buffer (`buffered`; the cache drops writes under
contention) and its cost, with the internal cost `itemSize` added, is not above
`MaxCost`: an item that costs more than the whole cache is rejected. -/
def Cache.SetWithTTL (c : Cache) (value : CacheValue) (cost : Int) (ttl now : Nat)
    (buffered : Bool) : Cache :=
  let cost := cost + itemSize
  if buffered && decide (cost ≤ c.MaxCost) then ⟨c.MaxCost, some ⟨value, cost, now + ttl⟩⟩
  else c

/-- Go's `time.Hour`, in seconds. -/
def timeHour : Nat := 3600

/-- An upstream `http.Response`: the status code and what `io.ReadAll(resp.Body)` gives. -/
structure Response where
  StatusCode : Int
  Body : Except GoString GoString

/-- What one request meets outside the handler: the flags, the clock, the `Host` header,
and the answers of the library calls whose code is not part of the program
(`http.Get`, the cache's set buffer, `json.Unmarshal` into `[]Movie`,
`templates.ExecuteTemplate`, which returns an error or nothing). -/
structure Env where
  radarrHost : GoString
  radarrPort : Int
  radarrKey : GoString
  now : Nat
  Host : GoString
  httpGet : GoString → Except GoString Response
  buffered : Bool
  Unmarshal : GoString → Except GoString (List Movie)
  ExecuteTemplate : Data → Option GoString

/-- How the handler left: through one of its `fmt.Println(err); return` exits before the
template ran, or after running the template on `data` (`err` is what it returned). -/
inductive Outcome where
  | upstreamError (err : GoString)
  | cacheTypeError
  | decodeError (err : GoString)
  | executed (data : Data) (err : Option GoString)

/-- `fmt.Sprintf("%d", v)`. -/
def sprintD (v : Int) : GoString := (if v < 0 then lit "-" else []) ++ natDigits v.natAbs

/-- The upstream URL of the handler:
`fmt.Sprintf("http://%s:%d/api/v3/movie?apikey=%s", *radarrHost, *radarrPort, *radarrKey)`. -/
def upstreamURL (env : Env) : GoString :=
  lit "http://" ++ env.radarrHost ++ lit ":" ++ sprintD env.radarrPort
    ++ lit "/api/v3/movie?apikey=" ++ env.radarrKey

/-- The part of the handler after `b` is set: decode, sort, render. -/
def handleBody (env : Env) (b : GoString) : Outcome :=
  match env.Unmarshal b with
  | .error err => Outcome.decodeError err
  | .ok movies =>
    let movies := sortMovies movies
    let data : Data := ⟨movies, replaceFirst (lit "movies") (lit "shows") env.Host⟩
    Outcome.executed data (env.ExecuteTemplate data)

/-- The handler of `GET /`: how it leaves and the cache it leaves behind. -/
def handleRoot (env : Env) (cache : Cache) : Outcome × Cache :=
  match cache.Get env.now with
  | none =>
    match env.httpGet (upstreamURL env) with
    | .error err => (Outcome.upstreamError err, cache)
    | .ok resp =>
      match resp.Body with
      | .error err => (Outcome.upstreamError err, cache)
      | .ok b =>
        let cache := cache.SetWithTTL (CacheValue.ofString b) 1 timeHour env.now env.buffered
        (handleBody env b, cache)
  | some value =>
    match value with
    | CacheValue.ofBytes val => (handleBody env val, cache)
    | _ => (Outcome.cacheTypeError, cache)

/-! ## Notions used in the proofs -/

section ProofNotions

variable {α : Type}

/-- The invariant of the inner loop of insertion sort. -/
def InnerInv (cmp : α → α → Int) (data : List α) (a j i : Nat) : Prop :=
  (∀ p q x y, a ≤ p → p < q → q ≤ i → p ≠ j → q ≠ j →
      data[p]? = some x → data[q]? = some y → ¬ cmp y x < 0) ∧
  (∀ q x y, j < q → q ≤ i → data[j]? = some x → data[q]? = some y → cmp x y < 0)

/-- The index that a swap of `i` and `j` moves to position `p`. -/
def tr (i j p : Nat) : Nat := if p = j then i else if p = i then j else p

/-- `data2` arises from `data` by rearranging the elements at the indices of `[a, b)`. -/
structure RangeUpd (data data2 : List α) (a b : Nat) : Prop where
  length : data2.length = data.length
  frame : ∀ k, (k < a ∨ b ≤ k) → data2[k]? = data[k]?
  perm : data2.Perm data

/-- Node `k` of the heap at offset `first` is not less than its children below `hi`. -/
def Dominates (cmp : α → α → Int) (data : List α) (first hi k : Nat) : Prop :=
  ∀ c, (c = 2 * k + 1 ∨ c = 2 * k + 2) → c < hi →
    lessAt cmp data (first + k) (first + c) = false

/-- The invariant of the second loop of heapsort with `n` rounds left: the first `n`
elements form a heap, the rest is sorted and not less than any element of the heap. -/
def HeapPopInv (cmp : α → α → Int) (data : List α) (first hi n : Nat) : Prop :=
  (∀ k, Dominates cmp data first n k) ∧
  (∀ p q, n ≤ p → p < q → q < hi → lessAt cmp data (first + q) (first + p) = false) ∧
  (∀ k q, k < n → n ≤ q → q < hi → lessAt cmp data (first + q) (first + k) = false)

/-- Nothing in `data[a:b]` is less than the element just before the range. -/
def LowerBound (cmp : α → α → Int) (data : List α) (a b : Nat) : Prop :=
  a = 0 ∨ ∀ k, a ≤ k → k < b → lessAt cmp data k (a - 1) = false

end ProofNotions

/-- The relation "less" of the comparator, spelled out on the four keys. -/
def KeyLt (a b : Movie) : Prop :=
  a.DigitalRelease.Unix > b.DigitalRelease.Unix ∨
  (a.DigitalRelease.Unix = b.DigitalRelease.Unix ∧
    (a.PhysicalRelease.Unix > b.PhysicalRelease.Unix ∨
    (a.PhysicalRelease.Unix = b.PhysicalRelease.Unix ∧
      ((a.HasFile = true ∧ b.HasFile = false) ∨
      (a.HasFile = b.HasFile ∧ strLess a.SortTitle b.SortTitle = true)))))

/-- The composite key order on key tuples. -/
def keyLe (k1 k2 : Int × Int × Bool × GoString) : Prop :=
  k1.1 > k2.1 ∨
  (k1.1 = k2.1 ∧ k1.2.1 > k2.2.1) ∨
  (k1.1 = k2.1 ∧ k1.2.1 = k2.2.1 ∧ k1.2.2.1 = true ∧ k2.2.2.1 = false) ∨
  (k1.1 = k2.1 ∧ k1.2.1 = k2.2.1 ∧ k1.2.2.1 = k2.2.2.1 ∧
    (List.Lex (fun x y : Byte => x < y) k1.2.2.2 k2.2.2.2 ∨ k1.2.2.2 = k2.2.2.2))

/-- The three-letter English month names. -/
def monthNames : List GoString :=
  [lit "Jan", lit "Feb", lit "Mar", lit "Apr", lit "May", lit "Jun",
   lit "Jul", lit "Aug", lit "Sep", lit "Oct", lit "Nov", lit "Dec"]

/-- A day of month written in two characters, padded on the left with a space. -/
def dayField (d : Nat) : GoString :=
  if d < 10 then [byte ' ', digitByte d] else [digitByte (d / 10), digitByte d]

/-- A year written in four decimal digits. -/
def yearField (y : Nat) : GoString :=
  [digitByte (y / 1000), digitByte (y / 100), digitByte (y / 10), digitByte y]

/-- Exactly three decimal digits of a number below 1000. -/
def threeDigits (k : Nat) : GoString := [digitByte (k / 100), digitByte (k / 10), digitByte k]

/-- Thousands grouping in the words of the specification: the decimal digits with a comma
between each group of three digits counted from the right. The first argument bounds the
number of groups. -/
def groupThousandsAux : Nat → Nat → GoString
  | 0, n => natDigits n
  | fuel + 1, n =>
    if n < 1000 then natDigits n
    else groupThousandsAux fuel (n / 1000) ++ lit "," ++ threeDigits (n % 1000)

/-- Thousands grouping of a natural number. -/
def groupThousands (n : Nat) : GoString := groupThousandsAux n n

/-- The rendering that the specification describes for an integer: a minus sign for a
negative value, then the grouped digits of the magnitude. -/
def renderGrouped (v : Int) : GoString :=
  (if v < 0 then lit "-" else []) ++ groupThousands v.natAbs

/-- The number that the decimal digits of a text spell, other characters skipped. -/
def digitsValue : Nat → GoString → Nat
  | acc, [] => acc
  | acc, c :: rest =>
    if 48 ≤ c.val ∧ c.val ≤ 57 then digitsValue (acc * 10 + (c.val - 48)) rest
    else digitsValue acc rest

/-- An environment for examples: the flags' defaults, an upstream that answers every
request with `status` and `body`, a set buffer that takes the write, a decoder that
accepts only the empty JSON array, and a template that never fails. -/
def exampleEnv (now : Nat) (status : Int) (body : GoString) : Env where
  radarrHost := lit "radarr"
  radarrPort := 7878
  radarrKey := lit "key"
  now := now
  Host := lit "movies.example.com"
  httpGet := fun _ => .ok ⟨status, .ok body⟩
  buffered := true
  Unmarshal := fun b => if b = lit "[]" then .ok [] else .error (lit "invalid")
  ExecuteTemplate := fun _ => none

/-- A record for examples: title, sort title, digital and physical release, has-file flag
and id as given, no images, popularity 0. -/
def exampleMovie (title sortTitle : String) (digital physical : Time) (hasFile : Bool)
    (id : Int) : Movie :=
  ⟨lit title, lit sortTitle, Time.zero, digital, [], hasFile, ⟨false, 0, 0⟩, id, physical⟩

/-! ## Sorting: `slices.SortFunc` sorts -/

section SortingProofs

variable {α : Type}

theorem length_swap (data : List α) (i j : Nat) : (swap data i j).length = data.length := by
  unfold swap
  split <;> simp

theorem cons_set_perm (x y : α) : ∀ (data : List α) (j : Nat), data[j]? = some y →
    (y :: data.set j x).Perm (x :: data)
  | [], j, h => by simp at h
  | h0 :: t, 0, h => by
    simp at h
    subst h
    simpa using List.Perm.swap x h0 t
  | h0 :: t, j + 1, h => by
    simp at h
    have ih := cons_set_perm x y t j h
    simp only [List.set_cons_succ]
    exact (List.Perm.swap h0 y _).trans (((ih.cons h0)).trans (List.Perm.swap x h0 t))

theorem swap_perm : ∀ (data : List α) (i j : Nat), (swap data i j).Perm data
  | [], i, j => by simp [swap]
  | h0 :: t, 0, 0 => by simp [swap]
  | h0 :: t, 0, j + 1 => by
    unfold swap
    cases hj : t[j]? with
    | none => simp [hj]
    | some y => simpa [hj] using cons_set_perm h0 y t j hj
  | h0 :: t, i + 1, 0 => by
    unfold swap
    cases hi : t[i]? with
    | none => simp [hi]
    | some x => simpa [hi] using cons_set_perm h0 x t i hi
  | h0 :: t, i + 1, j + 1 => by
    have ih := swap_perm t i j
    unfold swap at ih ⊢
    cases hi : t[i]? with
    | none => simp [hi]
    | some x =>
      cases hj : t[j]? with
      | none => simp [hi, hj]
      | some y =>
        simp only [hi, hj] at ih
        simpa [hi, hj] using ih

theorem getElem?_swap (data : List α) (i j k : Nat) (hi : i < data.length) (hj : j < data.length) :
    (swap data i j)[k]? = if k = j then data[i]? else if k = i then data[j]? else data[k]? := by
  unfold swap
  rw [List.getElem?_eq_getElem hi, List.getElem?_eq_getElem hj]
  simp only [List.getElem?_set, List.length_set]
  by_cases h1 : k = j
  · subst h1; simp [hj]
  · by_cases h2 : k = i
    · subst h2; simp [h1, hi, Ne.symm h1]
    · simp [h1, h2, Ne.symm h1, Ne.symm h2]

theorem lessAt_get (cmp : α → α → Int) (data : List α) (i j : Nat) (hi : i < data.length)
    (hj : j < data.length) : lessAt cmp data i j = decide (cmp data[i] data[j] < 0) := by
  unfold lessAt
  rw [List.getElem?_eq_getElem hi, List.getElem?_eq_getElem hj]

theorem lessAt_of_some (cmp : α → α → Int) (data : List α) (i j : Nat) (x y : α)
    (hx : data[i]? = some x) (hy : data[j]? = some y) :
    lessAt cmp data i j = decide (cmp x y < 0) := by
  unfold lessAt
  rw [hx, hy]

theorem lessAt_true_iff (cmp : α → α → Int) (data : List α) (i j : Nat) :
    lessAt cmp data i j = true ↔
      ∃ x y, data[i]? = some x ∧ data[j]? = some y ∧ cmp x y < 0 := by
  unfold lessAt
  cases hx : data[i]? with
  | none => simp
  | some x =>
    cases hy : data[j]? with
    | none => simp
    | some y => simp

theorem insertionInner_length (cmp : α → α → Int) (a : Nat) :
    ∀ (j : Nat) (data : List α), (insertionInner cmp a j data).length = data.length
  | 0, data => rfl
  | j + 1, data => by
    unfold insertionInner
    split
    · rw [insertionInner_length cmp a j, length_swap]
    · rfl

theorem insertionInner_perm (cmp : α → α → Int) (a : Nat) :
    ∀ (j : Nat) (data : List α), (insertionInner cmp a j data).Perm data
  | 0, data => List.Perm.refl _
  | j + 1, data => by
    unfold insertionInner
    split
    · exact (insertionInner_perm cmp a j _).trans (swap_perm _ _ _)
    · exact List.Perm.refl _

theorem insertionInner_frame (cmp : α → α → Int) (a : Nat) :
    ∀ (j : Nat) (data : List α) (k : Nat), j < data.length → (k < a ∨ j < k) →
      (insertionInner cmp a j data)[k]? = data[k]?
  | 0, data, k, _, _ => rfl
  | j + 1, data, k, hj, hk => by
    unfold insertionInner
    split
    · rename_i hc
      simp only [Bool.and_eq_true, decide_eq_true_eq] at hc
      rw [insertionInner_frame cmp a j _ k (by rw [length_swap]; omega) (by omega),
        getElem?_swap _ _ _ _ hj (by omega)]
      rw [if_neg (by omega), if_neg (by omega)]
    · rfl

theorem insertionInner_sorted {cmp : α → α → Int} (hc : StrictWeak cmp) (a i : Nat) :
    ∀ (j : Nat) (data : List α), a ≤ j → j ≤ i → i < data.length → InnerInv cmp data a j i →
      RangeSorted cmp (insertionInner cmp a j data) a (i + 1)
  | 0, data, ha, _, _, hinv => by
    intro p q x y hap hpq hq hx hy
    by_cases hp0 : p = 0
    · subst hp0
      exact hc.asymm _ _ (hinv.2 q x y (by omega) (by omega) hx hy)
    · exact hinv.1 p q x y hap hpq (by omega) hp0 (by omega) hx hy
  | j + 1, data, ha, hji, hlen, hinv => by
    unfold insertionInner
    have hj1 : j + 1 < data.length := by omega
    have hj0 : j < data.length := by omega
    rw [lessAt_get cmp data _ _ hj1 hj0]
    by_cases hgt : j + 1 > a
    · simp only [hgt, decide_True, Bool.true_and, decide_eq_true_eq]
      by_cases hlt : cmp data[j + 1] data[j] < 0
      · simp only [hlt, if_true]
        apply insertionInner_sorted hc a i j _ (by omega) (by omega) (by rw [length_swap]; exact hlen)
        constructor
        · intro p q x y hap hpq hq hpj hqj hx hy
          rw [getElem?_swap _ _ _ _ hj1 hj0] at hx hy
          by_cases hpj1 : p = j + 1
          · subst hpj1
            rw [if_neg (by omega), if_pos rfl] at hx
            rw [if_neg hqj, if_neg (by omega)] at hy
            exact hinv.1 j q x y (by omega) (by omega) hq (by omega) (by omega) hx hy
          · rw [if_neg hpj, if_neg hpj1] at hx
            by_cases hqj1 : q = j + 1
            · subst hqj1
              rw [if_neg (by omega), if_pos rfl] at hy
              exact hinv.1 p j x y hap (by omega) (by omega) (by omega) (by omega) hx hy
            · rw [if_neg hqj, if_neg hqj1] at hy
              exact hinv.1 p q x y hap hpq hq hpj1 hqj1 hx hy
        · intro q x y hjq hq hx hy
          rw [getElem?_swap _ _ _ _ hj1 hj0] at hx hy
          rw [if_pos rfl] at hx
          rw [if_neg (by omega)] at hy
          rw [List.getElem?_eq_getElem hj1] at hx
          cases hx
          by_cases hqj1 : q = j + 1
          · subst hqj1
            rw [if_pos rfl, List.getElem?_eq_getElem hj0] at hy
            cases hy
            exact hlt
          · rw [if_neg hqj1] at hy
            exact hinv.2 q _ y (by omega) hq (List.getElem?_eq_getElem hj1) hy
      · simp only [hlt, if_false]
        intro p q x y hap hpq hq hx hy
        by_cases hqj1 : q = j + 1
        · subst hqj1
          rw [List.getElem?_eq_getElem hj1] at hy
          cases hy
          by_cases hpj : p = j
          · subst hpj
            rw [List.getElem?_eq_getElem hj0] at hx
            cases hx
            exact hlt
          · exact hc.negTrans _ _ _ hlt
              (hinv.1 p j x _ hap (by omega) (by omega) (by omega) (by omega) hx
                (List.getElem?_eq_getElem hj0))
        · by_cases hpj1 : p = j + 1
          · subst hpj1
            exact hc.asymm _ _ (hinv.2 q x y hpq (by omega) hx hy)
          · exact hinv.1 p q x y hap hpq (by omega) hpj1 hqj1 hx hy
    · simp only [hgt, decide_False, Bool.false_and, if_false, Bool.false_eq_true]
      intro p q x y hap hpq hq hx hy
      by_cases hpj1 : p = j + 1
      · subst hpj1
        exact hc.asymm _ _ (hinv.2 q x y hpq (by omega) hx hy)
      · exact hinv.1 p q x y hap hpq (by omega) hpj1 (by omega) hx hy

theorem insertionInner_fixed (cmp : α → α → Int) (a j : Nat) (data : List α)
    (h : a < j → lessAt cmp data j (j - 1) = false) :
    insertionInner cmp a j data = data := by
  cases j with
  | zero => rfl
  | succ j =>
    unfold insertionInner
    split
    · rename_i hc
      simp only [Bool.and_eq_true, decide_eq_true_eq] at hc
      have := h hc.1
      simp only [Nat.add_sub_cancel] at this
      rw [this] at hc
      exact absurd hc.2 (by simp)
    · rfl

theorem lessAt_false_of_sorted {cmp : α → α → Int} {data : List α} {a b : Nat}
    (hs : RangeSorted cmp data a b) (p q : Nat) (hap : a ≤ p) (hpq : p < q) (hq : q < b) :
    lessAt cmp data q p = false := by
  cases h : lessAt cmp data q p with
  | false => rfl
  | true =>
    rw [lessAt_true_iff] at h
    obtain ⟨y, x, hy, hx, hlt⟩ := h
    exact absurd hlt (hs p q x y hap hpq hq hx hy)

theorem insertionOuter_length (cmp : α → α → Int) (a b : Nat) :
    ∀ (fuel i : Nat) (data : List α), (insertionOuter cmp a b fuel i data).length = data.length
  | 0, _, _ => rfl
  | fuel + 1, i, data => by
    unfold insertionOuter
    split
    · rw [insertionOuter_length cmp a b fuel, insertionInner_length]
    · rfl

theorem insertionOuter_perm (cmp : α → α → Int) (a b : Nat) :
    ∀ (fuel i : Nat) (data : List α), (insertionOuter cmp a b fuel i data).Perm data
  | 0, _, _ => List.Perm.refl _
  | fuel + 1, i, data => by
    unfold insertionOuter
    split
    · exact (insertionOuter_perm cmp a b fuel _ _).trans (insertionInner_perm cmp a i data)
    · exact List.Perm.refl _

theorem insertionOuter_frame (cmp : α → α → Int) (a b : Nat) :
    ∀ (fuel i : Nat) (data : List α) (k : Nat), b ≤ data.length → (k < a ∨ b ≤ k) →
      (insertionOuter cmp a b fuel i data)[k]? = data[k]?
  | 0, _, _, _, _, _ => rfl
  | fuel + 1, i, data, k, hb, hk => by
    unfold insertionOuter
    split
    · rw [insertionOuter_frame cmp a b fuel _ _ k (by rw [insertionInner_length]; exact hb) hk,
        insertionInner_frame cmp a i data k (by omega) (by omega)]
    · rfl

theorem insertionOuter_sorted {cmp : α → α → Int} (hc : StrictWeak cmp) (a b : Nat) :
    ∀ (fuel i : Nat) (data : List α), b ≤ data.length → a < i → i ≤ b → b ≤ i + fuel →
      RangeSorted cmp data a i → RangeSorted cmp (insertionOuter cmp a b fuel i data) a b
  | 0, i, data, _, _, hib, hfuel, hs => by
    have : i = b := by omega
    subst this
    exact hs
  | fuel + 1, i, data, hb, hai, hib, hfuel, hs => by
    unfold insertionOuter
    split
    · rename_i hlt
      apply insertionOuter_sorted hc a b fuel (i + 1) _ (by rw [insertionInner_length]; exact hb)
        (by omega) (by omega) (by omega)
      apply insertionInner_sorted hc a i i data (by omega) (Nat.le_refl _) (by omega)
      constructor
      · intro p q x y hap hpq hq _ hqi hx hy
        exact hs p q x y hap hpq (by omega) hx hy
      · intro q x y hjq hq
        omega
    · have : i = b := by omega
      subst this
      exact hs

theorem insertionOuter_fixed (cmp : α → α → Int) (a b : Nat) (data : List α)
    (hs : RangeSorted cmp data a b) :
    ∀ (fuel i : Nat), a < i → insertionOuter cmp a b fuel i data = data
  | 0, _, _ => rfl
  | fuel + 1, i, hai => by
    unfold insertionOuter
    split
    · rename_i hlt
      have h1 : insertionInner cmp a i data = data := by
        apply insertionInner_fixed
        intro _
        exact lessAt_false_of_sorted hs (i - 1) i (by omega) (by omega) hlt
      rw [h1]
      exact insertionOuter_fixed cmp a b data hs fuel (i + 1) (by omega)
    · rfl

theorem insertionSortCmpFunc_length (data : List α) (a b : Nat) (cmp : α → α → Int) :
    (insertionSortCmpFunc data a b cmp).length = data.length :=
  insertionOuter_length cmp a b _ _ data

theorem insertionSortCmpFunc_perm (data : List α) (a b : Nat) (cmp : α → α → Int) :
    (insertionSortCmpFunc data a b cmp).Perm data :=
  insertionOuter_perm cmp a b _ _ data

theorem insertionSortCmpFunc_frame (data : List α) (a b : Nat) (cmp : α → α → Int) (k : Nat)
    (hb : b ≤ data.length) (hk : k < a ∨ b ≤ k) :
    (insertionSortCmpFunc data a b cmp)[k]? = data[k]? :=
  insertionOuter_frame cmp a b _ _ data k hb hk

theorem insertionSortCmpFunc_sorted {cmp : α → α → Int} (hc : StrictWeak cmp) (data : List α)
    (a b : Nat) (hb : b ≤ data.length) :
    RangeSorted cmp (insertionSortCmpFunc data a b cmp) a b := by
  unfold insertionSortCmpFunc
  by_cases hab : a < b
  · apply insertionOuter_sorted hc a b (b - a) (a + 1) data hb (by omega) (by omega) (by omega)
    intro p q x y hap hpq hq
    omega
  · have h0 : b - a = 0 := by omega
    rw [h0]
    intro p q x y hap hpq hq
    omega

theorem insertionSortCmpFunc_fixed (data : List α) (a b : Nat) (cmp : α → α → Int)
    (hs : RangeSorted cmp data a b) : insertionSortCmpFunc data a b cmp = data :=
  insertionOuter_fixed cmp a b data hs _ _ (by omega)

/-- A whole list is sorted on its full index range exactly when it is pairwise ordered. -/
theorem rangeSorted_iff_pairwise (cmp : α → α → Int) (data : List α) :
    RangeSorted cmp data 0 data.length ↔ data.Pairwise (fun x y => ¬ cmp y x < 0) := by
  rw [List.pairwise_iff_getElem]
  constructor
  · intro h i j hi hj hij
    exact h i j _ _ (Nat.zero_le _) hij hj (List.getElem?_eq_getElem hi) (List.getElem?_eq_getElem hj)
  · intro h p q x y _ hpq hq hx hy
    have hp : p < data.length := by omega
    rw [List.getElem?_eq_getElem hp] at hx
    rw [List.getElem?_eq_getElem hq] at hy
    cases hx
    cases hy
    exact h p q hp hq hpq

theorem getElem?_swap_tr (data : List α) (i j k : Nat) (hi : i < data.length)
    (hj : j < data.length) : (swap data i j)[k]? = data[tr i j k]? := by
  rw [getElem?_swap data i j k hi hj]
  unfold tr
  split
  · rfl
  · split <;> rfl

theorem lessAt_swap (cmp : α → α → Int) (data : List α) (i j p q : Nat) (hi : i < data.length)
    (hj : j < data.length) :
    lessAt cmp (swap data i j) p q = lessAt cmp data (tr i j p) (tr i j q) := by
  unfold lessAt
  rw [getElem?_swap_tr data i j p hi hj, getElem?_swap_tr data i j q hi hj]

theorem lessAt_false_iff (cmp : α → α → Int) (data : List α) (i j : Nat) :
    lessAt cmp data i j = false ↔
      ∀ x y, data[i]? = some x → data[j]? = some y → ¬ cmp x y < 0 := by
  unfold lessAt
  cases hx : data[i]? with
  | none => simp
  | some x =>
    cases hy : data[j]? with
    | none => simp
    | some y => simp

theorem lessAt_asymm {cmp : α → α → Int} (hc : StrictWeak cmp) (data : List α) (i j : Nat)
    (h : lessAt cmp data i j = true) : lessAt cmp data j i = false := by
  rw [lessAt_true_iff] at h
  obtain ⟨x, y, hx, hy, hlt⟩ := h
  rw [lessAt_of_some cmp data j i y x hy hx]
  simpa using hc.asymm x y hlt

theorem lessAt_negTrans {cmp : α → α → Int} (hc : StrictWeak cmp) (data : List α) (i j k : Nat)
    (hj : j < data.length) (h1 : lessAt cmp data i j = false) (h2 : lessAt cmp data j k = false) :
    lessAt cmp data i k = false := by
  rw [lessAt_false_iff] at h1 h2 ⊢
  intro x z hx hz
  exact hc.negTrans x data[j] z (h1 x _ hx (List.getElem?_eq_getElem hj))
    (h2 _ z (List.getElem?_eq_getElem hj) hz)

theorem lessAt_trans {cmp : α → α → Int} (hc : StrictWeak cmp) (data : List α) (i j k : Nat)
    (h1 : lessAt cmp data i j = true) (h2 : lessAt cmp data j k = true) :
    lessAt cmp data i k = true := by
  rw [lessAt_true_iff] at h1 h2 ⊢
  obtain ⟨x, y, hx, hy, hxy⟩ := h1
  obtain ⟨y', z, hy', hz, hyz⟩ := h2
  rw [hy] at hy'
  cases hy'
  refine ⟨x, z, hx, hz, ?_⟩
  by_contra hxz
  exact hc.negTrans x z y hxz (hc.asymm y z hyz) hxy

theorem lessAt_irrefl {cmp : α → α → Int} (hc : StrictWeak cmp) (data : List α) (i : Nat) :
    lessAt cmp data i i = false := by
  cases h : lessAt cmp data i i with
  | false => rfl
  | true => have := lessAt_asymm hc data i i h; rw [h] at this; cases this

theorem rangeSorted_iff_lessAt (cmp : α → α → Int) (data : List α) (a b : Nat) :
    RangeSorted cmp data a b ↔ ∀ p q, a ≤ p → p < q → q < b → lessAt cmp data q p = false := by
  constructor
  · intro h p q hap hpq hq
    exact lessAt_false_of_sorted h p q hap hpq hq
  · intro h p q x y hap hpq hq hx hy
    have := h p q hap hpq hq
    rw [lessAt_false_iff] at this
    exact this y x hy hx

theorem RangeUpd.refl (data : List α) (a b : Nat) : RangeUpd data data a b :=
  ⟨rfl, fun _ _ => rfl, List.Perm.refl _⟩

theorem RangeUpd.trans {d1 d2 d3 : List α} {a b : Nat} (h1 : RangeUpd d1 d2 a b)
    (h2 : RangeUpd d2 d3 a b) : RangeUpd d1 d3 a b :=
  ⟨h2.length.trans h1.length, fun k hk => (h2.frame k hk).trans (h1.frame k hk),
    h2.perm.trans h1.perm⟩

theorem RangeUpd.mono {d1 d2 : List α} {a b a2 b2 : Nat} (h : RangeUpd d1 d2 a b)
    (ha : a2 ≤ a) (hb : b ≤ b2) : RangeUpd d1 d2 a2 b2 :=
  ⟨h.length, fun k hk => h.frame k (by omega), h.perm⟩

theorem RangeUpd.symm {d1 d2 : List α} {a b : Nat} (h : RangeUpd d1 d2 a b) :
    RangeUpd d2 d1 a b :=
  ⟨h.length.symm, fun k hk => (h.frame k hk).symm, h.perm.symm⟩

theorem RangeUpd.swap (data : List α) (a b i j : Nat) (hai : a ≤ i) (hib : i < b)
    (haj : a ≤ j) (hjb : j < b) (hb : b ≤ data.length) : RangeUpd data (swap data i j) a b :=
  ⟨length_swap data i j, fun k hk => by
    rw [getElem?_swap data i j k (by omega) (by omega), if_neg (by omega), if_neg (by omega)],
    swap_perm data i j⟩

theorem list_split3 (data : List α) (a b : Nat) (hab : a ≤ b) :
    data = data.take a ++ ((data.drop a).take (b - a) ++ data.drop b) := by
  have h1 : data.drop b = (data.drop a).drop (b - a) := by
    rw [List.drop_drop]
    congr 1
    omega
  rw [h1, List.take_append_drop, List.take_append_drop]

/-- An element found at an index of `[a, b)` after a range update was at such an index
before it. -/
theorem RangeUpd.mem {d1 d2 : List α} {a b : Nat} (h : RangeUpd d1 d2 a b) (hab : a ≤ b)
    (k : Nat) (x : α) (hak : a ≤ k) (hkb : k < b) (hx : d2[k]? = some x) :
    ∃ k2, a ≤ k2 ∧ k2 < b ∧ d1[k2]? = some x := by
  have ht : d2.take a = d1.take a := by
    apply List.ext_getElem?
    intro n
    rw [List.getElem?_take, List.getElem?_take]
    split
    · exact h.frame n (by omega)
    · rfl
  have hd : d2.drop b = d1.drop b := by
    apply List.ext_getElem?
    intro n
    rw [List.getElem?_drop, List.getElem?_drop]
    exact h.frame _ (by omega)
  have hp := h.perm
  rw [list_split3 d1 a b hab, list_split3 d2 a b hab, ht, hd] at hp
  have hp2 := (List.perm_append_left_iff _).1 hp
  have hp3 := (List.perm_append_right_iff _).1 hp2
  have hmem : x ∈ (d2.drop a).take (b - a) := by
    rw [List.mem_iff_getElem?]
    refine ⟨k - a, ?_⟩
    rw [List.getElem?_take, if_pos (by omega), List.getElem?_drop]
    rw [show a + (k - a) = k by omega]
    exact hx
  have hmem1 := hp3.subset hmem
  rw [List.mem_iff_getElem?] at hmem1
  obtain ⟨n, hn⟩ := hmem1
  rw [List.getElem?_take] at hn
  split at hn
  · rw [List.getElem?_drop] at hn
    exact ⟨a + n, by omega, by omega, hn⟩
  · cases hn

/-- The child that `siftDownCmpFunc` compares the root with: the left one, or the right
one when it exists and the left one is less than it. -/
theorem siftChild_cases (cmp : α → α → Int) (data : List α) (hi first root : Nat) :
    ∀ cc, (if (decide (2 * root + 1 + 1 < hi) &&
        lessAt cmp data (first + (2 * root + 1)) (first + (2 * root + 1) + 1)) = true
        then 2 * root + 1 + 1 else 2 * root + 1) = cc →
      (cc = 2 * root + 1 ∧ (2 * root + 2 < hi →
          lessAt cmp data (first + (2 * root + 1)) (first + (2 * root + 2)) = false)) ∨
      (cc = 2 * root + 2 ∧ 2 * root + 2 < hi ∧
          lessAt cmp data (first + (2 * root + 1)) (first + (2 * root + 2)) = true) := by
  intro cc hcc
  split at hcc
  · rename_i hcond
    simp only [Bool.and_eq_true, decide_eq_true_eq] at hcond
    right
    exact ⟨hcc.symm, hcond.1, hcond.2⟩
  · rename_i hcond
    simp only [Bool.and_eq_true, decide_eq_true_eq, not_and, Bool.not_eq_true] at hcond
    left
    exact ⟨hcc.symm, fun h => hcond h⟩

theorem siftDownLoop_upd (cmp : α → α → Int) (hi first : Nat) :
    ∀ (fuel root : Nat) (data : List α), first + hi ≤ data.length →
      RangeUpd data (siftDownLoop cmp hi first fuel root data) (first + root) (first + hi)
  | 0, _, data, _ => RangeUpd.refl _ _ _
  | fuel + 1, root, data, hlen => by
    unfold siftDownLoop
    by_cases hchild : 2 * root + 1 ≥ hi
    · rw [if_pos hchild]
      exact RangeUpd.refl _ _ _
    · simp only [if_neg hchild]
      generalize hcc : (if (decide (2 * root + 1 + 1 < hi) &&
        lessAt cmp data (first + (2 * root + 1)) (first + (2 * root + 1) + 1)) = true
        then 2 * root + 1 + 1 else 2 * root + 1) = cc
      have hcases := siftChild_cases cmp data hi first root cc hcc
      have hcc1 : root < cc ∧ cc < hi := by
        rcases hcases with ⟨h, _⟩ | ⟨h, h2, _⟩ <;> omega
      split
      · exact RangeUpd.refl _ _ _
      · have h1 := RangeUpd.swap data (first + root) (first + hi) (first + root)
          (first + cc) (by omega) (by omega) (by omega) (by omega) hlen
        have h2 := siftDownLoop_upd cmp hi first fuel cc (swap data (first + root) (first + cc))
          (by rw [length_swap]; exact hlen)
        exact h1.trans (h2.mono (by omega) (Nat.le_refl _))

theorem siftDownLoop_heap {cmp : α → α → Int} (hc : StrictWeak cmp) (hi first lo : Nat) :
    ∀ (fuel root : Nat) (data : List α), first + hi ≤ data.length → lo ≤ root →
      hi ≤ root + fuel →
      (∀ k, lo ≤ k → k ≠ root → Dominates cmp data first hi k) →
      (∀ p c, lo ≤ p → (root = 2 * p + 1 ∨ root = 2 * p + 2) →
        (c = 2 * root + 1 ∨ c = 2 * root + 2) → c < hi →
        lessAt cmp data (first + p) (first + c) = false) →
      ∀ k, lo ≤ k → Dominates cmp (siftDownLoop cmp hi first fuel root data) first hi k
  | 0, root, data, _, _, hfuel, h1, _ => by
    intro k hk
    by_cases hkr : k = root
    · intro c hc1 hc2
      omega
    · exact h1 k hk hkr
  | fuel + 1, root, data, hlen, hlo, hfuel, h1, h2 => by
    unfold siftDownLoop
    by_cases hchild : 2 * root + 1 ≥ hi
    · rw [if_pos hchild]
      intro k hk
      by_cases hkr : k = root
      · intro c hc1 hc2
        omega
      · exact h1 k hk hkr
    · simp only [if_neg hchild]
      generalize hcc : (if (decide (2 * root + 1 + 1 < hi) &&
        lessAt cmp data (first + (2 * root + 1)) (first + (2 * root + 1) + 1)) = true
        then 2 * root + 1 + 1 else 2 * root + 1) = cc
      have hcases := siftChild_cases cmp data hi first root cc hcc
      have hcc1 : root < cc ∧ cc < hi := by
        rcases hcases with ⟨h, _⟩ | ⟨h, h2, _⟩ <;> omega
      by_cases hless : lessAt cmp data (first + root) (first + cc) = true
      · -- swap and continue below
        rw [if_neg (by simp [hless])]
        have hr : first + root < data.length := by omega
        have hcl : first + cc < data.length := by omega
        apply siftDownLoop_heap hc hi first lo fuel cc _ (by rw [length_swap]; exact hlen)
          (by omega) (by omega)
        · intro k hk hkcc c hc1 hc2
          rw [lessAt_swap cmp data _ _ _ _ hr hcl]
          by_cases hkr : k = root
          · subst hkr
            have e1 : tr (first + k) (first + cc) (first + k) = first + cc := by
              unfold tr; rw [if_neg (by omega), if_pos rfl]
            rw [e1]
            by_cases hccc : c = cc
            · subst hccc
              have e2 : tr (first + k) (first + c) (first + c) = first + k := by
                unfold tr; rw [if_pos rfl]
              rw [e2]
              exact lessAt_asymm hc data _ _ hless
            · have e2 : tr (first + k) (first + cc) (first + c) = first + c := by
                unfold tr; rw [if_neg (by omega), if_neg (by omega)]
              rw [e2]
              rcases hcases with ⟨h, hl⟩ | ⟨h, h2, hl⟩
              · have hc' : c = 2 * k + 2 := by omega
                subst h; subst hc'
                exact hl hc2
              · have hc' : c = 2 * k + 1 := by omega
                subst h; subst hc'
                exact lessAt_asymm hc data _ _ hl
          · have e1 : tr (first + root) (first + cc) (first + k) = first + k := by
              unfold tr; rw [if_neg (by omega), if_neg (by omega)]
            rw [e1]
            by_cases hcr : c = root
            · subst hcr
              have e2 : tr (first + c) (first + cc) (first + c) = first + cc := by
                unfold tr; rw [if_neg (by omega), if_pos rfl]
              rw [e2]
              exact h2 k cc hk (by omega) (by omega) hcc1.2
            · have e2 : tr (first + root) (first + cc) (first + c) = first + c := by
                unfold tr; rw [if_neg (by omega), if_neg (by omega)]
              rw [e2]
              exact h1 k hk hkr c hc1 hc2
        · intro p c hp hpc hcch hc2
          rw [lessAt_swap cmp data _ _ _ _ hr hcl]
          have hpr : p = root := by omega
          subst hpr
          have e1 : tr (first + p) (first + cc) (first + p) = first + cc := by
            unfold tr; rw [if_neg (by omega), if_pos rfl]
          have e2 : tr (first + p) (first + cc) (first + c) = first + c := by
            unfold tr; rw [if_neg (by omega), if_neg (by omega)]
          rw [e1, e2]
          exact h1 cc (by omega) (by omega) c hcch hc2
      · rw [if_pos (by simpa using hless)]
        simp only [Bool.not_eq_true] at hless
        intro k hk
        by_cases hkr : k = root
        · subst hkr
          intro c hc1 hc2
          by_cases hccc : c = cc
          · subst hccc; exact hless
          · rcases hcases with ⟨h, hl⟩ | ⟨h, h2, hl⟩
            · have hc' : c = 2 * k + 2 := by omega
              subst h; subst hc'
              exact lessAt_negTrans hc data _ _ _ (by omega) hless (hl hc2)
            · have hc' : c = 2 * k + 1 := by omega
              subst h; subst hc'
              cases hx : lessAt cmp data (first + k) (first + (2 * k + 1)) with
              | false => rfl
              | true =>
                have := lessAt_trans hc data _ _ _ hx hl
                rw [hless] at this
                cases this
        · exact h1 k hk hkr

theorem siftDownCmpFunc_upd (cmp : α → α → Int) (data : List α) (lo hi first : Nat)
    (hlen : first + hi ≤ data.length) :
    RangeUpd data (siftDownCmpFunc data lo hi first cmp) (first + lo) (first + hi) :=
  siftDownLoop_upd cmp hi first hi lo data hlen

theorem siftDownCmpFunc_heap {cmp : α → α → Int} (hc : StrictWeak cmp) (data : List α)
    (lo hi first : Nat) (hlen : first + hi ≤ data.length)
    (h : ∀ k, lo < k → Dominates cmp data first hi k) :
    ∀ k, lo ≤ k → Dominates cmp (siftDownCmpFunc data lo hi first cmp) first hi k :=
  siftDownLoop_heap hc hi first lo hi lo data hlen (Nat.le_refl _) (by omega)
    (fun k hk hne => h k (by omega)) (fun p c hp hpc => by omega)

theorem heapBuild_upd (cmp : α → α → Int) (hi first : Nat) :
    ∀ (i : Nat) (data : List α), first + hi ≤ data.length →
      RangeUpd data (heapBuild cmp hi first i data) first (first + hi)
  | 0, data, hlen => by
    unfold heapBuild
    exact siftDownCmpFunc_upd cmp data 0 hi first hlen
  | i + 1, data, hlen => by
    unfold heapBuild
    have h1 := (siftDownCmpFunc_upd cmp data (i + 1) hi first hlen).mono
      (Nat.le_add_right first (i + 1)) (Nat.le_refl _)
    exact h1.trans (heapBuild_upd cmp hi first i _ (by rw [h1.length]; exact hlen))

theorem heapBuild_heap {cmp : α → α → Int} (hc : StrictWeak cmp) (hi first : Nat) :
    ∀ (i : Nat) (data : List α), first + hi ≤ data.length →
      (∀ k, i < k → Dominates cmp data first hi k) →
      ∀ k, Dominates cmp (heapBuild cmp hi first i data) first hi k
  | 0, data, hlen, h => by
    unfold heapBuild
    intro k
    exact siftDownCmpFunc_heap hc data 0 hi first hlen h k (Nat.zero_le _)
  | i + 1, data, hlen, h => by
    unfold heapBuild
    have hu := siftDownCmpFunc_upd cmp data (i + 1) hi first hlen
    apply heapBuild_heap hc hi first i _ (by rw [hu.length]; exact hlen)
    intro k hk
    exact siftDownCmpFunc_heap hc data (i + 1) hi first hlen h k hk

/-- The root of a heap is not less than any of its nodes. -/
theorem heap_root_max {cmp : α → α → Int} (hc : StrictWeak cmp) (data : List α)
    (first n : Nat) (hlen : first + n ≤ data.length)
    (h : ∀ k, Dominates cmp data first n k) :
    ∀ k, k < n → lessAt cmp data first (first + k) = false := by
  intro k
  induction k using Nat.strong_induction_on with
  | _ k ih =>
    intro hk
    by_cases hk0 : k = 0
    · subst hk0
      exact lessAt_irrefl hc data first
    · have hp := ih ((k - 1) / 2) (by omega) (by omega)
      have hd := h ((k - 1) / 2) k (by omega) hk
      exact lessAt_negTrans hc data _ _ _ (by omega) hp hd

theorem heapPop_upd (cmp : α → α → Int) (first hi : Nat) :
    ∀ (n : Nat) (data : List α), first + hi ≤ data.length → n ≤ hi →
      RangeUpd data (heapPop cmp first n data) first (first + hi)
  | 0, data, _, _ => RangeUpd.refl _ _ _
  | i + 1, data, hlen, hn => by
    unfold heapPop
    have h1 := RangeUpd.swap data first (first + hi) first (first + i) (Nat.le_refl _)
      (by omega) (by omega) (by omega) hlen
    have h2 := (siftDownCmpFunc_upd cmp (swap data first (first + i)) 0 i first
      (by rw [length_swap]; omega)).mono (Nat.le_add_right first 0)
      (show first + i ≤ first + hi by omega)
    have h3 := heapPop_upd cmp first hi i
      (siftDownCmpFunc (swap data first (first + i)) 0 i first cmp)
      (by rw [h2.length, length_swap]; exact hlen) (by omega)
    exact (h1.trans h2).trans h3

theorem heapPop_sorted {cmp : α → α → Int} (hc : StrictWeak cmp) (first hi : Nat) :
    ∀ (n : Nat) (data : List α), first + hi ≤ data.length → n ≤ hi →
      HeapPopInv cmp data first hi n →
      ∀ p q, p < q → q < hi →
        lessAt cmp (heapPop cmp first n data) (first + q) (first + p) = false
  | 0, data, _, _, hinv => by
    intro p q hpq hq
    exact hinv.2.1 p q (Nat.zero_le _) hpq hq
  | i + 1, data, hlen, hn, hinv => by
    unfold heapPop
    obtain ⟨hheap, hsuf, hcross⟩ := hinv
    have hf : first < data.length := by omega
    have hfi : first + i < data.length := by omega
    have hl1 : (swap data first (first + i)).length = data.length := length_swap _ _ _
    have hu := siftDownCmpFunc_upd cmp (swap data first (first + i)) 0 i first
      (by rw [hl1]; omega)
    have hroot := heap_root_max hc data first (i + 1) (by omega) hheap
    apply heapPop_sorted hc first hi i _ (by rw [hu.length, hl1]; exact hlen) (by omega)
    refine ⟨?_, ?_, ?_⟩
    · intro k
      apply siftDownCmpFunc_heap hc _ 0 i first (by rw [hl1]; omega) _ k (Nat.zero_le _)
      intro k hk c hc1 hc2
      rw [lessAt_swap cmp data _ _ _ _ hf hfi]
      have e1 : tr first (first + i) (first + k) = first + k := by
        unfold tr; rw [if_neg (by omega), if_neg (by omega)]
      have e2 : tr first (first + i) (first + c) = first + c := by
        unfold tr; rw [if_neg (by omega), if_neg (by omega)]
      rw [e1, e2]
      exact hheap k c hc1 (by omega)
    · intro p q hp hpq hq
      unfold lessAt
      rw [hu.frame (first + q) (by omega), hu.frame (first + p) (by omega)]
      change lessAt cmp (swap data first (first + i)) (first + q) (first + p) = false
      rw [lessAt_swap cmp data _ _ _ _ hf hfi]
      have e1 : tr first (first + i) (first + q) = first + q := by
        unfold tr; rw [if_neg (by omega), if_neg (by omega)]
      rw [e1]
      by_cases hpi : p = i
      · subst hpi
        have e2 : tr first (first + p) (first + p) = first := by
          unfold tr; rw [if_pos rfl]
        rw [e2]
        have := hcross 0 q (by omega) (by omega) hq
        simpa using this
      · have e2 : tr first (first + i) (first + p) = first + p := by
          unfold tr; rw [if_neg (by omega), if_neg (by omega)]
        rw [e2]
        exact hsuf p q (by omega) hpq hq
    · intro k q hk hq1 hq2
      rw [lessAt_false_iff]
      intro x y hx hy
      rw [hu.frame (first + q) (by omega), getElem?_swap_tr data _ _ _ hf hfi] at hx
      obtain ⟨k2, hk2a, hk2b, hy2⟩ := hu.mem (by omega) (first + k) y (by omega) (by omega) hy
      rw [getElem?_swap_tr data _ _ _ hf hfi] at hy2
      have hk3 : ∃ k3, k3 < i + 1 ∧ tr first (first + i) k2 = first + k3 := by
        unfold tr
        by_cases h1 : k2 = first + i
        · omega
        · by_cases h2 : k2 = first
          · exact ⟨i, by omega, by rw [if_neg h1, if_pos h2]⟩
          · exact ⟨k2 - first, by omega, by rw [if_neg h1, if_neg h2]; omega⟩
      obtain ⟨k3, hk3a, hk3b⟩ := hk3
      rw [hk3b] at hy2
      by_cases hqi : q = i
      · subst hqi
        have e2 : tr first (first + q) (first + q) = first := by
          unfold tr; rw [if_pos rfl]
        rw [e2] at hx
        have := hroot k3 hk3a
        rw [lessAt_false_iff] at this
        exact this x y hx hy2
      · have e1 : tr first (first + i) (first + q) = first + q := by
          unfold tr; rw [if_neg (by omega), if_neg (by omega)]
        rw [e1] at hx
        have := hcross k3 q hk3a (by omega) hq2
        rw [lessAt_false_iff] at this
        exact this x y hx hy2

theorem heapSortCmpFunc_upd (data : List α) (a b : Nat) (cmp : α → α → Int) (hab : a ≤ b)
    (hb : b ≤ data.length) : RangeUpd data (heapSortCmpFunc data a b cmp) a b := by
  unfold heapSortCmpFunc
  have hlen : a + (b - a) ≤ data.length := by omega
  have h1 := heapBuild_upd cmp (b - a) a ((b - a - 1) / 2) data hlen
  have h2 := heapPop_upd cmp a (b - a) (b - a) (heapBuild cmp (b - a) a ((b - a - 1) / 2) data)
    (by rw [h1.length]; exact hlen) (Nat.le_refl _)
  have h3 := h1.trans h2
  rw [show a + (b - a) = b by omega] at h3
  exact h3

theorem heapSortCmpFunc_sorted {cmp : α → α → Int} (hc : StrictWeak cmp) (data : List α)
    (a b : Nat) (hab : a ≤ b) (hb : b ≤ data.length) :
    RangeSorted cmp (heapSortCmpFunc data a b cmp) a b := by
  rw [rangeSorted_iff_lessAt]
  intro p q hap hpq hq
  unfold heapSortCmpFunc
  have hlen : a + (b - a) ≤ data.length := by omega
  have h1 := heapBuild_upd cmp (b - a) a ((b - a - 1) / 2) data hlen
  have hheap := heapBuild_heap hc (b - a) a ((b - a - 1) / 2) data hlen (by
    intro k hk c hc1 hc2
    omega)
  have := heapPop_sorted hc a (b - a) (b - a) (heapBuild cmp (b - a) a ((b - a - 1) / 2) data)
    (by rw [h1.length]; exact hlen) (Nat.le_refl _)
    ⟨hheap, fun p q hp hpq hq => by omega, fun k q hk hq1 hq2 => by omega⟩
    (p - a) (q - a) (by omega) (by omega)
  rw [show a + (q - a) = q by omega, show a + (p - a) = p by omega] at this
  exact this

theorem scanUp_ge (test : Nat → Bool) (j : Nat) :
    ∀ (fuel i : Nat), i ≤ scanUp test j fuel i
  | 0, i => Nat.le_refl _
  | fuel + 1, i => by
    unfold scanUp
    split
    · exact Nat.le_trans (Nat.le_succ i) (scanUp_ge test j fuel (i + 1))
    · exact Nat.le_refl _

theorem scanUp_le (test : Nat → Bool) (j : Nat) :
    ∀ (fuel i : Nat), i ≤ j + 1 → scanUp test j fuel i ≤ j + 1
  | 0, i, h => h
  | fuel + 1, i, h => by
    unfold scanUp
    split
    · rename_i hc
      simp only [Bool.and_eq_true, decide_eq_true_eq] at hc
      exact scanUp_le test j fuel (i + 1) (by omega)
    · exact h

theorem scanUp_all (test : Nat → Bool) (j : Nat) :
    ∀ (fuel i k : Nat), i ≤ k → k < scanUp test j fuel i → test k = true
  | 0, i, k, h1, h2 => by
    unfold scanUp at h2
    omega
  | fuel + 1, i, k, h1, h2 => by
    unfold scanUp at h2
    split at h2
    · rename_i hc
      simp only [Bool.and_eq_true, decide_eq_true_eq] at hc
      by_cases hk : k = i
      · subst hk; exact hc.2
      · exact scanUp_all test j fuel (i + 1) k (by omega) h2
    · omega

theorem scanUp_stop (test : Nat → Bool) (j : Nat) :
    ∀ (fuel i : Nat), j + 1 ≤ i + fuel → scanUp test j fuel i ≤ j →
      test (scanUp test j fuel i) = false
  | 0, i, h1, h2 => by
    unfold scanUp at h2
    omega
  | fuel + 1, i, h1, h2 => by
    unfold scanUp at h2 ⊢
    split
    · rename_i hc
      rw [if_pos hc] at h2
      exact scanUp_stop test j fuel (i + 1) (by omega) h2
    · rename_i hc
      rw [if_neg hc] at h2
      simp only [Bool.and_eq_true, decide_eq_true_eq, not_and, Bool.not_eq_true] at hc
      exact hc h2

theorem scanDown_le (test : Nat → Bool) (i : Nat) : ∀ (j : Nat), scanDown test i j ≤ j
  | 0 => Nat.le_refl _
  | j + 1 => by
    unfold scanDown
    split
    · exact Nat.le_trans (scanDown_le test i j) (Nat.le_succ j)
    · exact Nat.le_refl _

theorem scanDown_ge (test : Nat → Bool) (i : Nat) :
    ∀ (j : Nat), i ≤ j + 1 → i ≤ scanDown test i j + 1
  | 0, h => by unfold scanDown; exact h
  | j + 1, h => by
    unfold scanDown
    split
    · rename_i hc
      simp only [Bool.and_eq_true, decide_eq_true_eq] at hc
      exact scanDown_ge test i j (by omega)
    · exact h

theorem scanDown_all (test : Nat → Bool) (i : Nat) :
    ∀ (j k : Nat), scanDown test i j < k → k ≤ j → test k = true
  | 0, k, h1, h2 => by
    unfold scanDown at h1
    omega
  | j + 1, k, h1, h2 => by
    unfold scanDown at h1
    split at h1
    · rename_i hc
      simp only [Bool.and_eq_true, decide_eq_true_eq] at hc
      by_cases hk : k = j + 1
      · subst hk; exact hc.2
      · exact scanDown_all test i j k h1 (by omega)
    · omega

theorem scanDown_stop (test : Nat → Bool) (i : Nat) (hi : 1 ≤ i) :
    ∀ (j : Nat), i ≤ scanDown test i j → test (scanDown test i j) = false
  | 0, h => by
    unfold scanDown at h
    omega
  | j + 1, h => by
    unfold scanDown at h ⊢
    split
    · rename_i hc
      rw [if_pos hc] at h
      exact scanDown_stop test i hi j h
    · rename_i hc
      rw [if_neg hc] at h
      simp only [Bool.and_eq_true, decide_eq_true_eq, not_and, Bool.not_eq_true] at hc
      exact hc h

theorem tr_other (i j k : Nat) (h1 : k ≠ i) (h2 : k ≠ j) : tr i j k = k := by
  unfold tr; rw [if_neg h2, if_neg h1]

theorem tr_left (i j : Nat) : tr i j i = j := by
  unfold tr
  by_cases h : i = j
  · rw [if_pos h]; exact h
  · rw [if_neg h, if_pos rfl]

theorem tr_right (i j : Nat) : tr i j j = i := by
  unfold tr; rw [if_pos rfl]

theorem partitionLoop_spec (cmp : α → α → Int) (a b : Nat) :
    ∀ (fuel i j : Nat) (data : List α), a + 1 ≤ i → j + 1 ≤ b → i ≤ j + 1 →
      b ≤ data.length → j + 1 ≤ i + fuel →
      (∀ k, a + 1 ≤ k → k < i → lessAt cmp data k a = true) →
      (∀ k, j < k → k < b → lessAt cmp data k a = false) →
      RangeUpd data (partitionLoop cmp a fuel i j data).2 (a + 1) b ∧
      a ≤ (partitionLoop cmp a fuel i j data).1 ∧
      (partitionLoop cmp a fuel i j data).1 + 1 ≤ b ∧
      (∀ k, a + 1 ≤ k → k ≤ (partitionLoop cmp a fuel i j data).1 →
        lessAt cmp (partitionLoop cmp a fuel i j data).2 k a = true) ∧
      (∀ k, (partitionLoop cmp a fuel i j data).1 < k → k < b →
        lessAt cmp (partitionLoop cmp a fuel i j data).2 k a = false)
  | 0, i, j, data, hai, hjb, hij, hlen, hfuel, hlo, hhi => by
    unfold partitionLoop
    exact ⟨RangeUpd.refl _ _ _, by omega, hjb, fun k h1 h2 => hlo k h1 (by omega), hhi⟩
  | fuel + 1, i, j, data, hai, hjb, hij, hlen, hfuel, hlo, hhi => by
    unfold partitionLoop
    simp only []
    have hi1 := scanUp_ge (fun k => lessAt cmp data k a) j (j + 1 - i) i
    have hi2 := scanUp_le (fun k => lessAt cmp data k a) j (j + 1 - i) i hij
    have hi3 := scanUp_all (fun k => lessAt cmp data k a) j (j + 1 - i) i
    have hi4 := scanUp_stop (fun k => lessAt cmp data k a) j (j + 1 - i) i (by omega)
    generalize scanUp (fun k => lessAt cmp data k a) j (j + 1 - i) i = i2 at hi1 hi2 hi3 hi4 ⊢
    have hj1 := scanDown_le (fun k => !lessAt cmp data k a) i2 j
    have hj2 := scanDown_ge (fun k => !lessAt cmp data k a) i2 j hi2
    have hj3 := scanDown_all (fun k => !lessAt cmp data k a) i2 j
    have hj4 := scanDown_stop (fun k => !lessAt cmp data k a) i2 (by omega) j
    generalize scanDown (fun k => !lessAt cmp data k a) i2 j = j2 at hj1 hj2 hj3 hj4 ⊢
    simp only [Bool.not_eq_true', Bool.not_eq_false'] at hj3 hj4 hi3 hi4
    have hlo2 : ∀ k, a + 1 ≤ k → k < i2 → lessAt cmp data k a = true := by
      intro k h1 h2
      by_cases hk : k < i
      · exact hlo k h1 hk
      · exact hi3 k (by omega) h2
    have hhi2 : ∀ k, j2 < k → k < b → lessAt cmp data k a = false := by
      intro k h1 h2
      by_cases hk : j < k
      · exact hhi k hk h2
      · exact hj3 k h1 (by omega)
    by_cases hgt : i2 > j2
    · rw [if_pos hgt]
      exact ⟨RangeUpd.refl _ _ _, by omega, by omega, fun k h1 h2 => hlo2 k h1 (by omega), hhi2⟩
    · rw [if_neg hgt]
      have hA := hi4 (by omega)
      have hB := hj4 (by omega)
      have hne : i2 ≠ j2 := by
        intro h
        rw [h, hB] at hA
        cases hA
      have hi2l : i2 < data.length := by omega
      have hj2l : j2 < data.length := by omega
      have hsw := RangeUpd.swap data (a + 1) b i2 j2 (by omega) (by omega) (by omega) (by omega)
        hlen
      have ih := partitionLoop_spec cmp a b fuel (i2 + 1) (j2 - 1) (swap data i2 j2)
        (by omega) (by omega) (by omega) (by rw [length_swap]; exact hlen) (by omega)
        (by
          intro k h1 h2
          rw [lessAt_swap cmp data _ _ _ _ hi2l hj2l, tr_other i2 j2 a (by omega) (by omega)]
          by_cases hk : k = i2
          · subst hk
            rw [tr_left]
            exact hB
          · rw [tr_other i2 j2 k hk (by omega)]
            exact hlo2 k h1 (by omega))
        (by
          intro k h1 h2
          rw [lessAt_swap cmp data _ _ _ _ hi2l hj2l, tr_other i2 j2 a (by omega) (by omega)]
          by_cases hk : k = j2
          · subst hk
            rw [tr_right]
            exact hA
          · rw [tr_other i2 j2 k (by omega) hk]
            exact hhi2 k (by omega) h2)
      exact ⟨hsw.trans ih.1, ih.2⟩

theorem partitionCmpFunc_spec (data : List α) (a b pivot : Nat) (cmp : α → α → Int)
    (hap : a ≤ pivot) (hpb : pivot < b) (hlen : b ≤ data.length) :
    RangeUpd data (partitionCmpFunc data a b pivot cmp).2.2 a b ∧
    a ≤ (partitionCmpFunc data a b pivot cmp).1 ∧
    (partitionCmpFunc data a b pivot cmp).1 < b ∧
    (∀ k, a ≤ k → k < (partitionCmpFunc data a b pivot cmp).1 →
      lessAt cmp (partitionCmpFunc data a b pivot cmp).2.2 k
        (partitionCmpFunc data a b pivot cmp).1 = true) ∧
    (∀ k, (partitionCmpFunc data a b pivot cmp).1 < k → k < b →
      lessAt cmp (partitionCmpFunc data a b pivot cmp).2.2 k
        (partitionCmpFunc data a b pivot cmp).1 = false) := by
  unfold partitionCmpFunc
  have hsw0 := RangeUpd.swap data a b a pivot (Nat.le_refl _) (by omega) hap hpb hlen
  have hlen1 : b ≤ (swap data a pivot).length := by rw [length_swap]; exact hlen
  generalize swap data a pivot = data1 at hsw0 hlen1 ⊢
  simp only []
  have hi1 := scanUp_ge (fun k => lessAt cmp data1 k a) (b - 1) (b - 1 + 1 - (a + 1)) (a + 1)
  have hi2 := scanUp_le (fun k => lessAt cmp data1 k a) (b - 1) (b - 1 + 1 - (a + 1)) (a + 1)
    (by omega)
  have hi3 := scanUp_all (fun k => lessAt cmp data1 k a) (b - 1) (b - 1 + 1 - (a + 1)) (a + 1)
  have hi4 := scanUp_stop (fun k => lessAt cmp data1 k a) (b - 1) (b - 1 + 1 - (a + 1)) (a + 1)
    (by omega)
  generalize scanUp (fun k => lessAt cmp data1 k a) (b - 1) (b - 1 + 1 - (a + 1)) (a + 1) = i2
    at hi1 hi2 hi3 hi4 ⊢
  have hj1 := scanDown_le (fun k => !lessAt cmp data1 k a) i2 (b - 1)
  have hj2 := scanDown_ge (fun k => !lessAt cmp data1 k a) i2 (b - 1) hi2
  have hj3 := scanDown_all (fun k => !lessAt cmp data1 k a) i2 (b - 1)
  have hj4 := scanDown_stop (fun k => !lessAt cmp data1 k a) i2 (by omega) (b - 1)
  generalize scanDown (fun k => !lessAt cmp data1 k a) i2 (b - 1) = j2 at hj1 hj2 hj3 hj4 ⊢
  simp only [Bool.not_eq_true', Bool.not_eq_false'] at hj3 hj4 hi3 hi4
  -- the closing swap of the pivot into place
  have final : ∀ (d : List α) (m : Nat), b ≤ d.length → a ≤ m → m < b →
      (∀ k, a + 1 ≤ k → k ≤ m → lessAt cmp d k a = true) →
      (∀ k, m < k → k < b → lessAt cmp d k a = false) →
      RangeUpd d (swap d m a) a b ∧
      (∀ k, a ≤ k → k < m → lessAt cmp (swap d m a) k m = true) ∧
      (∀ k, m < k → k < b → lessAt cmp (swap d m a) k m = false) := by
    intro d m hd ham hmb h1 h2
    refine ⟨RangeUpd.swap d a b m a ham hmb (Nat.le_refl _) (by omega) hd, ?_, ?_⟩
    · intro k hk1 hk2
      rw [lessAt_swap cmp d _ _ _ _ (by omega) (by omega), tr_left]
      by_cases hka : k = a
      · subst hka
        rw [tr_right]
        exact h1 m (by omega) (Nat.le_refl _)
      · rw [tr_other m a k (by omega) hka]
        exact h1 k (by omega) (by omega)
    · intro k hk1 hk2
      rw [lessAt_swap cmp d _ _ _ _ (by omega) (by omega), tr_left,
        tr_other m a k (by omega) (by omega)]
      exact h2 k hk1 hk2
  by_cases hgt : i2 > j2
  · rw [if_pos hgt]
    simp only []
    have hf := final data1 j2 hlen1 (by omega) (by omega)
      (fun k h1 h2 => hi3 k h1 (by omega))
      (fun k h1 h2 => hj3 k h1 (by omega))
    exact ⟨hsw0.trans hf.1, by omega, by omega, hf.2.1, hf.2.2⟩
  · rw [if_neg hgt]
    simp only []
    have hA := hi4 (by omega)
    have hB := hj4 (by omega)
    have hne : i2 ≠ j2 := by
      intro h
      rw [h, hB] at hA
      cases hA
    have hi2l : i2 < data1.length := by omega
    have hj2l : j2 < data1.length := by omega
    have hsw := RangeUpd.swap data1 a b i2 j2 (by omega) (by omega) (by omega) (by omega) hlen1
    have ih := partitionLoop_spec cmp a b (b - a) (i2 + 1) (j2 - 1) (swap data1 i2 j2)
      (by omega) (by omega) (by omega) (by rw [length_swap]; exact hlen1) (by omega)
      (by
        intro k h1 h2
        rw [lessAt_swap cmp data1 _ _ _ _ hi2l hj2l, tr_other i2 j2 a (by omega) (by omega)]
        by_cases hk : k = i2
        · subst hk
          rw [tr_left]
          exact hB
        · rw [tr_other i2 j2 k hk (by omega)]
          exact hi3 k (by omega) (by omega))
      (by
        intro k h1 h2
        rw [lessAt_swap cmp data1 _ _ _ _ hi2l hj2l, tr_other i2 j2 a (by omega) (by omega)]
        by_cases hk : k = j2
        · subst hk
          rw [tr_right]
          exact hA
        · rw [tr_other i2 j2 k (by omega) hk]
          exact hj3 k (by omega) (by omega))
    obtain ⟨ih1, ih2, ih3, ih4, ih5⟩ := ih
    generalize partitionLoop cmp a (b - a) (i2 + 1) (j2 - 1) (swap data1 i2 j2) = r
      at ih1 ih2 ih3 ih4 ih5 ⊢
    have hf := final r.2 r.1 (by rw [ih1.length, length_swap]; exact hlen1) ih2 (by omega)
      ih4 ih5
    exact ⟨(hsw0.trans (hsw.trans (ih1.mono (by omega) (Nat.le_refl _)))).trans hf.1,
      ih2, by omega, hf.2.1, hf.2.2⟩

theorem partitionEqualLoop_spec (cmp : α → α → Int) (a b : Nat) :
    ∀ (fuel i j : Nat) (data : List α), a + 1 ≤ i → j + 1 ≤ b → i ≤ j + 1 →
      b ≤ data.length → j + 1 ≤ i + fuel →
      (∀ k, a + 1 ≤ k → k < i → lessAt cmp data a k = false) →
      (∀ k, j < k → k < b → lessAt cmp data a k = true) →
      RangeUpd data (partitionEqualLoop cmp a fuel i j data).2 (a + 1) b ∧
      a + 1 ≤ (partitionEqualLoop cmp a fuel i j data).1 ∧
      (partitionEqualLoop cmp a fuel i j data).1 ≤ b ∧
      (∀ k, a + 1 ≤ k → k < (partitionEqualLoop cmp a fuel i j data).1 →
        lessAt cmp (partitionEqualLoop cmp a fuel i j data).2 a k = false) ∧
      (∀ k, (partitionEqualLoop cmp a fuel i j data).1 ≤ k → k < b →
        lessAt cmp (partitionEqualLoop cmp a fuel i j data).2 a k = true)
  | 0, i, j, data, hai, hjb, hij, hlen, hfuel, hlo, hhi => by
    unfold partitionEqualLoop
    exact ⟨RangeUpd.refl _ _ _, hai, by omega, hlo, fun k h1 h2 => hhi k (by omega) h2⟩
  | fuel + 1, i, j, data, hai, hjb, hij, hlen, hfuel, hlo, hhi => by
    unfold partitionEqualLoop
    simp only []
    have hi1 := scanUp_ge (fun k => !lessAt cmp data a k) j (j + 1 - i) i
    have hi2 := scanUp_le (fun k => !lessAt cmp data a k) j (j + 1 - i) i hij
    have hi3 := scanUp_all (fun k => !lessAt cmp data a k) j (j + 1 - i) i
    have hi4 := scanUp_stop (fun k => !lessAt cmp data a k) j (j + 1 - i) i (by omega)
    generalize scanUp (fun k => !lessAt cmp data a k) j (j + 1 - i) i = i2 at hi1 hi2 hi3 hi4 ⊢
    have hj1 := scanDown_le (fun k => lessAt cmp data a k) i2 j
    have hj2 := scanDown_ge (fun k => lessAt cmp data a k) i2 j hi2
    have hj3 := scanDown_all (fun k => lessAt cmp data a k) i2 j
    have hj4 := scanDown_stop (fun k => lessAt cmp data a k) i2 (by omega) j
    generalize scanDown (fun k => lessAt cmp data a k) i2 j = j2 at hj1 hj2 hj3 hj4 ⊢
    simp only [Bool.not_eq_true', Bool.not_eq_false'] at hj3 hj4 hi3 hi4
    have hlo2 : ∀ k, a + 1 ≤ k → k < i2 → lessAt cmp data a k = false := by
      intro k h1 h2
      by_cases hk : k < i
      · exact hlo k h1 hk
      · exact hi3 k (by omega) h2
    have hhi2 : ∀ k, j2 < k → k < b → lessAt cmp data a k = true := by
      intro k h1 h2
      by_cases hk : j < k
      · exact hhi k hk h2
      · exact hj3 k h1 (by omega)
    by_cases hgt : i2 > j2
    · rw [if_pos hgt]
      exact ⟨RangeUpd.refl _ _ _, by omega, by omega, hlo2, fun k h1 h2 => hhi2 k (by omega) h2⟩
    · rw [if_neg hgt]
      have hA := hi4 (by omega)
      have hB := hj4 (by omega)
      have hne : i2 ≠ j2 := by
        intro h
        rw [h, hB] at hA
        cases hA
      have hi2l : i2 < data.length := by omega
      have hj2l : j2 < data.length := by omega
      have hsw := RangeUpd.swap data (a + 1) b i2 j2 (by omega) (by omega) (by omega) (by omega)
        hlen
      have ih := partitionEqualLoop_spec cmp a b fuel (i2 + 1) (j2 - 1) (swap data i2 j2)
        (by omega) (by omega) (by omega) (by rw [length_swap]; exact hlen) (by omega)
        (by
          intro k h1 h2
          rw [lessAt_swap cmp data _ _ _ _ hi2l hj2l, tr_other i2 j2 a (by omega) (by omega)]
          by_cases hk : k = i2
          · subst hk
            rw [tr_left]
            exact hB
          · rw [tr_other i2 j2 k hk (by omega)]
            exact hlo2 k h1 (by omega))
        (by
          intro k h1 h2
          rw [lessAt_swap cmp data _ _ _ _ hi2l hj2l, tr_other i2 j2 a (by omega) (by omega)]
          by_cases hk : k = j2
          · subst hk
            rw [tr_right]
            exact hA
          · rw [tr_other i2 j2 k (by omega) hk]
            exact hhi2 k (by omega) h2)
      exact ⟨hsw.trans ih.1, ih.2⟩

theorem partitionEqualCmpFunc_spec (data : List α) (a b pivot : Nat) (cmp : α → α → Int)
    (hap : a ≤ pivot) (hpb : pivot < b) (hlen : b ≤ data.length) :
    RangeUpd data (partitionEqualCmpFunc data a b pivot cmp).2 a b ∧
    a + 1 ≤ (partitionEqualCmpFunc data a b pivot cmp).1 ∧
    (partitionEqualCmpFunc data a b pivot cmp).1 ≤ b ∧
    (partitionEqualCmpFunc data a b pivot cmp).2[a]? = data[pivot]? ∧
    (∀ k, a + 1 ≤ k → k < (partitionEqualCmpFunc data a b pivot cmp).1 →
      lessAt cmp (partitionEqualCmpFunc data a b pivot cmp).2 a k = false) ∧
    (∀ k, (partitionEqualCmpFunc data a b pivot cmp).1 ≤ k → k < b →
      lessAt cmp (partitionEqualCmpFunc data a b pivot cmp).2 a k = true) := by
  unfold partitionEqualCmpFunc
  simp only []
  have hsw0 := RangeUpd.swap data a b a pivot (Nat.le_refl _) (by omega) hap hpb hlen
  have hlen1 : b ≤ (swap data a pivot).length := by rw [length_swap]; exact hlen
  have hpv : (swap data a pivot)[a]? = data[pivot]? := by
    rw [getElem?_swap_tr data a pivot a (by omega) (by omega), tr_left]
  have ih := partitionEqualLoop_spec cmp a b (b - a) (a + 1) (b - 1) (swap data a pivot)
    (Nat.le_refl _) (by omega) (by omega) hlen1 (by omega)
    (fun k h1 h2 => by omega) (fun k h1 h2 => by omega)
  obtain ⟨ih1, ih2, ih3, ih4, ih5⟩ := ih
  refine ⟨hsw0.trans (ih1.mono (by omega) (Nat.le_refl _)), ih2, ih3, ?_, ih4, ih5⟩
  rw [ih1.frame a (by omega)]
  exact hpv

theorem reverseLoop_upd (a b : Nat) :
    ∀ (fuel i j : Nat) (data : List α), a ≤ i → j < b → b ≤ data.length →
      RangeUpd data (reverseLoop fuel i j data) a b
  | 0, _, _, data, _, _, _ => RangeUpd.refl _ _ _
  | fuel + 1, i, j, data, hi, hj, hlen => by
    unfold reverseLoop
    split
    · have h1 := RangeUpd.swap data a b i j hi (by omega) (by omega) hj hlen
      exact h1.trans (reverseLoop_upd a b fuel (i + 1) (j - 1) (swap data i j) (by omega)
        (by omega) (by rw [length_swap]; exact hlen))
    · exact RangeUpd.refl _ _ _

theorem reverseRangeCmpFunc_upd (data : List α) (a b : Nat) (hlen : b ≤ data.length) :
    RangeUpd data (reverseRangeCmpFunc data a b) a b := by
  unfold reverseRangeCmpFunc
  by_cases hab : a < b
  · exact reverseLoop_upd a b (b - a) a (b - 1) data (Nat.le_refl _) (by omega) hlen
  · have : b - a = 0 := by omega
    rw [this]
    exact RangeUpd.refl _ _ _

theorem nextPowerOfTwo_bounds (length : Nat) (h : 0 < length) :
    0 < nextPowerOfTwo length ∧ nextPowerOfTwo length ≤ 2 * length := by
  unfold nextPowerOfTwo
  cases length with
  | zero => omega
  | succ n =>
    unfold bitsLen
    rw [Nat.one_shiftLeft, Nat.pow_succ]
    have h1 : 2 ^ (n + 1).log2 ≤ n + 1 := Nat.log2_self_le (Nat.succ_ne_zero n)
    have h2 : 0 < 2 ^ (n + 1).log2 := Nat.pow_pos (by omega)
    omega

theorem breakPatternsLoop_upd (a b length modulus idx : Nat) (hl : a + length = b)
    (hm1 : 0 < modulus) (hm2 : modulus ≤ 2 * length) (hidx1 : a + 1 ≤ idx)
    (hidx2 : idx + 2 < b) :
    ∀ (n random : Nat) (data : List α), n ≤ 3 → b ≤ data.length →
      RangeUpd data (breakPatternsLoop a length modulus idx n random data) a b
  | 0, _, data, _, _ => RangeUpd.refl _ _ _
  | n + 1, random, data, hn, hlen => by
    unfold breakPatternsLoop
    simp only []
    have hand : xorshiftNext random &&& (modulus - 1) ≤ modulus - 1 := Nat.and_le_right
    generalize xorshiftNext random &&& (modulus - 1) = other at hand ⊢
    have hother : (if other ≥ length then other - length else other) < length := by
      split <;> omega
    generalize (if other ≥ length then other - length else other) = other2 at hother ⊢
    have h1 := RangeUpd.swap data a b (idx + (3 - (n + 1))) (a + other2) (by omega)
      (by omega) (by omega) (by omega) hlen
    exact h1.trans (breakPatternsLoop_upd a b length modulus idx hl hm1 hm2 hidx1 hidx2 n _ _
      (by omega) (by rw [length_swap]; exact hlen))

theorem breakPatternsCmpFunc_upd (data : List α) (a b : Nat) (hlen : b ≤ data.length) :
    RangeUpd data (breakPatternsCmpFunc data a b) a b := by
  unfold breakPatternsCmpFunc
  simp only []
  split
  · rename_i h8
    have hb := nextPowerOfTwo_bounds (b - a) (by omega)
    exact breakPatternsLoop_upd a b (b - a) (nextPowerOfTwo (b - a)) (a + (b - a) / 4 * 2 - 1)
      (by omega) hb.1 hb.2 (by omega) (by omega) 3 (b - a) data (Nat.le_refl _) hlen
  · exact RangeUpd.refl _ _ _

theorem order2CmpFunc_fst (data : List α) (a b swaps : Nat) (cmp : α → α → Int) :
    ((order2CmpFunc data a b swaps cmp).1 = a ∧ (order2CmpFunc data a b swaps cmp).2.1 = b) ∨
    ((order2CmpFunc data a b swaps cmp).1 = b ∧ (order2CmpFunc data a b swaps cmp).2.1 = a) := by
  unfold order2CmpFunc
  split
  · right; exact ⟨rfl, rfl⟩
  · left; exact ⟨rfl, rfl⟩

theorem medianCmpFunc_mem (data : List α) (a b c swaps : Nat) (cmp : α → α → Int) :
    (medianCmpFunc data a b c swaps cmp).1 = a ∨ (medianCmpFunc data a b c swaps cmp).1 = b ∨
      (medianCmpFunc data a b c swaps cmp).1 = c := by
  unfold medianCmpFunc
  simp only []
  have h1 := order2CmpFunc_fst data a b swaps cmp
  generalize order2CmpFunc data a b swaps cmp = r1 at h1 ⊢
  have h2 := order2CmpFunc_fst data r1.2.1 c r1.2.2 cmp
  generalize order2CmpFunc data r1.2.1 c r1.2.2 cmp = r2 at h2 ⊢
  have h3 := order2CmpFunc_fst data r1.1 r2.1 r2.2.2 cmp
  generalize order2CmpFunc data r1.1 r2.1 r2.2.2 cmp = r3 at h3 ⊢
  rcases h1 with ⟨e1, e2⟩ | ⟨e1, e2⟩ <;> rcases h2 with ⟨f1, f2⟩ | ⟨f1, f2⟩ <;>
    rcases h3 with ⟨g1, g2⟩ | ⟨g1, g2⟩ <;> simp_all

theorem choosePivotCmpFunc_bounds (data : List α) (a b : Nat) (cmp : α → α → Int)
    (hab : a < b) :
    a ≤ (choosePivotCmpFunc data a b cmp).1 ∧ (choosePivotCmpFunc data a b cmp).1 < b := by
  unfold choosePivotCmpFunc
  simp only []
  have key : ∀ r : Nat × Nat, (a ≤ r.1 ∧ r.1 < b) →
      a ≤ (if r.2 = 0 then (r.1, SortedHint.increasingHint)
        else if r.2 = 4 * 3 then (r.1, SortedHint.decreasingHint)
        else (r.1, SortedHint.unknownHint)).1 ∧
      (if r.2 = 0 then (r.1, SortedHint.increasingHint)
        else if r.2 = 4 * 3 then (r.1, SortedHint.decreasingHint)
        else (r.1, SortedHint.unknownHint)).1 < b := by
    intro r hr
    split
    · exact hr
    · split <;> exact hr
  apply key
  split
  · rename_i h8
    split
    · rename_i h50
      unfold medianAdjacentCmpFunc
      have m1 := medianCmpFunc_mem data (a + (b - a) / 4 * 1 - 1) (a + (b - a) / 4 * 1)
        (a + (b - a) / 4 * 1 + 1) 0 cmp
      generalize medianCmpFunc data (a + (b - a) / 4 * 1 - 1) (a + (b - a) / 4 * 1)
        (a + (b - a) / 4 * 1 + 1) 0 cmp = ri at m1 ⊢
      have m2 := medianCmpFunc_mem data (a + (b - a) / 4 * 2 - 1) (a + (b - a) / 4 * 2)
        (a + (b - a) / 4 * 2 + 1) ri.2 cmp
      generalize medianCmpFunc data (a + (b - a) / 4 * 2 - 1) (a + (b - a) / 4 * 2)
        (a + (b - a) / 4 * 2 + 1) ri.2 cmp = rj at m2 ⊢
      have m3 := medianCmpFunc_mem data (a + (b - a) / 4 * 3 - 1) (a + (b - a) / 4 * 3)
        (a + (b - a) / 4 * 3 + 1) rj.2 cmp
      generalize medianCmpFunc data (a + (b - a) / 4 * 3 - 1) (a + (b - a) / 4 * 3)
        (a + (b - a) / 4 * 3 + 1) rj.2 cmp = rk at m3 ⊢
      have m4 := medianCmpFunc_mem data ri.1 rj.1 rk.1 rk.2 cmp
      generalize medianCmpFunc data ri.1 rj.1 rk.1 rk.2 cmp = r at m4 ⊢
      omega
    · have m4 := medianCmpFunc_mem data (a + (b - a) / 4 * 1) (a + (b - a) / 4 * 2)
        (a + (b - a) / 4 * 3) 0 cmp
      generalize medianCmpFunc data (a + (b - a) / 4 * 1) (a + (b - a) / 4 * 2)
        (a + (b - a) / 4 * 3) 0 cmp = r at m4 ⊢
      omega
  · simp only []
    omega

theorem LowerBound.upd {cmp : α → α → Int} {d1 d2 : List α} {a b : Nat}
    (h : LowerBound cmp d1 a b) (hu : RangeUpd d1 d2 a b) (hab : a ≤ b) :
    LowerBound cmp d2 a b := by
  by_cases ha : a = 0
  · exact Or.inl ha
  rcases h with h | h
  · exact Or.inl h
  · right
    intro k hk1 hk2
    rw [lessAt_false_iff]
    intro x y hx hy
    obtain ⟨k2, h1, h2, h3⟩ := hu.mem hab k x hk1 hk2 hx
    rw [hu.frame (a - 1) (by omega)] at hy
    have := h k2 h1 h2
    rw [lessAt_false_iff] at this
    exact this x y h3 hy

theorem LowerBound.shrink {cmp : α → α → Int} {data : List α} {a b b2 : Nat}
    (h : LowerBound cmp data a b) (hb : b2 ≤ b) : LowerBound cmp data a b2 := by
  rcases h with h | h
  · exact Or.inl h
  · exact Or.inr fun k h1 h2 => h k h1 (by omega)

theorem insertionInner_upd (cmp : α → α → Int) (a j : Nat) (data : List α)
    (hj : j < data.length) : RangeUpd data (insertionInner cmp a j data) a (j + 1) :=
  ⟨insertionInner_length cmp a j data,
    fun k hk => insertionInner_frame cmp a j data k hj (by omega),
    insertionInner_perm cmp a j data⟩

theorem shiftLeft_eq (cmp : α → α → Int) :
    ∀ (j : Nat) (data : List α), shiftLeft cmp j data = insertionInner cmp 0 j data
  | 0, _ => rfl
  | j + 1, data => by
    unfold shiftLeft insertionInner
    cases h : lessAt cmp data (j + 1) j with
    | false => simp
    | true => simp [shiftLeft_eq cmp j]

theorem insertionInner_lower (cmp : α → α → Int) (a : Nat) :
    ∀ (j : Nat) (data : List α), a ≤ j → j < data.length →
      (a = 0 ∨ ∀ k, a ≤ k → k ≤ j → lessAt cmp data k (a - 1) = false) →
      insertionInner cmp 0 j data = insertionInner cmp a j data
  | 0, _, _, _, _ => rfl
  | j + 1, data, haj, hj, hlow => by
    unfold insertionInner
    by_cases hja : j + 1 > a
    · have e1 : decide (j + 1 > 0) = true := by simp
      have e2 : decide (j + 1 > a) = true := by simpa using hja
      rw [e1, e2]
      split
      · apply insertionInner_lower cmp a j _ (by omega) (by rw [length_swap]; omega)
        by_cases ha : a = 0
        · exact Or.inl ha
        rcases hlow with h | h
        · exact Or.inl h
        · right
          intro k hk1 hk2
          rw [lessAt_swap cmp data _ _ _ _ hj (by omega), tr_other (j + 1) j (a - 1) (by omega)
            (by omega)]
          by_cases e : k = j
          · subst e
            rw [tr_right]
            exact h (k + 1) (by omega) (Nat.le_refl _)
          · rw [tr_other (j + 1) j k (by omega) e]
            exact h k hk1 (by omega)
      · rfl
    · have ha : a = j + 1 := by omega
      subst ha
      rcases hlow with h | h
      · omega
      · have := h (j + 1) (Nat.le_refl _) (Nat.le_refl _)
        simp only [Nat.add_sub_cancel] at this
        rw [this]
        simp

theorem shiftRight_upd (cmp : α → α → Int) (lo b : Nat) :
    ∀ (fuel j : Nat) (data : List α), lo + 1 ≤ j → b ≤ data.length →
      RangeUpd data (shiftRight cmp b fuel j data) lo b
  | 0, _, data, _, _ => RangeUpd.refl _ _ _
  | fuel + 1, j, data, hj, hlen => by
    unfold shiftRight
    split
    · split
      · exact RangeUpd.refl _ _ _
      · have h1 := RangeUpd.swap data lo b j (j - 1) (by omega) (by omega) (by omega) (by omega)
          hlen
        exact h1.trans (shiftRight_upd cmp lo b fuel (j + 1) _ (by omega)
          (by rw [length_swap]; exact hlen))
    · exact RangeUpd.refl _ _ _

theorem rangeSorted_extend {cmp : α → α → Int} (hc : StrictWeak cmp) (data : List α)
    (a i : Nat) (hai : a < i) (hs : RangeSorted cmp data a i) :
    ∀ (i2 : Nat), i ≤ i2 → i2 ≤ data.length →
      (∀ k, i ≤ k → k < i2 → lessAt cmp data k (k - 1) = false) → RangeSorted cmp data a i2 := by
  intro i2
  induction i2 with
  | zero =>
    intro h1 _ _
    omega
  | succ n ih =>
    intro h1 h2 h3
    by_cases hn : i = n + 1
    · subst hn; exact hs
    · have ihn := ih (by omega) (by omega) (fun k hk1 hk2 => h3 k hk1 (by omega))
      rw [rangeSorted_iff_lessAt] at ihn ⊢
      intro p q hap hpq hq
      by_cases hqn : q = n
      · subst hqn
        have hadj := h3 q (by omega) (by omega)
        by_cases hpq1 : p = q - 1
        · subst hpq1; exact hadj
        · exact lessAt_negTrans hc data _ _ _ (by omega) hadj
            (ihn p (q - 1) hap (by omega) (by omega))
      · exact ihn p q hap hpq (by omega)

theorem rangeSorted_of_upd_left {cmp : α → α → Int} {d1 d2 : List α} {a i lo b : Nat}
    (hs : RangeSorted cmp d1 a i) (hu : RangeUpd d1 d2 lo b) (hlo : i ≤ lo) :
    RangeSorted cmp d2 a i := by
  intro p q x y hap hpq hq hx hy
  rw [hu.frame p (by omega)] at hx
  rw [hu.frame q (by omega)] at hy
  exact hs p q x y hap hpq hq hx hy

theorem partialInsertionLoop_spec {cmp : α → α → Int} (hc : StrictWeak cmp) (a b : Nat) :
    ∀ (steps i : Nat) (data : List α), a + 1 ≤ i → i ≤ b → b ≤ data.length →
      LowerBound cmp data a b → RangeSorted cmp data a i →
      RangeUpd data (partialInsertionLoop cmp a b steps i data).2 a b ∧
      ((partialInsertionLoop cmp a b steps i data).1 = true →
        RangeSorted cmp (partialInsertionLoop cmp a b steps i data).2 a b)
  | 0, i, data, _, _, _, _, _ => by
    unfold partialInsertionLoop
    exact ⟨RangeUpd.refl _ _ _, fun h => by cases h⟩
  | steps + 1, i, data, hai, hib, hlen, hlow, hs => by
    unfold partialInsertionLoop
    simp only []
    have hi1 := scanUp_ge (fun k => !lessAt cmp data k (k - 1)) (b - 1) (b - i) i
    have hi2 := scanUp_le (fun k => !lessAt cmp data k (k - 1)) (b - 1) (b - i) i (by omega)
    have hi3 := scanUp_all (fun k => !lessAt cmp data k (k - 1)) (b - 1) (b - i) i
    have hi4 := scanUp_stop (fun k => !lessAt cmp data k (k - 1)) (b - 1) (b - i) i (by omega)
    generalize scanUp (fun k => !lessAt cmp data k (k - 1)) (b - 1) (b - i) i = i2
      at hi1 hi2 hi3 hi4 ⊢
    simp only [Bool.not_eq_true', Bool.not_eq_false'] at hi3 hi4
    have hs2 : RangeSorted cmp data a i2 :=
      rangeSorted_extend hc data a i (by omega) hs i2 hi1 (by omega) hi3
    by_cases hib2 : i2 = b
    · rw [if_pos hib2]
      subst hib2
      exact ⟨RangeUpd.refl _ _ _, fun _ => hs2⟩
    · rw [if_neg hib2]
      by_cases h50 : b - a < 50
      · rw [if_pos h50]
        exact ⟨RangeUpd.refl _ _ _, fun h => by cases h⟩
      · rw [if_neg h50]
        have hi2l : i2 < data.length := by omega
        have hsw := RangeUpd.swap data a b i2 (i2 - 1) (by omega) (by omega) (by omega)
          (by omega) hlen
        have hlow1 := hlow.upd hsw (by omega)
        have hlen1 : (swap data i2 (i2 - 1)).length = data.length := length_swap _ _ _
        have hs1 : RangeSorted cmp (swap data i2 (i2 - 1)) a (i2 - 1) := by
          intro p q x y hap hpq hq hx hy
          rw [getElem?_swap_tr data _ _ _ hi2l (by omega),
            tr_other i2 (i2 - 1) p (by omega) (by omega)] at hx
          rw [getElem?_swap_tr data _ _ _ hi2l (by omega),
            tr_other i2 (i2 - 1) q (by omega) (by omega)] at hy
          exact hs2 p q x y hap hpq (by omega) hx hy
        generalize swap data i2 (i2 - 1) = data1 at hsw hlow1 hlen1 hs1 ⊢
        have h2 : RangeUpd data1 (if i2 - a ≥ 2 then shiftLeft cmp (i2 - 1) data1 else data1)
            a b ∧
            RangeSorted cmp (if i2 - a ≥ 2 then shiftLeft cmp (i2 - 1) data1 else data1) a i2 := by
          split
          · rename_i h2
            rw [shiftLeft_eq, insertionInner_lower cmp a (i2 - 1) data1 (by omega) (by omega)
              (by
                rcases hlow1 with h | h
                · exact Or.inl h
                · exact Or.inr fun k hk1 hk2 => h k hk1 (by omega))]
            constructor
            · exact (insertionInner_upd cmp a (i2 - 1) data1 (by omega)).mono (Nat.le_refl _)
                (by omega)
            · have := insertionInner_sorted hc a (i2 - 1) (i2 - 1) data1 (by omega)
                (Nat.le_refl _) (by omega)
                ⟨fun p q x y hap hpq hq hp1 hq1 hx hy =>
                  hs1 p q x y hap hpq (by omega) hx hy,
                 fun q x y h1 h2 => by omega⟩
              rw [show i2 - 1 + 1 = i2 by omega] at this
              exact this
          · constructor
            · exact RangeUpd.refl _ _ _
            · intro p q x y hap hpq hq
              omega
        obtain ⟨hu2, hs2b⟩ := h2
        have hlow2 := hlow1.upd hu2 (by omega)
        generalize (if i2 - a ≥ 2 then shiftLeft cmp (i2 - 1) data1 else data1) = data2
          at hu2 hs2b hlow2 ⊢
        have hlen2 : b ≤ data2.length := by rw [hu2.length, hlen1]; exact hlen
        have h3 : RangeUpd data2
            (if b - i2 ≥ 2 then shiftRight cmp b (b - i2) (i2 + 1) data2 else data2) i2 b := by
          split
          · exact shiftRight_upd cmp i2 b (b - i2) (i2 + 1) data2 (Nat.le_refl _) hlen2
          · exact RangeUpd.refl _ _ _
        generalize (if b - i2 ≥ 2 then shiftRight cmp b (b - i2) (i2 + 1) data2 else data2)
          = data3 at h3 ⊢
        have h3b := h3.mono (show a ≤ i2 by omega) (Nat.le_refl b)
        have ih := partialInsertionLoop_spec hc a b steps i2 data3 (by omega) (by omega)
          (by rw [h3.length]; exact hlen2) (hlow2.upd h3b (by omega))
          (rangeSorted_of_upd_left hs2b h3 (Nat.le_refl _))
        exact ⟨(hsw.trans hu2).trans (h3b.trans ih.1), ih.2⟩

theorem partialInsertionSortCmpFunc_spec {cmp : α → α → Int} (hc : StrictWeak cmp)
    (data : List α) (a b : Nat) (hab : a < b) (hlen : b ≤ data.length)
    (hlow : LowerBound cmp data a b) :
    RangeUpd data (partialInsertionSortCmpFunc data a b cmp).2 a b ∧
    ((partialInsertionSortCmpFunc data a b cmp).1 = true →
      RangeSorted cmp (partialInsertionSortCmpFunc data a b cmp).2 a b) := by
  unfold partialInsertionSortCmpFunc
  apply partialInsertionLoop_spec hc a b 5 (a + 1) data (Nat.le_refl _) (by omega) hlen hlow
  intro p q x y hap hpq hq
  omega

theorem lessAt_congr (cmp : α → α → Int) (d1 d2 : List α) (i j i2 j2 : Nat)
    (hi : d2[i]? = d1[i2]?) (hj : d2[j]? = d1[j2]?) :
    lessAt cmp d2 i j = lessAt cmp d1 i2 j2 := by
  unfold lessAt
  rw [hi, hj]

theorem RangeUpd.index {d1 d2 : List α} {lo hi : Nat} (hu : RangeUpd d1 d2 lo hi)
    (hlh : lo ≤ hi) (hlen : hi ≤ d1.length) (k : Nat) (h1 : lo ≤ k) (h2 : k < hi) :
    ∃ k2, lo ≤ k2 ∧ k2 < hi ∧ d2[k]? = d1[k2]? := by
  have hk : k < d2.length := by rw [hu.length]; omega
  obtain ⟨k2, a1, a2, a3⟩ := hu.mem hlh k d2[k] h1 h2 (List.getElem?_eq_getElem hk)
  exact ⟨k2, a1, a2, by rw [a3, List.getElem?_eq_getElem hk]⟩

theorem lessAt_frame (cmp : α → α → Int) {d1 d2 : List α} {lo hi : Nat}
    (hu : RangeUpd d1 d2 lo hi) (i j : Nat) (hi1 : i < lo ∨ hi ≤ i) (hj : j < lo ∨ hi ≤ j) :
    lessAt cmp d2 i j = lessAt cmp d1 i j :=
  lessAt_congr cmp d1 d2 i j i j (hu.frame i hi1) (hu.frame j hj)

/-- Two sorted halves around a pivot that separates them form a sorted range. -/
theorem rangeSorted_join {cmp : α → α → Int} (hc : StrictWeak cmp) (data : List α)
    (a mid b : Nat) (hmid : mid < b)
    (hl : RangeSorted cmp data a mid) (hr : RangeSorted cmp data (mid + 1) b)
    (hlt : ∀ k, a ≤ k → k < mid → lessAt cmp data k mid = true)
    (hge : ∀ k, mid < k → k < b → lessAt cmp data k mid = false) :
    RangeSorted cmp data a b := by
  rw [rangeSorted_iff_lessAt] at hl hr ⊢
  intro p q hap hpq hq
  by_cases h1 : q < mid
  · exact hl p q hap hpq h1
  · by_cases h2 : mid < p
    · exact hr p q (by omega) hpq hq
    · by_cases h3 : q = mid
      · subst h3
        exact lessAt_asymm hc data _ _ (hlt p hap hpq)
      · by_cases h4 : p = mid
        · subst h4
          exact hge q hpq hq
        · cases hx : lessAt cmp data q p with
          | false => rfl
          | true =>
            have := lessAt_trans hc data q p mid hx (hlt p hap (by omega))
            rw [hge q (by omega) hq] at this
            cases this

theorem insertionSortCmpFunc_upd (data : List α) (a b : Nat) (cmp : α → α → Int)
    (hb : b ≤ data.length) : RangeUpd data (insertionSortCmpFunc data a b cmp) a b :=
  ⟨insertionSortCmpFunc_length data a b cmp,
    fun k hk => insertionSortCmpFunc_frame data a b cmp k hb hk,
    insertionSortCmpFunc_perm data a b cmp⟩

/-- Two successive rearrangements of disjoint ranges: in each range the final elements
are elements that the range held at the start, and everything else is untouched. -/
theorem RangeUpd.index_two {d dm res : List α} {lo1 hi1 lo2 hi2 : Nat}
    (h1 : RangeUpd d dm lo1 hi1) (h2 : RangeUpd dm res lo2 hi2) (hd : hi1 ≤ lo2 ∨ hi2 ≤ lo1)
    (hl1 : lo1 ≤ hi1) (hl2 : lo2 ≤ hi2) (hlen1 : hi1 ≤ d.length) (hlen2 : hi2 ≤ d.length) :
    (∀ k, lo1 ≤ k → k < hi1 → ∃ k2, lo1 ≤ k2 ∧ k2 < hi1 ∧ res[k]? = d[k2]?) ∧
    (∀ k, lo2 ≤ k → k < hi2 → ∃ k2, lo2 ≤ k2 ∧ k2 < hi2 ∧ res[k]? = d[k2]?) ∧
    (∀ k, (k < lo1 ∨ hi1 ≤ k) → (k < lo2 ∨ hi2 ≤ k) → res[k]? = d[k]?) := by
  refine ⟨?_, ?_, ?_⟩
  · intro k hk1 hk2
    obtain ⟨k2, a1, a2, a3⟩ := h1.index hl1 hlen1 k hk1 hk2
    exact ⟨k2, a1, a2, by rw [h2.frame k (by omega), a3]⟩
  · intro k hk1 hk2
    obtain ⟨k2, a1, a2, a3⟩ := h2.index hl2 (by rw [h1.length]; exact hlen2) k hk1 hk2
    exact ⟨k2, a1, a2, by rw [a3, h1.frame k2 (by omega)]⟩
  · intro k hk1 hk2
    rw [h2.frame k hk2, h1.frame k hk1]

/-- Sorting both sides of the pivot position after a partition sorts the range. -/
theorem rangeSorted_of_partition {cmp : α → α → Int} (hc : StrictWeak cmp)
    (d res : List α) (a mid b : Nat) (hmid : mid < b)
    (hlt : ∀ k, a ≤ k → k < mid → lessAt cmp d k mid = true)
    (hge : ∀ k, mid < k → k < b → lessAt cmp d k mid = false)
    (hL : ∀ k, a ≤ k → k < mid → ∃ k2, a ≤ k2 ∧ k2 < mid ∧ res[k]? = d[k2]?)
    (hR : ∀ k, mid + 1 ≤ k → k < b → ∃ k2, mid + 1 ≤ k2 ∧ k2 < b ∧ res[k]? = d[k2]?)
    (hM : res[mid]? = d[mid]?)
    (hsl : RangeSorted cmp res a mid) (hsr : RangeSorted cmp res (mid + 1) b) :
    RangeSorted cmp res a b := by
  apply rangeSorted_join hc res a mid b hmid hsl hsr
  · intro k h1 h2
    obtain ⟨k2, a1, a2, a3⟩ := hL k h1 h2
    rw [lessAt_congr cmp d res k mid k2 mid a3 hM]
    exact hlt k2 a1 a2
  · intro k h1 h2
    obtain ⟨k2, a1, a2, a3⟩ := hR k (by omega) h2
    rw [lessAt_congr cmp d res k mid k2 mid a3 hM]
    exact hge k2 (by omega) a2

/-- Sorting the upper part after `partitionEqualCmpFunc` sorts the range, when nothing in
the range is less than the pivot. -/
theorem rangeSorted_of_partitionEqual {cmp : α → α → Int} (hc : StrictWeak cmp)
    (d res : List α) (a mid b : Nat) (ham : a + 1 ≤ mid) (hmb : mid ≤ b) (hlen : b ≤ d.length)
    (hnl : ∀ k, a ≤ k → k < b → lessAt cmp d k a = false)
    (heq : ∀ k, a + 1 ≤ k → k < mid → lessAt cmp d a k = false)
    (hgt : ∀ k, mid ≤ k → k < b → lessAt cmp d a k = true)
    (hu : RangeUpd d res mid b) (hsr : RangeSorted cmp res mid b) :
    RangeSorted cmp res a b := by
  rw [rangeSorted_iff_lessAt] at hsr ⊢
  intro p q hap hpq hq
  have hal : a < d.length := by omega
  by_cases h1 : mid ≤ p
  · exact hsr p q h1 hpq hq
  · have hp : lessAt cmp d a p = false := by
      by_cases hpa : p = a
      · subst hpa; exact lessAt_irrefl hc d p
      · exact heq p (by omega) (by omega)
    by_cases h2 : q < mid
    · rw [lessAt_frame cmp hu q p (by omega) (by omega)]
      exact lessAt_negTrans hc d q a p hal (hnl q (by omega) hq) hp
    · obtain ⟨k2, a1, a2, a3⟩ := hu.index hmb hlen q (by omega) hq
      rw [lessAt_congr cmp d res q p k2 p a3 (hu.frame p (by omega))]
      exact lessAt_negTrans hc d k2 a p hal (hnl k2 (by omega) a2) hp

theorem rangeSorted_of_upd_disjoint {cmp : α → α → Int} {d1 d2 : List α} {s e lo hi : Nat}
    (hs : RangeSorted cmp d1 s e) (hu : RangeUpd d1 d2 lo hi) (hd : e ≤ lo ∨ hi ≤ s) :
    RangeSorted cmp d2 s e := by
  intro p q x y hap hpq hq hx hy
  rw [hu.frame p (by omega)] at hx
  rw [hu.frame q (by omega)] at hy
  exact hs p q x y hap hpq hq hx hy

theorem LowerBound.frame {cmp : α → α → Int} {d1 d2 : List α} {s e lo hi : Nat}
    (h : LowerBound cmp d1 s e) (hu : RangeUpd d1 d2 lo hi) (hd : e ≤ lo ∨ hi + 1 ≤ s) :
    LowerBound cmp d2 s e := by
  by_cases hs : s = 0
  · exact Or.inl hs
  rcases h with h | h
  · exact Or.inl h
  · right
    intro k hk1 hk2
    rw [lessAt_frame cmp hu k (s - 1) (by omega) (by omega)]
    exact h k hk1 hk2

theorem pdqsortCmpFunc_spec {cmp : α → α → Int} (hc : StrictWeak cmp) :
    ∀ (fuel : Nat) (data : List α) (a b limit : Nat) (wb wp : Bool),
      a ≤ b → b ≤ data.length → b - a < fuel → LowerBound cmp data a b →
      RangeUpd data (pdqsortCmpFunc cmp fuel data a b limit wb wp) a b ∧
      RangeSorted cmp (pdqsortCmpFunc cmp fuel data a b limit wb wp) a b
  | 0, _, _, _, _, _, _, _, _, hfuel, _ => by omega
  | fuel + 1, data, a, b, limit, wb, wp, hab, hlen, hfuel, hlow => by
    unfold pdqsortCmpFunc
    simp only []
    by_cases h12 : b - a ≤ 12
    · rw [if_pos h12]
      exact ⟨insertionSortCmpFunc_upd data a b cmp hlen, insertionSortCmpFunc_sorted hc data a b hlen⟩
    · rw [if_neg h12]
      by_cases hlim : limit = 0
      · rw [if_pos hlim]
        exact ⟨heapSortCmpFunc_upd data a b cmp hab hlen, heapSortCmpFunc_sorted hc data a b hab hlen⟩
      · rw [if_neg hlim]
        have hu1 : RangeUpd data (if (!wb) = true then breakPatternsCmpFunc data a b else data)
            a b := by
          split
          · exact breakPatternsCmpFunc_upd data a b hlen
          · exact RangeUpd.refl _ _ _
        generalize (if (!wb) = true then breakPatternsCmpFunc data a b else data) = data1
          at hu1 ⊢
        generalize (if (!wb) = true then limit - 1 else limit) = limit1
        have hlen1 : b ≤ data1.length := by rw [hu1.length]; exact hlen
        have hpb := choosePivotCmpFunc_bounds data1 a b cmp (by omega)
        generalize choosePivotCmpFunc data1 a b cmp = ph at hpb ⊢
        generalize decide (ph.2 = SortedHint.decreasingHint) = reversed
        have hu2 : RangeUpd data1 (if reversed = true then reverseRangeCmpFunc data1 a b
            else data1) a b := by
          split
          · exact reverseRangeCmpFunc_upd data1 a b hlen1
          · exact RangeUpd.refl _ _ _
        generalize (if reversed = true then reverseRangeCmpFunc data1 a b else data1) = data2
          at hu2 ⊢
        have hlen2 : b ≤ data2.length := by rw [hu2.length]; exact hlen1
        have hpv : a ≤ (if reversed = true then b - 1 - (ph.1 - a) else ph.1) ∧
            (if reversed = true then b - 1 - (ph.1 - a) else ph.1) < b := by
          split <;> omega
        generalize (if reversed = true then b - 1 - (ph.1 - a) else ph.1) = pivot at hpv ⊢
        generalize (wb && wp && decide ((if reversed = true then SortedHint.increasingHint
          else ph.2) = SortedHint.increasingHint)) = tryPartial
        have hlow2 : LowerBound cmp data2 a b := hlow.upd (hu1.trans hu2) hab
        have hpi : RangeUpd data2 (if tryPartial = true then
              partialInsertionSortCmpFunc data2 a b cmp else (false, data2)).2 a b ∧
            ((if tryPartial = true then
              partialInsertionSortCmpFunc data2 a b cmp else (false, data2)).1 = true →
              RangeSorted cmp (if tryPartial = true then
                partialInsertionSortCmpFunc data2 a b cmp else (false, data2)).2 a b) := by
          split
          · exact partialInsertionSortCmpFunc_spec hc data2 a b (by omega) hlen2 hlow2
          · exact ⟨RangeUpd.refl _ _ _, fun h => by cases h⟩
        generalize (if tryPartial = true then
          partialInsertionSortCmpFunc data2 a b cmp else (false, data2)) = pi at hpi ⊢
        obtain ⟨hu3, hs3⟩ := hpi
        have hu03 := (hu1.trans hu2).trans hu3
        have hlen3 : b ≤ pi.2.length := by rw [hu3.length]; exact hlen2
        have hlow3 : LowerBound cmp pi.2 a b := hlow.upd hu03 hab
        by_cases hp1 : pi.1 = true
        · simp only [if_pos hp1]
          exact ⟨hu03, hs3 hp1⟩
        · simp only [if_neg hp1]
          generalize pi.2 = d3 at hu03 hlen3 hlow3 ⊢
          by_cases hpe : (decide (a > 0) && !lessAt cmp d3 (a - 1) pivot) = true
          · simp only [if_pos hpe]
            simp only [Bool.and_eq_true, decide_eq_true_eq, Bool.not_eq_true'] at hpe
            obtain ⟨e1, e2, e3, e4, e5, e6⟩ :=
              partitionEqualCmpFunc_spec d3 a b pivot cmp hpv.1 hpv.2 hlen3
            generalize partitionEqualCmpFunc d3 a b pivot cmp = r at e1 e2 e3 e4 e5 e6 ⊢
            have hlenr : b ≤ r.2.length := by rw [e1.length]; exact hlen3
            have hlow4 : LowerBound cmp r.2 a b := hlow3.upd e1 hab
            have hnl : ∀ k, a ≤ k → k < b → lessAt cmp r.2 k a = false := by
              intro k hk1 hk2
              rcases hlow4 with h | h
              · omega
              · have h1 := h k hk1 hk2
                have h2 : lessAt cmp r.2 (a - 1) a = false := by
                  rw [lessAt_congr cmp d3 r.2 (a - 1) a (a - 1) pivot (e1.frame _ (by omega)) e4]
                  exact hpe.2
                exact lessAt_negTrans hc r.2 k (a - 1) a (by omega) h1 h2
            have hlowm : LowerBound cmp r.2 r.1 b := by
              right
              intro k hk1 hk2
              cases hx : lessAt cmp r.2 k (r.1 - 1) with
              | false => rfl
              | true =>
                have h1 := lessAt_trans hc r.2 a k (r.1 - 1) (e6 k hk1 hk2) hx
                by_cases hm : r.1 - 1 = a
                · rw [hm, lessAt_irrefl hc] at h1
                  cases h1
                · rw [e5 (r.1 - 1) (by omega) (by omega)] at h1
                  cases h1
            have ih := pdqsortCmpFunc_spec hc fuel r.2 r.1 b limit1 wb wp e3 hlenr (by omega)
              hlowm
            refine ⟨hu03.trans (e1.trans (ih.1.mono (by omega) (Nat.le_refl _))), ?_⟩
            exact rangeSorted_of_partitionEqual hc r.2 _ a r.1 b e2 e3 hlenr hnl e5 e6 ih.1 ih.2
          · simp only [if_neg hpe]
            obtain ⟨q1, q2, q3, q4, q5⟩ :=
              partitionCmpFunc_spec d3 a b pivot cmp hpv.1 hpv.2 hlen3
            generalize partitionCmpFunc d3 a b pivot cmp = r at q1 q2 q3 q4 q5 ⊢
            have hlenr : b ≤ r.2.2.length := by rw [q1.length]; exact hlen3
            have hlow4 : LowerBound cmp r.2.2 a b := hlow3.upd q1 hab
            have hlowR : LowerBound cmp r.2.2 (r.1 + 1) b :=
              Or.inr fun k hk1 hk2 => by simpa using q5 k (by omega) hk2
            by_cases hlr : r.1 - a < b - r.1
            · simp only [if_pos hlr]
              have ihL := pdqsortCmpFunc_spec hc fuel r.2.2 a r.1 limit1 true true q2
                (by omega) (by omega) (hlow4.shrink (by omega))
              generalize pdqsortCmpFunc cmp fuel r.2.2 a r.1 limit1 true true = dL at ihL ⊢
              have hlenL : b ≤ dL.length := by rw [ihL.1.length]; exact hlenr
              have hlowR2 : LowerBound cmp dL (r.1 + 1) b := hlowR.frame ihL.1 (Or.inr (by omega))
              have ihR := pdqsortCmpFunc_spec hc fuel dL (r.1 + 1) b limit1
                (decide (r.1 - a ≥ (b - a) / 8)) r.2.1 (by omega) hlenL (by omega) hlowR2
              generalize pdqsortCmpFunc cmp fuel dL (r.1 + 1) b limit1
                (decide (r.1 - a ≥ (b - a) / 8)) r.2.1 = res at ihR ⊢
              obtain ⟨t1, t2, t3⟩ := RangeUpd.index_two ihL.1 ihR.1 (Or.inl (by omega)) q2
                (by omega) (by omega) hlenr
              refine ⟨hu03.trans (q1.trans ((ihL.1.mono (Nat.le_refl _) (by omega)).trans
                (ihR.1.mono (by omega) (Nat.le_refl _)))), ?_⟩
              exact rangeSorted_of_partition hc r.2.2 res a r.1 b q3 q4 q5 t1 t2
                (t3 r.1 (by omega) (by omega))
                (rangeSorted_of_upd_disjoint ihL.2 ihR.1 (Or.inl (by omega))) ihR.2
            · simp only [if_neg hlr]
              have ihR := pdqsortCmpFunc_spec hc fuel r.2.2 (r.1 + 1) b limit1 true true
                (by omega) hlenr (by omega) hlowR
              generalize pdqsortCmpFunc cmp fuel r.2.2 (r.1 + 1) b limit1 true true = dR
                at ihR ⊢
              have hlenR : b ≤ dR.length := by rw [ihR.1.length]; exact hlenr
              have hlowL2 : LowerBound cmp dR a r.1 :=
                (hlow4.shrink (show r.1 ≤ b by omega)).frame ihR.1 (Or.inl (by omega))
              have ihL := pdqsortCmpFunc_spec hc fuel dR a r.1 limit1
                (decide (b - r.1 ≥ (b - a) / 8)) r.2.1 q2 (by omega) (by omega) hlowL2
              generalize pdqsortCmpFunc cmp fuel dR a r.1 limit1
                (decide (b - r.1 ≥ (b - a) / 8)) r.2.1 = res at ihL ⊢
              obtain ⟨t1, t2, t3⟩ := RangeUpd.index_two ihR.1 ihL.1 (Or.inr (by omega))
                (by omega) q2 hlenr (by omega)
              refine ⟨hu03.trans (q1.trans ((ihR.1.mono (by omega) (Nat.le_refl _)).trans
                (ihL.1.mono (Nat.le_refl _) (by omega)))), ?_⟩
              exact rangeSorted_of_partition hc r.2.2 res a r.1 b q3 q4 q5 t2 t1
                (t3 r.1 (by omega) (by omega)) ihL.2
                (rangeSorted_of_upd_disjoint ihR.2 ihL.1 (Or.inr (by omega)))

theorem scanUp_full (test : Nat → Bool) (j : Nat) :
    ∀ (fuel i : Nat), i ≤ j + 1 → j + 1 ≤ i + fuel →
      (∀ k, i ≤ k → k ≤ j → test k = true) → scanUp test j fuel i = j + 1
  | 0, i, h1, h2, _ => by
    unfold scanUp
    omega
  | fuel + 1, i, h1, h2, h3 => by
    unfold scanUp
    by_cases hij : i ≤ j
    · have : (decide (i ≤ j) && test i) = true := by simp [hij, h3 i (Nat.le_refl _) hij]
      rw [if_pos this]
      exact scanUp_full test j fuel (i + 1) (by omega) (by omega)
        (fun k hk1 hk2 => h3 k (by omega) hk2)
    · have : ¬ (decide (i ≤ j) && test i) = true := by simp [hij]
      rw [if_neg this]
      omega

theorem order2CmpFunc_sorted (data : List α) (a b swaps : Nat) (cmp : α → α → Int)
    (h : lessAt cmp data b a = false) : order2CmpFunc data a b swaps cmp = (a, b, swaps) := by
  unfold order2CmpFunc
  rw [h]
  rfl

theorem medianCmpFunc_sorted (data : List α) (a b c swaps : Nat) (cmp : α → α → Int)
    (h1 : lessAt cmp data b a = false) (h2 : lessAt cmp data c b = false) :
    medianCmpFunc data a b c swaps cmp = (b, swaps) := by
  unfold medianCmpFunc
  simp only []
  rw [order2CmpFunc_sorted data a b swaps cmp h1]
  simp only []
  rw [order2CmpFunc_sorted data b c swaps cmp h2]
  simp only []
  rw [order2CmpFunc_sorted data a b swaps cmp h1]

theorem choosePivotCmpFunc_sorted (data : List α) (a b : Nat) (cmp : α → α → Int)
    (hs : RangeSorted cmp data a b) :
    (choosePivotCmpFunc data a b cmp).2 = SortedHint.increasingHint := by
  have hl : ∀ p q, a ≤ p → p < q → q < b → lessAt cmp data q p = false :=
    fun p q h1 h2 h3 => lessAt_false_of_sorted hs p q h1 h2 h3
  unfold choosePivotCmpFunc
  simp only []
  by_cases h8 : b - a ≥ 8
  · rw [if_pos h8]
    by_cases h50 : b - a ≥ 50
    · rw [if_pos h50]
      unfold medianAdjacentCmpFunc
      rw [medianCmpFunc_sorted data _ _ _ 0 cmp (hl _ _ (by omega) (by omega) (by omega))
        (hl _ _ (by omega) (by omega) (by omega))]
      simp only []
      rw [medianCmpFunc_sorted data _ _ _ 0 cmp (hl _ _ (by omega) (by omega) (by omega))
        (hl _ _ (by omega) (by omega) (by omega))]
      simp only []
      rw [medianCmpFunc_sorted data _ _ _ 0 cmp (hl _ _ (by omega) (by omega) (by omega))
        (hl _ _ (by omega) (by omega) (by omega))]
      simp only []
      rw [medianCmpFunc_sorted data _ _ _ 0 cmp (hl _ _ (by omega) (by omega) (by omega))
        (hl _ _ (by omega) (by omega) (by omega))]
      simp
    · rw [if_neg h50]
      rw [medianCmpFunc_sorted data _ _ _ 0 cmp (hl _ _ (by omega) (by omega) (by omega))
        (hl _ _ (by omega) (by omega) (by omega))]
      simp
  · rw [if_neg h8]
    simp

theorem partialInsertionSortCmpFunc_sorted (data : List α) (a b : Nat) (cmp : α → α → Int)
    (hab : a < b) (hs : RangeSorted cmp data a b) :
    partialInsertionSortCmpFunc data a b cmp = (true, data) := by
  unfold partialInsertionSortCmpFunc partialInsertionLoop
  simp only []
  have : scanUp (fun k => !lessAt cmp data k (k - 1)) (b - 1) (b - (a + 1)) (a + 1) = b := by
    rw [scanUp_full _ (b - 1) (b - (a + 1)) (a + 1) (by omega) (by omega)]
    · omega
    · intro k hk1 hk2
      rw [lessAt_false_of_sorted hs (k - 1) k (by omega) (by omega) (by omega)]
      rfl
  rw [this]
  simp

theorem pdqsortCmpFunc_fixed (cmp : α → α → Int) (fuel : Nat) (data : List α)
    (a b limit : Nat) (hlim : limit ≠ 0) (hs : RangeSorted cmp data a b) :
    pdqsortCmpFunc cmp (fuel + 1) data a b limit true true = data := by
  unfold pdqsortCmpFunc
  simp only []
  by_cases h12 : b - a ≤ 12
  · rw [if_pos h12]
    exact insertionSortCmpFunc_fixed data a b cmp hs
  · rw [if_neg h12, if_neg hlim]
    simp only [Bool.not_true, Bool.false_eq_true, if_false, Bool.and_self, Bool.true_and]
    rw [choosePivotCmpFunc_sorted data a b cmp hs]
    have hp := partialInsertionSortCmpFunc_sorted data a b cmp (by omega) hs
    simp [hp]

theorem bitsLen_ne_zero (n : Nat) (h : n ≠ 0) : bitsLen n ≠ 0 := by
  cases n with
  | zero => exact absurd rfl h
  | succ n => exact Nat.succ_ne_zero _

/-- `slices.SortFunc` rearranges the slice. -/
theorem SortFunc_perm {cmp : α → α → Int} (hc : StrictWeak cmp) (x : List α) :
    (SortFunc x cmp).Perm x := by
  unfold SortFunc
  exact (pdqsortCmpFunc_spec hc (x.length + 1) x 0 x.length (bitsLen x.length) true true
    (Nat.zero_le _) (Nat.le_refl _) (by omega) (Or.inl rfl)).1.perm

/-- `slices.SortFunc` leaves the slice sorted: no element is less than an earlier one. -/
theorem SortFunc_sorted {cmp : α → α → Int} (hc : StrictWeak cmp) (x : List α) :
    (SortFunc x cmp).Pairwise (fun p q => ¬ cmp q p < 0) := by
  have h := pdqsortCmpFunc_spec hc (x.length + 1) x 0 x.length (bitsLen x.length) true true
    (Nat.zero_le _) (Nat.le_refl _) (by omega) (Or.inl rfl)
  rw [← rangeSorted_iff_pairwise]
  unfold SortFunc
  simp only []
  rw [h.1.length]
  exact h.2

/-- `slices.SortFunc` does not move anything in a slice that is sorted already. -/
theorem SortFunc_fixed (cmp : α → α → Int) (x : List α)
    (h : x.Pairwise (fun p q => ¬ cmp q p < 0)) : SortFunc x cmp = x := by
  unfold SortFunc
  simp only []
  rw [← rangeSorted_iff_pairwise] at h
  by_cases hn : x.length = 0
  · have : x = [] := List.length_eq_zero.mp hn
    subst this
    rfl
  · exact pdqsortCmpFunc_fixed cmp x.length x 0 x.length (bitsLen x.length)
      (bitsLen_ne_zero _ hn) h

end SortingProofs

/-! ## The program -/

theorem strLess_cons (c d : Byte) (xs ys : GoString) :
    strLess (c :: xs) (d :: ys) = if c < d then true else if d < c then false else strLess xs ys :=
  rfl

theorem strLess_irrefl : ∀ x : GoString, strLess x x = false
  | [] => rfl
  | c :: rest => by simp [strLess, strLess_irrefl rest]

theorem strLess_asymm : ∀ x y : GoString, strLess x y = true → strLess y x = false
  | [], [], h => by simp [strLess] at h
  | [], _ :: _, _ => rfl
  | _ :: _, [], h => by simp [strLess] at h
  | c :: xs, d :: ys, h => by
    rw [strLess_cons] at h ⊢
    rcases lt_trichotomy c d with h1 | h1 | h1
    · simp [h1, lt_asymm h1]
    · subst h1
      simp only [lt_irrefl, if_false] at h ⊢
      exact strLess_asymm xs ys h
    · simp [h1, lt_asymm h1] at h

theorem strLess_trans : ∀ x y z : GoString, strLess x y = true → strLess y z = true →
    strLess x z = true
  | [], [], _, h, _ => by simp [strLess] at h
  | [], _ :: _, [], _, h => by simp [strLess] at h
  | [], _ :: _, _ :: _, _, _ => rfl
  | _ :: _, [], _, h, _ => by simp [strLess] at h
  | _ :: _, _ :: _, [], _, h => by simp [strLess] at h
  | c :: xs, d :: ys, e :: zs, h1, h2 => by
    rw [strLess_cons] at h1 h2 ⊢
    rcases lt_trichotomy c d with hcd | hcd | hcd
    · rcases lt_trichotomy d e with hde | hde | hde
      · simp [lt_trans hcd hde]
      · subst hde; simp [hcd]
      · simp [hde, lt_asymm hde] at h2
    · subst hcd
      rcases lt_trichotomy c e with hde | hde | hde
      · simp [hde]
      · subst hde
        simp only [lt_irrefl, if_false] at h1 h2 ⊢
        exact strLess_trans xs ys zs h1 h2
      · simp [hde, lt_asymm hde] at h2
    · simp [hcd, lt_asymm hcd] at h1

theorem strLess_total : ∀ x y : GoString, strLess x y = false → strLess y x = false → x = y
  | [], [], _, _ => rfl
  | [], _ :: _, h, _ => by simp [strLess] at h
  | _ :: _, [], _, h => by simp [strLess] at h
  | c :: xs, d :: ys, h1, h2 => by
    rw [strLess_cons] at h1 h2
    rcases lt_trichotomy c d with hcd | hcd | hcd
    · simp [hcd] at h1
    · subst hcd
      simp only [lt_irrefl, if_false] at h1 h2
      rw [strLess_total xs ys h1 h2]
    · simp [hcd] at h2

theorem strLess_iff_lex : ∀ x y : GoString,
    strLess x y = true ↔ List.Lex (fun a b : Byte => a < b) x y
  | [], [] => by simp [strLess]
  | [], _ :: _ => by simp [strLess, List.Lex.nil]
  | _ :: _, [] => by simp [strLess]
  | c :: xs, d :: ys => by
    rw [strLess_cons]
    rcases lt_trichotomy c d with hcd | hcd | hcd
    · simp only [hcd, if_true, true_iff]
      exact List.Lex.rel hcd
    · subst hcd
      simp only [lt_irrefl, if_false]
      rw [strLess_iff_lex xs ys]
      constructor
      · intro h; exact List.Lex.cons h
      · intro h
        cases h with
        | cons h => exact h
        | rel h => exact absurd h (lt_irrefl _)
    · simp only [lt_asymm hcd, hcd, if_false, if_true]
      constructor
      · intro h; cases h
      · intro h
        cases h with
        | cons h => exact absurd hcd (lt_irrefl _)
        | rel h => exact absurd h (lt_asymm hcd)

theorem sortCmp_neg_iff (a b : Movie) : sortCmp a b < 0 ↔ KeyLt a b := by
  unfold sortCmp KeyLt
  simp only [cmpOr, cmpCompareInt, cmpBool, cmpCompareString]
  generalize a.DigitalRelease.Unix = d1
  generalize b.DigitalRelease.Unix = d2
  generalize a.PhysicalRelease.Unix = p1
  generalize b.PhysicalRelease.Unix = p2
  generalize a.SortTitle = s1
  generalize b.SortTitle = s2
  have hs := strLess_asymm s1 s2
  rcases Int.lt_trichotomy d1 d2 with hd | hd | hd
  · have : ¬ d1 > d2 := by omega
    simp [hd]; omega
  · subst hd
    rcases Int.lt_trichotomy p1 p2 with hp | hp | hp
    · simp [hp]; omega
    · subst hp
      cases a.HasFile <;> cases b.HasFile <;> cases h1 : strLess s1 s2 <;>
        cases h2 : strLess s2 s1 <;> simp_all
    · have : ¬ p1 < p2 := by omega
      simp [hp, this]
  · have : ¬ d1 < d2 := by omega
    simp [hd, this]

theorem keyLt_asymm (a b : Movie) : KeyLt a b → ¬ KeyLt b a := by
  unfold KeyLt
  generalize a.DigitalRelease.Unix = d1
  generalize b.DigitalRelease.Unix = d2
  generalize a.PhysicalRelease.Unix = p1
  generalize b.PhysicalRelease.Unix = p2
  have hs := strLess_asymm a.SortTitle b.SortTitle
  intro h h'
  rcases h with h | ⟨h1, h | ⟨h2, ⟨h3, h4⟩ | ⟨h3, h4⟩⟩⟩ <;>
    rcases h' with h' | ⟨h1', h' | ⟨h2', ⟨h3', h4'⟩ | ⟨h3', h4'⟩⟩⟩ <;>
    first
    | omega
    | simp_all

theorem keyLt_negTrans (a b c : Movie) : ¬ KeyLt a b → ¬ KeyLt b c → ¬ KeyLt a c := by
  unfold KeyLt
  generalize a.DigitalRelease.Unix = d1
  generalize b.DigitalRelease.Unix = d2
  generalize c.DigitalRelease.Unix = d3
  generalize a.PhysicalRelease.Unix = p1
  generalize b.PhysicalRelease.Unix = p2
  generalize c.PhysicalRelease.Unix = p3
  intro hab hbc hac
  simp only [not_or, not_and] at hab hbc
  obtain ⟨hab1, hab2⟩ := hab
  obtain ⟨hbc1, hbc2⟩ := hbc
  have key : ∀ x y z : GoString, strLess x y = false → strLess y z = false →
      strLess x z = false := by
    intro x y z hxy hyz
    cases hxz : strLess x z with
    | false => rfl
    | true =>
      cases hzy : strLess z y with
      | true => rw [strLess_trans x z y hxz hzy] at hxy; cases hxy
      | false =>
        have : y = z := strLess_total y z hyz hzy
        subst this
        rw [hxz] at hxy; cases hxy
  have hd12 : d1 ≤ d2 := by omega
  have hd23 : d2 ≤ d3 := by omega
  rcases hac with h | ⟨h1, h⟩
  · omega
  · have e12 : d1 = d2 := by omega
    have e23 : d2 = d3 := by omega
    obtain ⟨hab2a, hab2b⟩ := hab2 e12
    obtain ⟨hbc2a, hbc2b⟩ := hbc2 e23
    rcases h with h | ⟨h2, h⟩
    · omega
    · have f12 : p1 = p2 := by omega
      have f23 : p2 = p3 := by omega
      obtain ⟨hab3a, hab3b⟩ := hab2b f12
      obtain ⟨hbc3a, hbc3b⟩ := hbc2b f23
      have k := key a.SortTitle b.SortTitle c.SortTitle
      rcases h with ⟨h3, h4⟩ | ⟨h3, h4⟩
      · cases hb : b.HasFile <;> simp_all
      · cases hb : b.HasFile <;> cases ha : a.HasFile <;> simp_all

theorem sortCmp_strictWeak : StrictWeak sortCmp where
  asymm := by
    intro a b h
    rw [sortCmp_neg_iff] at h ⊢
    exact keyLt_asymm a b h
  negTrans := by
    intro a b c h1 h2
    rw [sortCmp_neg_iff] at h1 h2 ⊢
    exact keyLt_negTrans a b c h1 h2

theorem keyOrder_iff (a b : Movie) : KeyOrder a b ↔ ¬ sortCmp b a < 0 := by
  rw [sortCmp_neg_iff]
  unfold KeyOrder KeyLt
  generalize a.DigitalRelease.Unix = d1
  generalize b.DigitalRelease.Unix = d2
  generalize a.PhysicalRelease.Unix = p1
  generalize b.PhysicalRelease.Unix = p2
  simp only [← strLess_iff_lex]
  have hs := strLess_asymm a.SortTitle b.SortTitle
  have ht := strLess_total a.SortTitle b.SortTitle
  have hi := strLess_irrefl a.SortTitle
  constructor
  · intro h h'
    rcases h with h | ⟨h1, h⟩ | ⟨h1, h2, h3, h4⟩ | ⟨h1, h2, h3, h4 | h4⟩ <;>
      rcases h' with h' | ⟨h1', h' | ⟨h2', ⟨h3', h4'⟩ | ⟨h3', h4'⟩⟩⟩ <;>
      first
      | omega
      | simp_all
  · intro h
    simp only [not_or, not_and] at h
    obtain ⟨h1, h2⟩ := h
    rcases Int.lt_trichotomy d1 d2 with hd | hd | hd
    · omega
    · right
      obtain ⟨h2a, h2b⟩ := h2 hd.symm
      rcases Int.lt_trichotomy p1 p2 with hp | hp | hp
      · omega
      · right
        obtain ⟨h3a, h3b⟩ := h2b hp.symm
        cases ha : a.HasFile <;> cases hb : b.HasFile <;> simp_all
        · cases hab : strLess a.SortTitle b.SortTitle
          · right; exact ht hab
          · left; rfl
        · cases hab : strLess a.SortTitle b.SortTitle
          · right; exact ht hab
          · left; rfl
      · left; exact ⟨hd, hp⟩
    · left; exact hd

theorem keyLe_antisymm (k1 k2 : Int × Int × Bool × GoString) (h1 : keyLe k1 k2)
    (h2 : keyLe k2 k1) : k1 = k2 := by
  obtain ⟨d1, p1, f1, s1⟩ := k1
  obtain ⟨d2, p2, f2, s2⟩ := k2
  unfold keyLe at h1 h2
  simp only [← strLess_iff_lex] at h1 h2
  have hs := strLess_asymm s1 s2
  rcases h1 with h | ⟨e1, h⟩ | ⟨e1, e2, e3, e4⟩ | ⟨e1, e2, e3, h⟩
  · rcases h2 with h' | ⟨e1', h'⟩ | ⟨e1', e2', e3', e4'⟩ | ⟨e1', e2', e3', h'⟩ <;> omega
  · rcases h2 with h' | ⟨e1', h'⟩ | ⟨e1', e2', e3', e4'⟩ | ⟨e1', e2', e3', h'⟩ <;> omega
  · rcases h2 with h' | ⟨e1', h'⟩ | ⟨e1', e2', e3', e4'⟩ | ⟨e1', e2', e3', h'⟩
    · omega
    · omega
    · simp_all
    · simp_all
  · rcases h2 with h' | ⟨e1', h'⟩ | ⟨e1', e2', e3', e4'⟩ | ⟨e1', e2', e3', h'⟩
    · omega
    · omega
    · simp_all
    · obtain rfl : d1 = d2 := e1
      obtain rfl : p1 = p2 := e2
      obtain rfl : f1 = f2 := e3
      rcases h with h | h
      · rcases h' with h' | h'
        · rw [hs h] at h'; cases h'
        · rw [h']
      · rw [h]

theorem map_eq_of_injOn {β γ : Type} (f : β → γ) :
    ∀ (l1 l2 : List β), l1.map f = l2.map f →
      (∀ a ∈ l1, ∀ b ∈ l2, f a = f b → a = b) → l1 = l2
  | [], [], _, _ => rfl
  | [], _ :: _, h, _ => by simp at h
  | _ :: _, [], h, _ => by simp at h
  | a :: t1, b :: t2, h, hinj => by
    simp only [List.map_cons, List.cons.injEq] at h
    have hab := hinj a (List.mem_cons_self _ _) b (List.mem_cons_self _ _) h.1
    have ht := map_eq_of_injOn f t1 t2 h.2 (fun x hx y hy hxy =>
      hinj x (List.mem_cons_of_mem _ hx) y (List.mem_cons_of_mem _ hy) hxy)
    rw [hab, ht]

theorem sortMovies_perm (R : List Movie) : (sortMovies R).Perm R :=
  SortFunc_perm sortCmp_strictWeak R

theorem sortMovies_pairwise (R : List Movie) : (sortMovies R).Pairwise KeyOrder := by
  have h := SortFunc_sorted sortCmp_strictWeak R
  exact h.imp (fun {a b} hab => (keyOrder_iff a b).2 hab)

/-- C1: the output of the sort stage is a reordering of its input in which every record
placed before another one stands in the composite key order to it (digital release
descending, then physical release descending, then has-file first, then sort title
ascending); in particular a record with a later digital release stands before every
record with an earlier one, whatever the has-file flags. -/
theorem sortMovies_ordered (R : List Movie) :
    (sortMovies R).Perm R ∧ (sortMovies R).Pairwise KeyOrder ∧
    ∀ (i j : Nat) (hi : i < (sortMovies R).length) (hj : j < (sortMovies R).length),
      (sortMovies R)[i].DigitalRelease.Unix > (sortMovies R)[j].DigitalRelease.Unix → i < j := by
  refine ⟨sortMovies_perm R, sortMovies_pairwise R, ?_⟩
  intro i j hi hj hgt
  by_contra hij
  have hp := sortMovies_pairwise R
  rw [List.pairwise_iff_getElem] at hp
  by_cases hji : j = i
  · subst hji
    exact absurd hgt (lt_irrefl _)
  · have := hp j i hj hi (by omega)
    unfold KeyOrder at this
    omega

/-- C2, as stated, fails: a record whose two release epochs are 0 (1 January 1970) is
placed before a record that has no digital release (the zero time, epoch -62135596800)
and a physical release in 2024. -/
theorem zero_release_counterexample :
    ¬ ∀ (R : List Movie) (a b : Movie), a.DigitalRelease.Unix = 0 →
      a.PhysicalRelease.Unix = 0 →
      (b.DigitalRelease.Unix > 0 ∨ b.PhysicalRelease.Unix > 0) →
      ∀ (i j : Nat) (hi : i < (sortMovies R).length) (hj : j < (sortMovies R).length),
        (sortMovies R)[i] = a → (sortMovies R)[j] = b → j < i := by
  intro h
  have e : sortMovies
      [exampleMovie "B" "b" Time.zero ⟨1709596800, 0⟩ false 2,
       exampleMovie "A" "a" ⟨0, 0⟩ ⟨0, 0⟩ false 1] =
      [exampleMovie "A" "a" ⟨0, 0⟩ ⟨0, 0⟩ false 1,
       exampleMovie "B" "b" Time.zero ⟨1709596800, 0⟩ false 2] := by
    decide
  have := h
    [exampleMovie "B" "b" Time.zero ⟨1709596800, 0⟩ false 2,
     exampleMovie "A" "a" ⟨0, 0⟩ ⟨0, 0⟩ false 1]
    (exampleMovie "A" "a" ⟨0, 0⟩ ⟨0, 0⟩ false 1)
    (exampleMovie "B" "b" Time.zero ⟨1709596800, 0⟩ false 2)
    rfl rfl (Or.inr (by decide)) 0 1 (by rw [e]; decide) (by rw [e]; decide)
    (by simp only [e]; rfl) (by simp only [e]; rfl)
  omega

/-- C2, amended: a record whose digital-release and physical-release epochs are both 0
is placed after every record whose digital-release epoch is greater than 0, or equal to
0 with a physical-release epoch greater than 0, in the output for any list holding both. -/
theorem zero_release_sorts_after (R : List Movie) (a b : Movie)
    (ha1 : a.DigitalRelease.Unix = 0) (ha2 : a.PhysicalRelease.Unix = 0)
    (hb : b.DigitalRelease.Unix > 0 ∨
      (b.DigitalRelease.Unix = 0 ∧ b.PhysicalRelease.Unix > 0))
    (i j : Nat) (hi : i < (sortMovies R).length) (hj : j < (sortMovies R).length)
    (hia : (sortMovies R)[i] = a) (hjb : (sortMovies R)[j] = b) : j < i := by
  by_contra hij
  have hp := sortMovies_pairwise R
  rw [List.pairwise_iff_getElem] at hp
  by_cases hji : j = i
  · subst hji
    rw [hia] at hjb
    subst hjb
    omega
  · have := hp i j hi hj (by omega)
    rw [hia, hjb] at this
    unfold KeyOrder at this
    omega

/-- C3, as stated, fails: two records that agree on all four sort keys and differ in
their titles come out in the order they went in. -/
theorem sort_input_order_counterexample :
    ¬ ∀ (R R2 : List Movie), R.Perm R2 → sortMovies R = sortMovies R2 := by
  intro h
  have := h
    [exampleMovie "Alpha" "same" Time.zero Time.zero false 1,
     exampleMovie "Beta" "same" Time.zero Time.zero false 2]
    [exampleMovie "Beta" "same" Time.zero Time.zero false 2,
     exampleMovie "Alpha" "same" Time.zero Time.zero false 1]
    (List.Perm.swap _ _ _)
  revert this
  decide

/-- C3, amended: for two lists that are permutations of each other the sorted outputs
show the same sequence of composite keys (digital-release epoch, physical-release epoch,
has-file flag, sort title), and they are equal as lists of whole records whenever no two
different records of the input share all four keys. -/
theorem sortMovies_perm_invariant (R R2 : List Movie) (h : R.Perm R2) :
    (sortMovies R).map Movie.sortKey = (sortMovies R2).map Movie.sortKey ∧
    ((∀ a ∈ R, ∀ b ∈ R, a.sortKey = b.sortKey → a = b) → sortMovies R = sortMovies R2) := by
  have hp : (sortMovies R).Perm (sortMovies R2) :=
    ((sortMovies_perm R).trans h).trans (sortMovies_perm R2).symm
  have hk : (sortMovies R).map Movie.sortKey = (sortMovies R2).map Movie.sortKey := by
    haveI : IsAntisymm (Int × Int × Bool × GoString) keyLe := ⟨keyLe_antisymm⟩
    have s1 : List.Sorted keyLe ((sortMovies R).map Movie.sortKey) :=
      List.pairwise_map.2 (sortMovies_pairwise R)
    have s2 : List.Sorted keyLe ((sortMovies R2).map Movie.sortKey) :=
      List.pairwise_map.2 (sortMovies_pairwise R2)
    exact List.eq_of_perm_of_sorted (hp.map Movie.sortKey) s1 s2
  refine ⟨hk, fun hinj => ?_⟩
  apply map_eq_of_injOn Movie.sortKey _ _ hk
  intro a ha b hb hab
  exact hinj a ((sortMovies_perm R).subset ha) b
    (h.symm.subset ((sortMovies_perm R2).subset hb)) hab

/-- C4: the sort stage is idempotent. -/
theorem sortMovies_idempotent (R : List Movie) :
    sortMovies (sortMovies R) = sortMovies R :=
  SortFunc_fixed sortCmp (sortMovies R) (SortFunc_sorted sortCmp_strictWeak R)

theorem natDigitsAux_acc : ∀ (fuel n : Nat) (acc : GoString),
    natDigitsAux fuel n acc = natDigitsAux fuel n [] ++ acc
  | 0, _, acc => by simp [natDigitsAux]
  | fuel + 1, n, acc => by
    unfold natDigitsAux
    split
    · simp
    · rw [natDigitsAux_acc fuel (n / 10) (digitByte n :: acc),
        natDigitsAux_acc fuel (n / 10) [digitByte n]]
      simp

theorem natDigitsAux_fuel : ∀ (fuel1 fuel2 n : Nat), n < fuel1 → n < fuel2 →
    natDigitsAux fuel1 n [] = natDigitsAux fuel2 n []
  | 0, _, _, h, _ => by omega
  | _ + 1, 0, _, _, h => by omega
  | f1 + 1, f2 + 1, n, h1, h2 => by
    unfold natDigitsAux
    split
    · rfl
    · rw [natDigitsAux_acc f1, natDigitsAux_acc f2,
        natDigitsAux_fuel f1 f2 (n / 10) (by omega) (by omega)]

theorem natDigits_small (n : Nat) (h : n < 10) : natDigits n = [digitByte n] := by
  unfold natDigits natDigitsAux
  rw [if_pos h]

theorem natDigits_step (n : Nat) (h : 10 ≤ n) :
    natDigits n = natDigits (n / 10) ++ [digitByte n] := by
  unfold natDigits
  conv => lhs; unfold natDigitsAux
  rw [if_neg (by omega), natDigitsAux_acc]
  rw [natDigitsAux_fuel n (n / 10 + 1) (n / 10) (by omega) (by omega)]

theorem civilFromDays_bounds (days : Int) :
    1 ≤ (civilFromDays days).2.1 ∧ (civilFromDays days).2.1 ≤ 12 ∧
    1 ≤ (civilFromDays days).2.2 ∧ (civilFromDays days).2.2 ≤ 31 := by
  unfold civilFromDays
  simp only []
  have h1 := Int.emod_nonneg (days + 719468) (show (146097 : Int) ≠ 0 by decide)
  have h2 := Int.emod_lt_of_pos (days + 719468) (show (0 : Int) < 146097 by decide)
  generalize (days + 719468) % 146097 = doe at h1 h2 ⊢
  generalize (days + 719468) / 146097 = era
  split <;> omega

theorem appendInt_nat (n width : Nat) :
    appendInt (n : Int) width =
      List.replicate (width - (natDigits n).length) (digitByte 0) ++ natDigits n := by
  unfold appendInt
  simp

theorem stdUnderDay_eq (d : Nat) (h : d ≤ 31) : stdUnderDay (d : Int) = dayField d := by
  unfold stdUnderDay dayField
  rw [appendInt_nat]
  by_cases h10 : d < 10
  · have : ((d : Int) < 10) := by omega
    rw [if_pos this, if_pos h10, natDigits_small d h10]
    rfl
  · have : ¬ ((d : Int) < 10) := by omega
    rw [if_neg this, if_neg h10, natDigits_step d (by omega), natDigits_small (d / 10) (by omega)]
    rfl

theorem digitByte_zero_of_lt (y k : Nat) (h : y < k) : digitByte (y / k) = digitByte 0 := by
  rw [Nat.div_eq_of_lt h]

theorem appendInt_year (y : Nat) (h : y ≤ 9999) : appendInt (y : Int) 4 = yearField y := by
  rw [appendInt_nat]
  unfold yearField
  by_cases h1 : y < 10
  · rw [natDigits_small y h1, digitByte_zero_of_lt y 1000 (by omega),
      digitByte_zero_of_lt y 100 (by omega), digitByte_zero_of_lt y 10 (by omega)]
    rfl
  · rw [natDigits_step y (by omega)]
    by_cases h2 : y < 100
    · rw [natDigits_small (y / 10) (by omega), digitByte_zero_of_lt y 1000 (by omega),
        digitByte_zero_of_lt y 100 (by omega)]
      rfl
    · rw [natDigits_step (y / 10) (by omega)]
      have e1 : y / 10 / 10 = y / 100 := by omega
      rw [e1]
      by_cases h3 : y < 1000
      · rw [natDigits_small (y / 100) (by omega), digitByte_zero_of_lt y 1000 (by omega)]
        rfl
      · rw [natDigits_step (y / 100) (by omega)]
        have e2 : y / 100 / 10 = y / 1000 := by omega
        rw [e2, natDigits_small (y / 1000) (by omega)]
        rfl

theorem monthAbbrev_eq (mo : Nat) (h1 : 1 ≤ mo) (h2 : mo ≤ 12) :
    monthAbbrev (mo : Int) = monthNames.getD (mo - 1) [] := by
  interval_cases mo <;> rfl

theorem format_2Jan2006_eq (t : Time) (hy1 : 0 ≤ t.Year) (hy2 : t.Year ≤ 9999) :
    ∃ d mo y : Nat, (d : Int) = t.Day ∧ (mo : Int) = t.Month ∧ (y : Int) = t.Year ∧
      1 ≤ d ∧ d ≤ 31 ∧ 1 ≤ mo ∧ mo ≤ 12 ∧ y ≤ 9999 ∧
      t.Format_2Jan2006 =
        dayField d ++ lit " " ++ monthNames.getD (mo - 1) [] ++ lit " " ++ yearField y := by
  have hb := civilFromDays_bounds t.wallDay
  refine ⟨t.Day.toNat, t.Month.toNat, t.Year.toNat, ?_, ?_, ?_, ?_, ?_, ?_, ?_, ?_, ?_⟩
  · unfold Time.Day; omega
  · unfold Time.Month; omega
  · omega
  · unfold Time.Day; omega
  · unfold Time.Day; omega
  · unfold Time.Month; omega
  · unfold Time.Month; omega
  · omega
  · unfold Time.Format_2Jan2006
    have e1 : t.Day = ((t.Day.toNat : Nat) : Int) := by unfold Time.Day; omega
    have e2 : t.Month = ((t.Month.toNat : Nat) : Int) := by unfold Time.Month; omega
    have e3 : t.Year = ((t.Year.toNat : Nat) : Int) := by omega
    rw [e1, e2, e3, stdUnderDay_eq _ (by unfold Time.Day; omega),
      monthAbbrev_eq _ (by unfold Time.Month; omega) (by unfold Time.Month; omega),
      appendInt_year _ (by omega)]
    simp only [Int.toNat_ofNat]

/-- C7, as stated, fails: the digital release 2024-03-05T00:00:00Z renders with a space
before the day, not as the claimed string. -/
theorem date_unpadded_counterexample :
    (exampleMovie "A" "a" ⟨1709596800, 0⟩ Time.zero false 1).Date = lit " 5 Mar 2024" ∧
    (exampleMovie "A" "a" ⟨1709596800, 0⟩ Time.zero false 1).Date ≠ lit "5 Mar 2024" := by
  decide

/-- C7, amended: for every record whose digital-release epoch is greater than 0 (and
whose wall-clock year lies between 0 and 9999, as in every RFC 3339 timestamp), `Date`
renders that timestamp as the day of month in two characters, padded on the left with a
space when it is below 10, then a space, the three-letter English month, a space and the
year in four digits; for 2024-03-05T00:00:00Z the result is `" 5 Mar 2024"`. -/
theorem date_digital_format (m : Movie) (h : m.DigitalRelease.Unix > 0)
    (hy1 : 0 ≤ m.DigitalRelease.Year) (hy2 : m.DigitalRelease.Year ≤ 9999) :
    (∃ d mo y : Nat, (d : Int) = m.DigitalRelease.Day ∧ (mo : Int) = m.DigitalRelease.Month ∧
      (y : Int) = m.DigitalRelease.Year ∧ 1 ≤ d ∧ d ≤ 31 ∧ 1 ≤ mo ∧ mo ≤ 12 ∧ y ≤ 9999 ∧
      m.Date =
        dayField d ++ lit " " ++ monthNames.getD (mo - 1) [] ++ lit " " ++ yearField y) ∧
    (m.DigitalRelease = ⟨1709596800, 0⟩ → m.Date = lit " 5 Mar 2024") := by
  have hd : m.Date = m.DigitalRelease.Format_2Jan2006 := by
    unfold Movie.Date
    rw [if_pos h]
  constructor
  · rw [hd]
    exact format_2Jan2006_eq m.DigitalRelease hy1 hy2
  · intro e
    rw [hd, e]
    decide

/-- C8: `Date` picks its source by a fixed precedence: the digital release when its epoch
is greater than 0, whatever the physical release; else the physical release when its
epoch is greater than 0, in the same format; else the literal `Unknown`, which covers
two absent releases (both the zero time). -/
theorem date_precedence (m : Movie) :
    (m.DigitalRelease.Unix > 0 → m.Date = m.DigitalRelease.Format_2Jan2006) ∧
    (¬ m.DigitalRelease.Unix > 0 → m.PhysicalRelease.Unix > 0 →
      m.Date = m.PhysicalRelease.Format_2Jan2006) ∧
    (¬ m.DigitalRelease.Unix > 0 → ¬ m.PhysicalRelease.Unix > 0 → m.Date = lit "Unknown") ∧
    (m.DigitalRelease = Time.zero → m.PhysicalRelease = Time.zero → m.Date = lit "Unknown") := by
  unfold Movie.Date
  refine ⟨fun h => by rw [if_pos h], fun h1 h2 => by rw [if_neg h1, if_pos h2],
    fun h1 h2 => by rw [if_neg h1, if_neg h2], fun h1 h2 => ?_⟩
  rw [h1, h2]
  decide

theorem needsSep_iff (pos : Nat) : needsSep pos = true ↔ (0 < pos - 1 ∧ (pos - 1) % 3 = 0) := by
  unfold needsSep
  simp only []
  by_cases h0 : pos - 1 = 0
  · simp [h0]
  · by_cases h3 : pos - 1 = 3
    · simp [h3]
    · by_cases hlt : pos - 1 < 3
      · simp only [h0, h3, hlt, if_false, if_true, Bool.false_eq_true, false_iff]
        omega
      · simp only [h0, h3, hlt, if_false, decide_eq_true_eq]
        omega

theorem appendGrouped_short (ys : GoString) (h : ys.length ≤ 3) : appendGrouped ys = ys := by
  match ys, h with
  | [], _ => rfl
  | [a], _ => rfl
  | [a, b], _ => rfl
  | [a, b, c], _ => rfl

theorem appendGrouped_append (ys : GoString) (hy : ys.length = 3) :
    ∀ xs : GoString, xs ≠ [] → appendGrouped (xs ++ ys) = appendGrouped xs ++ lit "," ++ ys
  | [], h => absurd rfl h
  | [x], _ => by
    match ys, hy with
    | [a, b, c], _ => rfl
  | x :: x2 :: rest, _ => by
    have ih := appendGrouped_append ys hy (x2 :: rest) (by simp)
    have e : (x :: x2 :: rest) ++ ys = x :: ((x2 :: rest) ++ ys) := rfl
    rw [e]
    unfold appendGrouped
    rw [ih]
    have hl : ((x2 :: rest) ++ ys).length + 1 = ((x2 :: rest).length + 1) + 3 := by
      simp [hy]
    rw [hl]
    by_cases hs : needsSep ((x2 :: rest).length + 1) = true
    · have hs2 : needsSep ((x2 :: rest).length + 1 + 3) = true := by
        rw [needsSep_iff] at hs ⊢
        omega
      rw [if_pos hs, if_pos hs2]
      simp
    · have hs2 : ¬ needsSep ((x2 :: rest).length + 1 + 3) = true := by
        rw [needsSep_iff] at hs ⊢
        simp only [List.length_cons] at hs ⊢
        omega
      rw [if_neg hs, if_neg hs2]
      simp

theorem natDigits_ne_nil (n : Nat) : natDigits n ≠ [] := by
  by_cases h : n < 10
  · rw [natDigits_small n h]; simp
  · rw [natDigits_step n (by omega)]; simp

theorem natDigits_thousand (n : Nat) (h : 1000 ≤ n) :
    natDigits n = natDigits (n / 1000) ++ threeDigits (n % 1000) := by
  rw [natDigits_step n (by omega), natDigits_step (n / 10) (by omega),
    natDigits_step (n / 10 / 10) (by omega)]
  have e1 : n / 10 / 10 / 10 = n / 1000 := by omega
  unfold threeDigits digitByte
  rw [e1]
  have e2 : (n / 10 / 10) % 10 = (n % 1000 / 100) % 10 := by omega
  have e3 : (n / 10) % 10 = (n % 1000 / 10) % 10 := by omega
  have e4 : n % 10 = (n % 1000) % 10 := by omega
  rw [e2, e3, e4]
  simp

theorem natDigits_length_small (n : Nat) (h : n < 1000) : (natDigits n).length ≤ 3 := by
  by_cases h1 : n < 10
  · rw [natDigits_small n h1]; simp
  · rw [natDigits_step n (by omega)]
    by_cases h2 : n < 100
    · rw [natDigits_small (n / 10) (by omega)]; simp
    · rw [natDigits_step (n / 10) (by omega), natDigits_small (n / 10 / 10) (by omega)]; simp

theorem appendGrouped_natDigits : ∀ (fuel n : Nat), n ≤ fuel →
    appendGrouped (natDigits n) = groupThousandsAux fuel n
  | 0, n, h => by
    have : n = 0 := by omega
    subst this
    rfl
  | fuel + 1, n, h => by
    unfold groupThousandsAux
    by_cases hn : n < 1000
    · rw [if_pos hn]
      exact appendGrouped_short _ (natDigits_length_small n hn)
    · rw [if_neg hn, natDigits_thousand n (by omega),
        appendGrouped_append _ (by simp [threeDigits]) _ (natDigits_ne_nil _),
        appendGrouped_natDigits fuel (n / 1000) (by omega)]

/-- The printer's `%d` is the grouped rendering of the specification. -/
theorem printerSprintfD_eq (v : Int) : printerSprintfD v = renderGrouped v := by
  unfold printerSprintfD renderGrouped groupThousands
  rw [appendGrouped_natDigits v.natAbs v.natAbs (Nat.le_refl _)]

theorem digitByte_val (n : Nat) : (digitByte n).val = 48 + n % 10 := by
  unfold digitByte
  show (48 + n % 10) % 256 = 48 + n % 10
  omega

theorem digitsValue_append : ∀ (xs ys : GoString) (acc : Nat),
    digitsValue acc (xs ++ ys) = digitsValue (digitsValue acc xs) ys
  | [], _, _ => rfl
  | c :: rest, ys, acc => by
    simp only [List.cons_append, digitsValue]
    split
    · exact digitsValue_append rest ys _
    · exact digitsValue_append rest ys _

theorem digitsValue_digit (acc n : Nat) :
    digitsValue acc [digitByte n] = acc * 10 + n % 10 := by
  unfold digitsValue digitsValue
  rw [digitByte_val]
  rw [if_pos (by omega)]
  omega

theorem digitsValue_natDigits (n : Nat) : digitsValue 0 (natDigits n) = n := by
  induction n using Nat.strong_induction_on with
  | _ n ih =>
    by_cases h : n < 10
    · rw [natDigits_small n h, digitsValue_digit]
      omega
    · rw [natDigits_step n (by omega), digitsValue_append, ih (n / 10) (by omega),
        digitsValue_digit]
      omega

theorem digitsValue_appendGrouped : ∀ (ds : GoString) (acc : Nat),
    digitsValue acc (appendGrouped ds) = digitsValue acc ds
  | [], _ => rfl
  | d :: rest, acc => by
    unfold appendGrouped
    split
    · have e : digitsValue acc (d :: byte ',' :: appendGrouped rest) =
          digitsValue acc (d :: appendGrouped rest) := by
        simp only [digitsValue]
        split
        · rfl
        · rfl
      rw [e]
      simp only [digitsValue]
      split
      · exact digitsValue_appendGrouped rest _
      · exact digitsValue_appendGrouped rest _
    · simp only [digitsValue]
      split
      · exact digitsValue_appendGrouped rest _
      · exact digitsValue_appendGrouped rest _

theorem digitsValue_printerSprintfD (v : Int) : digitsValue 0 (printerSprintfD v) = v.natAbs := by
  unfold printerSprintfD
  rw [digitsValue_append]
  have e : digitsValue 0 (if v < 0 then lit "-" else []) = 0 := by
    split
    · decide
    · rfl
  rw [e, digitsValue_appendGrouped, digitsValue_natDigits]

theorem wrapInt64_bounds (v : Int) : -(2 : Int) ^ 63 ≤ wrapInt64 v ∧ wrapInt64 v < (2 : Int) ^ 63 := by
  unfold wrapInt64
  have h1 := Int.emod_nonneg (v + 2 ^ 63) (show (2 : Int) ^ 64 ≠ 0 by decide)
  have h2 := Int.emod_lt_of_pos (v + 2 ^ 63) (show (0 : Int) < 2 ^ 64 by decide)
  generalize (v + 2 ^ 63) % 2 ^ 64 = r at h1 h2
  norm_num at h1 h2 ⊢
  omega

/-- C10, as stated, fails: a popularity of 2^64 (a finite `float64`) does not fit Go's
`int`, so whatever value the platform puts in its place, `Trending` does not render the
truncated popularity 18,446,744,073,709,551,616. -/
theorem trending_overflow_counterexample :
    ¬ ∃ overflow : Float64 → Int,
      (⟨lit "A", lit "a", Time.zero, Time.zero, [], false, ⟨false, 1, 64⟩, 1, Time.zero⟩ :
        Movie).Trending overflow = renderGrouped (⟨false, 1, 64⟩ : Float64).truncate := by
  rintro ⟨overflow, h⟩
  have h2 := congrArg (digitsValue 0) h
  rw [← printerSprintfD_eq, digitsValue_printerSprintfD] at h2
  unfold Movie.Trending at h2
  rw [digitsValue_printerSprintfD] at h2
  have e1 : (⟨false, 1, 64⟩ : Float64).truncate = 18446744073709551616 := by decide
  simp only [intOfFloat64, e1] at h2
  have e2 : inInt64 18446744073709551616 = false := by decide
  simp only [e2, Bool.false_eq_true, if_false] at h2
  have hb := wrapInt64_bounds (overflow ⟨false, 1, 64⟩)
  generalize wrapInt64 (overflow ⟨false, 1, 64⟩) = w at h2 hb
  norm_num at hb h2
  omega

/-- C10, amended: for every record whose popularity, truncated toward zero, fits Go's
64-bit `int`, `Trending` renders that integer in decimal with a comma between each group
of three digits counted from the right and a leading minus sign for a negative value; a
value from 0 to 999 renders as its plain digits and 12345 renders as `12,345`. -/
theorem trending_grouped (overflow : Float64 → Int) (m : Movie)
    (h : inInt64 m.Popularity.truncate = true) :
    m.Trending overflow = renderGrouped m.Popularity.truncate ∧
    (0 ≤ m.Popularity.truncate → m.Popularity.truncate < 1000 →
      m.Trending overflow = natDigits m.Popularity.truncate.natAbs) ∧
    (m.Popularity.truncate = 12345 → m.Trending overflow = lit "12,345") := by
  have e : m.Trending overflow = renderGrouped m.Popularity.truncate := by
    unfold Movie.Trending intOfFloat64
    rw [if_pos h, printerSprintfD_eq]
  refine ⟨e, ?_, ?_⟩
  · intro h0 h1
    rw [e]
    unfold renderGrouped groupThousands
    rw [if_neg (by omega)]
    have hn : m.Popularity.truncate.natAbs < 1000 := by omega
    cases hk : m.Popularity.truncate.natAbs with
    | zero => rfl
    | succ k =>
      unfold groupThousandsAux
      rw [if_pos (by omega)]
      rfl
  · intro h1
    rw [e, h1]
    decide

/-- A cache that cannot hold an item of cost 1 is left as it was by the handler. -/
theorem handleRoot_cache (env : Env) (cache : Cache) (h : cache.MaxCost < 1 + itemSize) :
    (handleRoot env cache).2 = cache := by
  have hs : ∀ (v : CacheValue) (t n : Nat) (bf : Bool), cache.SetWithTTL v 1 t n bf = cache := by
    intro v t n bf
    unfold Cache.SetWithTTL
    simp only []
    have : ¬ (1 + itemSize ≤ cache.MaxCost) := by omega
    simp [this]
  unfold handleRoot
  split
  · split
    · rfl
    · split
      · rfl
      · exact hs _ _ _ _
  · split <;> rfl

/-- A lookup that finds a `string`, the type of value that the miss branch writes, fails
the type test of the hit branch: the handler leaves through the cache-type error. -/
theorem handleRoot_hit_string (env : Env) (cache : Cache) (x : GoString)
    (h : cache.Get env.now = some (CacheValue.ofString x)) :
    (handleRoot env cache).1 = Outcome.cacheTypeError := by
  unfold handleRoot
  simp only [h]

/-- C5 on the code: the cache of `main` has `MaxCost` 10 and the handler writes with cost
1, to which the cache adds its internal cost of 56, so the write of the miss branch is
rejected: the cache stays empty, a lookup at any later time finds nothing, and the next
request takes the miss branch again and fetches from upstream anew (what it renders is
the newly fetched body, not a cached one). -/
theorem cache_write_dropped (env1 env2 : Env) :
    (handleRoot env1 mainCache).2 = mainCache ∧
    (handleRoot env1 mainCache).2.Get env2.now = none ∧
    handleRoot env2 (handleRoot env1 mainCache).2 = handleRoot env2 mainCache ∧
    (∀ resp x, env2.httpGet (upstreamURL env2) = .ok resp → resp.Body = .ok x →
      (handleRoot env2 (handleRoot env1 mainCache).2).1 = handleBody env2 x) := by
  have h1 : (handleRoot env1 mainCache).2 = mainCache :=
    handleRoot_cache env1 mainCache (by decide)
  refine ⟨h1, by rw [h1]; rfl, by rw [h1], ?_⟩
  intro resp x hget hbody
  rw [h1]
  unfold handleRoot
  have hm : mainCache.Get env2.now = none := rfl
  simp only [hm, hget, hbody]

/-- C5, at a concrete input: two requests one minute apart, the upstream answering both
with status 200 and body `[]`; the second request finds nothing in the cache and renders
the body it fetched itself. -/
theorem cache_write_dropped_example :
    (handleRoot (exampleEnv 0 200 (lit "[]")) mainCache).2.Get 60 = none ∧
    (handleRoot (exampleEnv 60 200 (lit "[]"))
      (handleRoot (exampleEnv 0 200 (lit "[]")) mainCache).2).1 =
      Outcome.executed ⟨[], lit "shows.example.com"⟩ none :=
  ⟨(cache_write_dropped (exampleEnv 0 200 (lit "[]")) (exampleEnv 60 200 (lit "[]"))).2.1,
    (cache_write_dropped (exampleEnv 0 200 (lit "[]")) (exampleEnv 60 200 (lit "[]"))).2.2.2
      ⟨200, .ok (lit "[]")⟩ (lit "[]") rfl rfl⟩

/-- C6, as stated, fails: on a miss with an upstream response of status 500 and body
`[]` the handler does not abort with an upstream error; it decodes the body and runs the
template on the (empty) list. -/
theorem upstream_status_counterexample :
    (¬ ∀ (env : Env) (cache : Cache) (resp : Response), cache.Get env.now = none →
      env.httpGet (upstreamURL env) = .ok resp →
      (resp.StatusCode < 200 ∨ 300 ≤ resp.StatusCode) →
      (∃ err, (handleRoot env cache).1 = Outcome.upstreamError err) ∧
        (handleRoot env cache).2 = cache) ∧
    (handleRoot (exampleEnv 0 500 (lit "[]")) mainCache).1 =
      Outcome.executed ⟨[], lit "shows.example.com"⟩ none := by
  refine ⟨?_, rfl⟩
  intro h
  obtain ⟨err, herr⟩ := (h (exampleEnv 0 500 (lit "[]")) mainCache ⟨500, .ok (lit "[]")⟩
    rfl rfl (Or.inr (by decide))).1
  have e : (handleRoot (exampleEnv 0 500 (lit "[]")) mainCache).1 =
      Outcome.executed ⟨[], lit "shows.example.com"⟩ none := rfl
  rw [e] at herr
  cases herr

/-- C6, amended: on a cache miss the handler aborts with an upstream error when
`http.Get` or the read of the body returns an error, and then leaves the cache as it
was; the status of a response is not examined: whatever it is, a request whose body was
read does not end in an upstream error but goes on to decode that body and, when it
decodes, to sort the records and run the template on them. -/
theorem upstream_failure_cases (env : Env) (cache : Cache)
    (hmiss : cache.Get env.now = none) :
    (∀ err, env.httpGet (upstreamURL env) = .error err →
      handleRoot env cache = (Outcome.upstreamError err, cache)) ∧
    (∀ resp err, env.httpGet (upstreamURL env) = .ok resp → resp.Body = .error err →
      handleRoot env cache = (Outcome.upstreamError err, cache)) ∧
    (∀ resp b, env.httpGet (upstreamURL env) = .ok resp → resp.Body = .ok b →
      (handleRoot env cache).1 = handleBody env b ∧
      (∀ err, (handleRoot env cache).1 ≠ Outcome.upstreamError err) ∧
      (∀ err, env.Unmarshal b = .error err →
        (handleRoot env cache).1 = Outcome.decodeError err) ∧
      (∀ movies, env.Unmarshal b = .ok movies →
        (handleRoot env cache).1 =
          Outcome.executed ⟨sortMovies movies, replaceFirst (lit "movies") (lit "shows") env.Host⟩
            (env.ExecuteTemplate
              ⟨sortMovies movies, replaceFirst (lit "movies") (lit "shows") env.Host⟩))) := by
  refine ⟨?_, ?_, ?_⟩
  · intro err h
    unfold handleRoot
    simp only [hmiss, h]
  · intro resp err h hb
    unfold handleRoot
    simp only [hmiss, h, hb]
  · intro resp b h hb
    have e : (handleRoot env cache).1 = handleBody env b := by
      unfold handleRoot
      simp only [hmiss, h, hb]
    refine ⟨e, ?_, ?_, ?_⟩
    · intro err
      rw [e]
      unfold handleBody
      simp only []
      split
      · intro hc; cases hc
      · intro hc; cases hc
    · intro err hu
      rw [e]
      unfold handleBody
      simp only [hu]
    · intro movies hu
      rw [e]
      unfold handleBody
      simp only [hu]

set_option maxRecDepth 100000 in
theorem unescaped_byte_plain : ∀ c : Byte, shouldEscape c = false →
    c ≠ byte '%' ∧ c ≠ byte '+' ∧ c ≠ byte '&' ∧ c ≠ byte ';' ∧ c ≠ byte '=' := by
  decide

set_option maxRecDepth 100000 in
theorem escaped_byte_roundtrip : ∀ c : Byte,
    ishex (upperhex (c.val / 16)) = true ∧ ishex (upperhex (c.val % 16)) = true ∧
    (Fin.ofNat (unhex (upperhex (c.val / 16)) * 16 + unhex (upperhex (c.val % 16))) : Byte) = c := by
  decide

set_option maxRecDepth 100000 in
theorem upperhex_plain : ∀ c : Byte,
    (upperhex (c.val / 16) ≠ byte '&' ∧ upperhex (c.val / 16) ≠ byte ';' ∧
      upperhex (c.val / 16) ≠ byte '=') ∧
    (upperhex (c.val % 16) ≠ byte '&' ∧ upperhex (c.val % 16) ≠ byte ';' ∧
      upperhex (c.val % 16) ≠ byte '=') := by
  decide

theorem QueryEscape_plain : ∀ (s : GoString) (c : Byte), c ∈ QueryEscape s →
    c ≠ byte '&' ∧ c ≠ byte ';' ∧ c ≠ byte '='
  | [], c, h => by simp [QueryEscape] at h
  | b :: rest, c, h => by
    unfold QueryEscape at h
    by_cases hb : shouldEscape b = true
    · rw [if_pos hb] at h
      by_cases hsp : b = byte ' '
      · rw [if_pos hsp] at h
        rcases List.mem_cons.1 h with h1 | h1
        · rw [h1]; decide
        · exact QueryEscape_plain rest c h1
      · rw [if_neg hsp] at h
        have hu := upperhex_plain b
        rcases List.mem_cons.1 h with h1 | h1
        · rw [h1]; decide
        · rcases List.mem_cons.1 h1 with h2 | h2
          · rw [h2]; exact hu.1
          · rcases List.mem_cons.1 h2 with h3 | h3
            · rw [h3]; exact hu.2
            · exact QueryEscape_plain rest c h3
    · rw [if_neg hb] at h
      rcases List.mem_cons.1 h with h1 | h1
      · have := unescaped_byte_plain b (by simpa using hb)
        rw [h1]
        exact ⟨this.2.2.1, this.2.2.2.1, this.2.2.2.2⟩
      · exact QueryEscape_plain rest c h1

/-- Unescaping undoes escaping. -/
theorem QueryUnescape_QueryEscape : ∀ s : GoString, QueryUnescape (QueryEscape s) = some s
  | [] => rfl
  | b :: rest => by
    have ih := QueryUnescape_QueryEscape rest
    unfold QueryEscape
    by_cases hb : shouldEscape b = true
    · rw [if_pos hb]
      by_cases hsp : b = byte ' '
      · rw [if_pos hsp]
        unfold QueryUnescape
        rw [if_neg (by decide), if_pos rfl, ih, hsp]
        rfl
      · rw [if_neg hsp]
        unfold QueryUnescape
        have hr := escaped_byte_roundtrip b
        rw [if_pos rfl]
        simp only [hr.1, hr.2.1, Bool.and_self, if_true, ih, Option.map_some', hr.2.2]
    · rw [if_neg hb]
      have hp := unescaped_byte_plain b (by simpa using hb)
      unfold QueryUnescape
      rw [if_neg hp.1, if_neg hp.2.1, ih]
      rfl

theorem cutByte_not_mem (sep : Byte) : ∀ s : GoString, sep ∉ s → cutByte sep s = (s, [])
  | [], _ => rfl
  | c :: rest, h => by
    unfold cutByte
    have h1 : c ≠ sep := fun e => h (by rw [e]; exact List.mem_cons_self _ _)
    have h2 : sep ∉ rest := fun e => h (List.mem_cons_of_mem _ e)
    rw [if_neg h1, cutByte_not_mem sep rest h2]

theorem cutByte_cons_ne (sep c : Byte) (rest : GoString) (h : c ≠ sep) :
    cutByte sep (c :: rest) = (c :: (cutByte sep rest).1, (cutByte sep rest).2) := by
  conv => lhs; unfold cutByte
  rw [if_neg h]

theorem cutByte_cons_eq (sep : Byte) (rest : GoString) :
    cutByte sep (sep :: rest) = ([], rest) := by
  unfold cutByte
  rw [if_pos rfl]

theorem posterQuery_eq (r : GoString) :
    Values.Encode (Values.Add (Values.Add (Values.Add (Values.Add [] (lit "url") r)
      (lit "output") (lit "webp")) (lit "h") (lit "400")) (lit "q") (lit "100")) =
      lit "h=400&output=webp&q=100&url=" ++ QueryEscape r := by
  rfl

theorem posterLoop_cons_poster (image : Image) (rest : List Image)
    (h : image.CoverType = lit "poster") :
    posterLoop (image :: rest) =
      lit "https://images.weserv.nl/?" ++
        (lit "h=400&output=webp&q=100&url=" ++ QueryEscape image.RemoteUrl) := by
  unfold posterLoop
  rw [if_pos h]
  simp only []
  rw [posterQuery_eq]

theorem cutByte_append (sep : Byte) (rest : GoString) :
    ∀ p : GoString, sep ∉ p → cutByte sep (p ++ sep :: rest) = (p, rest)
  | [], _ => cutByte_cons_eq sep rest
  | c :: p, h => by
    have h1 : c ≠ sep := fun e => h (by rw [e]; exact List.mem_cons_self _ _)
    have h2 : sep ∉ p := fun e => h (List.mem_cons_of_mem _ e)
    rw [List.cons_append, cutByte_cons_ne sep c _ h1, cutByte_append sep rest p h2]

theorem parseQueryLoop_step (fuel : Nat) (query : GoString) (m : Values) (err : Bool)
    (h : query ≠ []) :
    parseQueryLoop (fuel + 1) query m err =
      parseQueryLoop fuel (cutByte (byte '&') query).2
        (parsePiece m (cutByte (byte '&') query).1).1
        (err || (parsePiece m (cutByte (byte '&') query).1).2) := by
  conv => lhs; unfold parseQueryLoop
  rw [if_neg h]

theorem parseQueryLoop_nil (fuel : Nat) (m : Values) (err : Bool) :
    parseQueryLoop fuel [] m err = (m, err) := by
  cases fuel with
  | zero => rfl
  | succ n => unfold parseQueryLoop; rw [if_pos rfl]

/-- The query string that `Poster` builds decodes to its four parameters. -/
theorem parseQuery_poster (esc r : GoString)
    (hplain : ∀ c ∈ esc, c ≠ byte '&' ∧ c ≠ byte ';' ∧ c ≠ byte '=')
    (hun : QueryUnescape esc = some r) :
    ParseQuery (lit "h=400&output=webp&q=100&url=" ++ esc) =
      ([(lit "h", [lit "400"]), (lit "output", [lit "webp"]), (lit "q", [lit "100"]),
        (lit "url", [r])], false) := by
  unfold ParseQuery
  have hlen : (lit "h=400&output=webp&q=100&url=" ++ esc).length + 1 = (esc.length + 25) + 4 := by
    rw [List.length_append]
    have : (lit "h=400&output=webp&q=100&url=").length = 28 := by decide
    omega
  rw [hlen]
  have e0 : lit "h=400&output=webp&q=100&url=" ++ esc =
      lit "h=400" ++ byte '&' :: (lit "output=webp" ++ byte '&' ::
        (lit "q=100" ++ byte '&' :: (lit "url=" ++ esc))) := rfl
  rw [e0, parseQueryLoop_step _ _ _ _ (by simp [lit]),
    cutByte_append (byte '&') _ (lit "h=400") (by decide)]
  simp only []
  have p1 : parsePiece [] (lit "h=400") = ([(lit "h", [lit "400"])], false) := by decide
  rw [p1]
  simp only []
  rw [parseQueryLoop_step _ _ _ _ (by simp [lit]),
    cutByte_append (byte '&') _ (lit "output=webp") (by decide)]
  simp only []
  have p2 : parsePiece [(lit "h", [lit "400"])] (lit "output=webp") =
      ([(lit "h", [lit "400"]), (lit "output", [lit "webp"])], false) := by decide
  rw [p2]
  simp only []
  rw [parseQueryLoop_step _ _ _ _ (by simp [lit]),
    cutByte_append (byte '&') _ (lit "q=100") (by decide)]
  simp only []
  have p3 : parsePiece [(lit "h", [lit "400"]), (lit "output", [lit "webp"])] (lit "q=100") =
      ([(lit "h", [lit "400"]), (lit "output", [lit "webp"]), (lit "q", [lit "100"])], false) := by
    decide
  rw [p3]
  simp only []
  have hamp : byte '&' ∉ lit "url=" ++ esc := by
    intro hm
    rcases List.mem_append.1 hm with h1 | h1
    · revert h1; decide
    · exact (hplain _ h1).1 rfl
  have hsemi : byte ';' ∉ lit "url=" ++ esc := by
    intro hm
    rcases List.mem_append.1 hm with h1 | h1
    · revert h1; decide
    · exact (hplain _ h1).2.1 rfl
  rw [parseQueryLoop_step _ _ _ _ (by simp [lit]), cutByte_not_mem (byte '&') _ hamp]
  simp only []
  have p4 : parsePiece [(lit "h", [lit "400"]), (lit "output", [lit "webp"]),
      (lit "q", [lit "100"])] (lit "url=" ++ esc) =
      ([(lit "h", [lit "400"]), (lit "output", [lit "webp"]), (lit "q", [lit "100"]),
        (lit "url", [r])], false) := by
    unfold parsePiece
    have hc : (lit "url=" ++ esc).contains (byte ';') = false := by
      rw [Bool.eq_false_iff]
      intro h
      exact hsemi (List.mem_of_elem_eq_true h)
    rw [hc]
    have hne : lit "url=" ++ esc ≠ [] := by simp [lit]
    simp only [Bool.false_eq_true, if_false, hne]
    have e1 : lit "url=" ++ esc = lit "url" ++ byte '=' :: esc := rfl
    rw [e1, cutByte_append (byte '=') esc (lit "url") (by decide)]
    simp only []
    have e2 : QueryUnescape (lit "url") = some (lit "url") := by decide
    rw [e2]
    simp only [hun]
    rfl
  rw [p4, parseQueryLoop_nil]
  rfl

theorem posterLoop_none : ∀ images : List Image,
    (∀ image ∈ images, image.CoverType ≠ lit "poster") →
    posterLoop images = lit "https://critics.io/img/movies/poster-placeholder.png"
  | [], _ => rfl
  | image :: rest, h => by
    unfold posterLoop
    rw [if_neg (h image (List.mem_cons_self _ _))]
    exact posterLoop_none rest (fun i hi => h i (List.mem_cons_of_mem _ hi))

theorem posterLoop_find : ∀ (images : List Image) (image : Image),
    images.find? (fun i => decide (i.CoverType = lit "poster")) = some image →
    posterLoop images =
      lit "https://images.weserv.nl/?" ++
        (lit "h=400&output=webp&q=100&url=" ++ QueryEscape image.RemoteUrl)
  | [], _, h => by simp at h
  | first :: rest, image, h => by
    by_cases hp : first.CoverType = lit "poster"
    · rw [List.find?_cons_of_pos _ (by simpa using hp)] at h
      cases h
      exact posterLoop_cons_poster first rest hp
    · rw [List.find?_cons_of_neg _ (by simpa using hp)] at h
      unfold posterLoop
      rw [if_neg hp]
      exact posterLoop_find rest image h

theorem proxy_ne_placeholder (q : GoString) :
    lit "https://images.weserv.nl/?" ++ q ≠
      lit "https://critics.io/img/movies/poster-placeholder.png" := by
  intro h
  have h1 := congrArg (fun l : GoString => l[8]?) h
  have h2 : (lit "https://images.weserv.nl/?" ++ q)[8]? = some (byte 'i') := rfl
  have h3 : (lit "https://critics.io/img/movies/poster-placeholder.png")[8]? = some (byte 'c') :=
    rfl
  simp only [h2, h3] at h1
  revert h1
  decide

/-- C9: `Poster` returns the fixed placeholder URL exactly when no image of the record
has cover type `poster`; otherwise it returns the resize-proxy base followed by a query
string whose decoded parameters are exactly `h` = 400, `output` = webp, `q` = 100 and
`url` = the remote URL of the first image with cover type `poster`. For a single poster
with remote URL `http://example.com/a.jpg` these are the decoded parameters. -/
theorem poster_spec (m : Movie) :
    (m.Poster = lit "https://critics.io/img/movies/poster-placeholder.png" ↔
      ∀ image ∈ m.Images, image.CoverType ≠ lit "poster") ∧
    (∀ image, m.Images.find? (fun i => decide (i.CoverType = lit "poster")) = some image →
      ∃ query, m.Poster = lit "https://images.weserv.nl/?" ++ query ∧
        ParseQuery query =
          ([(lit "h", [lit "400"]), (lit "output", [lit "webp"]), (lit "q", [lit "100"]),
            (lit "url", [image.RemoteUrl])], false)) ∧
    (∀ u, m.Images = [⟨lit "poster", u, lit "http://example.com/a.jpg"⟩] →
      m.Poster = lit "https://images.weserv.nl/?" ++
          lit "h=400&output=webp&q=100&url=http%3A%2F%2Fexample.com%2Fa.jpg" ∧
        ParseQuery (lit "h=400&output=webp&q=100&url=http%3A%2F%2Fexample.com%2Fa.jpg") =
          ([(lit "h", [lit "400"]), (lit "output", [lit "webp"]), (lit "q", [lit "100"]),
            (lit "url", [lit "http://example.com/a.jpg"])], false)) := by
  unfold Movie.Poster
  refine ⟨⟨?_, posterLoop_none m.Images⟩, ?_, ?_⟩
  · intro h image himg hcov
    cases hf : m.Images.find? (fun i => decide (i.CoverType = lit "poster")) with
    | none =>
      rw [List.find?_eq_none] at hf
      exact hf image himg (by simpa using hcov)
    | some found =>
      rw [posterLoop_find m.Images found hf] at h
      exact proxy_ne_placeholder _ h
  · intro image hf
    exact ⟨_, posterLoop_find m.Images image hf,
      parseQuery_poster _ _ (QueryEscape_plain image.RemoteUrl)
        (QueryUnescape_QueryEscape image.RemoteUrl)⟩
  · intro u hm
    rw [hm]
    constructor
    · rw [posterLoop_cons_poster _ _ rfl]
      rfl
    · decide

/-! ## The theorems at concrete inputs -/

/-- The scenario of the specification: a record with the later digital release and no
file is placed before a record with the earlier digital release and a file. -/
theorem sortMovies_ordered_witness :
    sortMovies [exampleMovie "Early" "early" ⟨1700000000, 0⟩ Time.zero true 1,
        exampleMovie "Late" "late" ⟨1709596800, 0⟩ Time.zero false 2] =
      [exampleMovie "Late" "late" ⟨1709596800, 0⟩ Time.zero false 2,
        exampleMovie "Early" "early" ⟨1700000000, 0⟩ Time.zero true 1] ∧
    (0 : Nat) < 1 :=
  ⟨by decide,
    (sortMovies_ordered [exampleMovie "Early" "early" ⟨1700000000, 0⟩ Time.zero true 1,
      exampleMovie "Late" "late" ⟨1709596800, 0⟩ Time.zero false 2]).2.2 0 1
      (by decide) (by decide) (by decide)⟩

/-- A record with both epochs 0 is placed after a record released digitally in 2024. -/
theorem zero_release_sorts_after_witness :
    sortMovies [exampleMovie "A" "a" ⟨0, 0⟩ ⟨0, 0⟩ false 1,
        exampleMovie "B" "b" ⟨1709596800, 0⟩ Time.zero false 2] =
      [exampleMovie "B" "b" ⟨1709596800, 0⟩ Time.zero false 2,
        exampleMovie "A" "a" ⟨0, 0⟩ ⟨0, 0⟩ false 1] ∧
    (0 : Nat) < 1 :=
  ⟨by decide,
    zero_release_sorts_after
      [exampleMovie "A" "a" ⟨0, 0⟩ ⟨0, 0⟩ false 1,
        exampleMovie "B" "b" ⟨1709596800, 0⟩ Time.zero false 2]
      (exampleMovie "A" "a" ⟨0, 0⟩ ⟨0, 0⟩ false 1)
      (exampleMovie "B" "b" ⟨1709596800, 0⟩ Time.zero false 2)
      (by decide) (by decide) (Or.inl (by decide)) 1 0 (by decide) (by decide)
      (by decide) (by decide)⟩

/-- Two records with different sort titles come out in the same order whichever way
round they go in. -/
theorem sortMovies_perm_invariant_witness :
    sortMovies [exampleMovie "A" "a" Time.zero Time.zero false 1,
        exampleMovie "B" "b" Time.zero Time.zero false 2] =
      sortMovies [exampleMovie "B" "b" Time.zero Time.zero false 2,
        exampleMovie "A" "a" Time.zero Time.zero false 1] :=
  (sortMovies_perm_invariant
    [exampleMovie "A" "a" Time.zero Time.zero false 1,
      exampleMovie "B" "b" Time.zero Time.zero false 2]
    [exampleMovie "B" "b" Time.zero Time.zero false 2,
      exampleMovie "A" "a" Time.zero Time.zero false 1]
    (List.Perm.swap _ _ _)).2 (by decide)

/-- A miss with an upstream answer of status 500 and body `[]` is rendered. -/
theorem upstream_failure_cases_witness :
    (handleRoot (exampleEnv 0 500 (lit "[]")) mainCache).1 =
      Outcome.executed ⟨[], lit "shows.example.com"⟩ none :=
  ((upstream_failure_cases (exampleEnv 0 500 (lit "[]")) mainCache rfl).2.2
    ⟨500, .ok (lit "[]")⟩ (lit "[]") rfl rfl).2.2.2 [] rfl

/-- The digital release 2024-03-05T00:00:00Z renders with a space before the day. -/
theorem date_digital_format_witness :
    (exampleMovie "A" "a" ⟨1709596800, 0⟩ Time.zero false 1).Date = lit " 5 Mar 2024" :=
  (date_digital_format (exampleMovie "A" "a" ⟨1709596800, 0⟩ Time.zero false 1)
    (by decide) (by decide) (by decide)).2 rfl

/-- A record without digital release and with a physical release on 2024-12-25 shows the
physical release. -/
theorem date_precedence_witness :
    (exampleMovie "A" "a" Time.zero ⟨1735084800, 0⟩ false 1).Date = lit "25 Dec 2024" :=
  ((date_precedence (exampleMovie "A" "a" Time.zero ⟨1735084800, 0⟩ false 1)).2.1
    (by decide) (by decide)).trans (by decide)

/-- The poster of the specification's example. -/
theorem poster_spec_witness :
    (⟨lit "A", lit "a", Time.zero, Time.zero,
      [⟨lit "poster", [], lit "http://example.com/a.jpg"⟩], false, ⟨false, 0, 0⟩, 1,
      Time.zero⟩ : Movie).Poster =
      lit "https://images.weserv.nl/?" ++
        lit "h=400&output=webp&q=100&url=http%3A%2F%2Fexample.com%2Fa.jpg" :=
  ((poster_spec ⟨lit "A", lit "a", Time.zero, Time.zero,
      [⟨lit "poster", [], lit "http://example.com/a.jpg"⟩], false, ⟨false, 0, 0⟩, 1,
      Time.zero⟩).2.2 [] rfl).1

/-- A popularity of 12641974 / 1024 (about 12345.68) renders as `12,345`. -/
theorem trending_grouped_witness :
    (⟨lit "A", lit "a", Time.zero, Time.zero, [], false, ⟨false, 12641974, -10⟩, 1,
      Time.zero⟩ : Movie).Trending (fun _ => 0) = lit "12,345" :=
  (trending_grouped (fun _ => 0)
    ⟨lit "A", lit "a", Time.zero, Time.zero, [], false, ⟨false, 12641974, -10⟩, 1, Time.zero⟩
    (by decide)).2.2 (by decide)

end RadarrShare
